import Mathlib

/-!
Verification of the 2D computational-geometry library `comp_geom_2D`
(source: src/comp_geom_2D.cxx) against its specification.

The library is a C++ template over a numeric coordinate type `T`.  We embed
the integer instantiation: coordinates are mathematical integers (`ℤ`), and
the `long double` intermediate arithmetic is modelled exactly.  For integer
coordinates every intermediate value in the algorithms is an integer, and the
source's epsilon test `|val| < 1e-9` on an integer-valued accumulator is
equivalent to `val = 0`, so the integer instantiation is an exact embedding
(the one place where `long double` rounding itself matters — the claim about
overflow/precision of `orientation` — gets its own explicit rounding model,
`orientationLD`, below).

Distances: the C++ routines `closestPair` and `polygonDiameter` return
`sqrt` of an exactly-computed squared distance, and all internal comparisons
are on squared distances.  Since `Real.sqrt` is strictly monotone on the
nonnegative reals, equality/ordering statements about the returned distances
are equivalent to the same statements about the squared values; we therefore
embed the squared-distance cores (`closestPairSq`, `polygonDiameterSq`) and
state the claims on them.
-/

namespace CompGeom

/-- A 2D point with integer coordinates (the `Point<T>` template instantiated
at an integer type, coordinates modelled as unbounded integers). -/
structure Point where
  x : ℤ
  y : ℤ
deriving DecidableEq, Repr

/-- Strict lexicographic order, the source's `Point::operator<`:
`x` primary, `y` secondary. -/
def lexLt (p q : Point) : Prop :=
  p.x < q.x ∨ (p.x = q.x ∧ p.y < q.y)

instance (p q : Point) : Decidable (lexLt p q) := by
  unfold lexLt; infer_instance

/-- Non-strict lexicographic order: `¬ lexLt q p`, the order in which
`std::sort` with `operator<` leaves the sequence. -/
def lexLe (p q : Point) : Prop := ¬ lexLt q p

instance (p q : Point) : Decidable (lexLe p q) := by
  unfold lexLe; infer_instance

/-- The Boolean comparator handed to the model of `std::sort(..., <)`. -/
def lexLeB (p q : Point) : Bool := decide (lexLe p q)

/-- Non-strict order on the `y` coordinate: the order in which `std::sort`
with the source's `sortByY` comparator leaves the sequence. -/
def yLe (p q : Point) : Prop := p.y ≤ q.y

instance (p q : Point) : Decidable (yLe p q) := by
  unfold yLe; infer_instance

/-- The source's `sortByY` comparator, non-strict form (`¬ (b.y < a.y)`). -/
def yLeB (p q : Point) : Bool := decide (yLe p q)

/-- The signed cross product `(q − p) × (r − p)`: positive iff `p,q,r` make a
strict counter-clockwise (left) turn.  The source's accumulator `val` in
`orientation` equals `-cross p q r`. -/
def cross (p q r : Point) : ℤ :=
  (q.x - p.x) * (r.y - p.y) - (q.y - p.y) * (r.x - p.x)

/-- The source's `orientation(p, q, r)`.  The C++ computes
`val = (q.y−p.y)(r.x−q.x) − (q.x−p.x)(r.y−q.y)` (which equals `-cross p q r`)
in `long double` and compares `|val| < EPS`; for integer coordinates `val` is
an integer and the epsilon test is exactly `val = 0`.
Returns 0 = collinear, 1 = clockwise, 2 = counter-clockwise. -/
def orientation (p q r : Point) : ℤ :=
  let val : ℤ := (q.y - p.y) * (r.x - q.x) - (q.x - p.x) * (r.y - q.y)
  if val = 0 then 0 else if 0 < val then 1 else 2

/-- The source's `onSegment(p, q, r)`: `q` lies in the axis-aligned bounding
box of `p` and `r`. -/
def onSegment (p q r : Point) : Bool :=
  decide (q.x ≤ max p.x r.x ∧ min p.x r.x ≤ q.x ∧
          q.y ≤ max p.y r.y ∧ min p.y r.y ≤ q.y)

/-- The source's `doIntersect(p1, q1, p2, q2)` segment-intersection test. -/
def doIntersect (p1 q1 p2 q2 : Point) : Bool :=
  let o1 := orientation p1 q1 p2
  let o2 := orientation p1 q1 q2
  let o3 := orientation p2 q2 p1
  let o4 := orientation p2 q2 q1
  if o1 ≠ 0 ∧ o2 ≠ 0 ∧ o3 ≠ 0 ∧ o4 ≠ 0 ∧ o1 ≠ o2 ∧ o3 ≠ o4 then true
  else if o1 = 0 ∧ onSegment p1 p2 q1 then true
  else if o2 = 0 ∧ onSegment p1 q2 q1 then true
  else if o3 = 0 ∧ onSegment p2 p1 q2 then true
  else if o4 = 0 ∧ onSegment p2 q1 q2 then true
  else false

/-- One step of the hull-scan inner `while` loop plus the `push_back`: with
the stack held head-first (head = most recently pushed = `hull.back()`),
pop while the stack has two entries `b :: a :: _` (so `hull[size−2] = a`,
`hull.back() = b`) and `orientation a b p ≠ 2`, then push `p`. -/
def chainStep (hull : List Point) (p : Point) : List Point :=
  match hull with
  | b :: a :: rest =>
      if orientation a b (p : Point) ≠ 2 then chainStep (a :: rest) p
      else p :: b :: a :: rest
  | _ => p :: hull

/-- One step of the second (upper-chain) scan loop of `convexHull`: identical
to `chainStep` except the pop additionally requires `hull.size() ≥ t`
(the floor protecting the already-built lower chain).  Used with `t ≥ 2`,
matching the source where `t = lowerHullSize + 1 ≥ 2`. -/
def chainStepB (t : ℕ) (hull : List Point) (p : Point) : List Point :=
  match hull with
  | b :: a :: rest =>
      if t ≤ hull.length ∧ orientation a b (p : Point) ≠ 2 then
        chainStepB t (a :: rest) p
      else p :: b :: a :: rest
  | _ => p :: hull

/-- The source's `convexHull` (Andrew's monotone chain): inputs of ≤ 2 points
are returned unchanged; otherwise sort lexicographically, build the first
chain left-to-right, then the second chain right-to-left over
`points[n−2] … points[0]` protected by the floor `t`, and drop the final
point (which re-duplicates `points[0]`).  Stacks are head-first, so the
returned vector is the final stack's tail, reversed. -/
def convexHull (points : List Point) : List Point :=
  if points.length ≤ 2 then points else
  let sorted := points.mergeSort lexLeB
  let stack1 := sorted.foldl chainStep []
  let t := stack1.length + 1
  let stack2 := ((sorted.take (sorted.length - 1)).reverse).foldl (chainStepB t) stack1
  stack2.tail.reverse

/-- The value `std::numeric_limits<T>::max()` used by `isInside` as the far
endpoint of the horizontal ray, for the 32-bit integer instantiation. -/
def INF : ℤ := 2147483647

/-- Origin point, used as the (never-reached) default of list indexing. -/
def origin : Point := ⟨0, 0⟩

/-- The edge loop of `isInside`: for each edge index `i` (the do-while visits
`i = 0 … n−1` exactly once), count ray crossings, short-circuiting to
`onSegment` when the query point is collinear with the edge. -/
def insideAux (poly : List Point) (p ext : Point) : List ℕ → ℕ → Bool
  | [], count => count % 2 = 1
  | i :: rest, count =>
      let a := poly.getD i origin
      let b := poly.getD ((i + 1) % poly.length) origin
      if doIntersect a b p ext then
        if orientation a p b = 0 then onSegment a p b
        else insideAux poly p ext rest (count + 1)
      else insideAux poly p ext rest count

/-- The source's `isInside(polygon, p)` ray-casting test: casts a ray from
`p` to `(numeric_limits::max(), p.y)` and counts proper edge crossings. -/
def isInside (poly : List Point) (p : Point) : Bool :=
  if poly.length < 3 then false
  else insideAux poly p ⟨INF, p.y⟩ (List.range poly.length) 0

/-- The source's shoelace accumulator in `polygonArea`:
`Σ (x_i·y_{i+1} − x_{i+1}·y_i)` with indices modulo the vertex count. -/
def shoelace (poly : List Point) : ℤ :=
  ∑ i ∈ Finset.range poly.length,
    ((poly.getD i origin).x * (poly.getD ((i + 1) % poly.length) origin).y -
     (poly.getD ((i + 1) % poly.length) origin).x * (poly.getD i origin).y)

/-- The source's `polygonArea`: 0 for fewer than 3 vertices, else half the
absolute value of the shoelace sum (exact, as a rational). -/
def polygonArea (poly : List Point) : ℚ :=
  if poly.length < 3 then 0 else ((shoelace poly).natAbs : ℚ) / 2

/-- The source's `distSq`: squared Euclidean distance (exact for integer
coordinates). -/
def distSq (p q : Point) : ℤ :=
  (p.x - q.x) * (p.x - q.x) + (p.y - q.y) * (p.y - q.y)

/-- Minimum of `distSq a b` over `b` in a list, `⊤` when the list is empty
(the `long double` max sentinel of the brute-force base case). -/
def minDistTo (a : Point) (l : List Point) : WithTop ℤ :=
  (l.map (fun b => ((distSq a b : ℤ) : WithTop ℤ))).foldr min ⊤

/-- Brute-force minimum pairwise squared distance over all index pairs
`i < j` (the source's `n ≤ 3` base case of `closestPairUtil`, and the
reference value for the closest-pair claim); `⊤` when fewer than 2 points. -/
def pairsMinSq : List Point → WithTop ℤ
  | [] => ⊤
  | a :: rest => min (minDistTo a rest) (pairsMinSq rest)

/-- Inner loop of `stripClosest` for a fixed strip point `a`: scan the later
strip points in y-order, stopping at the first whose squared y-gap reaches
the running minimum. -/
def stripInner (a : Point) : List Point → WithTop ℤ → WithTop ℤ
  | [], min_d => min_d
  | b :: rest, min_d =>
      if (((b.y - a.y) * (b.y - a.y) : ℤ) : WithTop ℤ) < min_d then
        stripInner a rest (min min_d ((distSq a b : ℤ) : WithTop ℤ))
      else min_d

/-- The source's `stripClosest(strip, d)`: double loop with the y-gap break,
threading the running minimum through successive outer iterations. -/
def stripClosest : List Point → WithTop ℤ → WithTop ℤ
  | [], d => d
  | a :: rest, d => stripClosest rest (stripInner a rest d)

/-- The source's recursive `closestPairUtil(pointsX, pointsY)`, on squared
distances: brute force for ≤ 3 points, else split at the median of the
x-sorted copy, partition the y-sorted copy by the same lexicographic
predicate, recurse, and combine through the strip. -/
def closestPairUtil (px py : List Point) : WithTop ℤ :=
  if h : px.length ≤ 3 then pairsMinSq px
  else
    let mid := px.length / 2
    let midPoint := px.getD mid origin
    let yL := py.filter (fun p => decide (lexLt p midPoint))
    let yR := py.filter (fun p => !decide (lexLt p midPoint))
    let xL := px.take mid
    let xR := px.drop mid
    let dL := closestPairUtil xL yL
    let dR := closestPairUtil xR yR
    let d := min dL dR
    let strip := py.filter
      (fun p => decide ((((p.x - midPoint.x) * (p.x - midPoint.x) : ℤ) : WithTop ℤ) < d))
    min d (stripClosest strip d)
termination_by px.length
decreasing_by
  · simp_all [List.length_take]; omega
  · simp_all [List.length_drop]; omega

/-- The squared-distance core of the source's `closestPair`: 0 for fewer than
2 points, else `closestPairUtil` on the two sorted copies (the returned
distance is the square root of this value). -/
def closestPairSq (points : List Point) : WithTop ℤ :=
  if points.length < 2 then 0
  else closestPairUtil (points.mergeSort lexLeB) (points.mergeSort yLeB)

/-- State-passing model of the full `closestPair` call: the routine takes the
caller's vector by reference but only ever reads it — it copies it into
`pointsX`/`pointsY` and sorts and partitions the copies — so the model
returns the result value together with the caller's (untouched) sequence. -/
def closestPairRun (points : List Point) : WithTop ℤ × List Point :=
  (closestPairSq points, points)

/-- The cross product tested by the calipers advance of `polygonDiameter` at
edge indices `i, j`: the cross product of the direction vectors of hull edge
`i → i+1` and hull edge `j → j+1` (indices modulo the hull size). -/
def diamCross (hull : List Point) (i j : ℕ) : ℤ :=
  let n := hull.length
  let p1 := hull.getD i origin
  let p2 := hull.getD ((i + 1) % n) origin
  let q1 := hull.getD j origin
  let q2 := hull.getD ((j + 1) % n) origin
  (p2.x - p1.x) * (q2.y - q1.y) - (p2.y - p1.y) * (q2.x - q1.x)

/-- The rotating-calipers advance of `polygonDiameter`: starting from `j`,
step `j ← (j+1) % n` while the cross product of edge `i`'s and edge `j`'s
direction vectors is positive.  The C++ loop is `while (true)`; the model
carries explicit fuel, and the termination theorem shows fuel `n` always
suffices (the loop stops at or before `j = i`, where the cross product is 0). -/
def diamAdvance (hull : List Point) (i : ℕ) : ℕ → ℕ → ℕ
  | 0, j => j
  | fuel + 1, j =>
      if 0 < diamCross hull i j then diamAdvance hull i fuel ((j + 1) % hull.length)
      else j

/-- The outer `for (i …)` loop of `polygonDiameter`, threading `j` and the
running maximum of the recorded squared distances. -/
def diamLoop (hull : List Point) : List ℕ → ℕ → ℤ → ℤ
  | [], _, mx => mx
  | i :: rest, j, mx =>
      let n := hull.length
      let j' := diamAdvance hull i n j
      let mx' := max mx (max (distSq (hull.getD i origin) (hull.getD j' origin))
                             (distSq (hull.getD ((i + 1) % n) origin) (hull.getD j' origin)))
      diamLoop hull rest j' mx'

/-- The squared-distance core of the source's `polygonDiameter` (the returned
value is the square root of this): 0 for fewer than 2 points, the single
squared distance for a 2-point hull, 0 for a sub-2-point hull, else the
rotating-calipers sweep over the hull. -/
def polygonDiameterSq (points : List Point) : ℤ :=
  if points.length < 2 then 0 else
  let hull := convexHull points
  if hull.length = 2 then distSq (hull.getD 0 origin) (hull.getD 1 origin)
  else if hull.length < 2 then 0
  else diamLoop hull (List.range hull.length) 1 0

/-- Two's-complement wraparound of a 64-bit signed integer: the value actually
produced by the `T`-typed coordinate subtractions in `orientation` when
`T = int64_t` (the source subtracts in `T` *before* casting to `long double`). -/
def wrap64 (x : ℤ) : ℤ := (x + 2 ^ 63) % 2 ^ 64 - 2 ^ 63

/-- Fuel-based binary logarithm: `log2fuel f n` is `⌊log₂ n⌋` whenever
`f ≥ n ≥ 1`; structural recursion on the fuel keeps it kernel-evaluable
even for very large `n`. -/
def log2fuel : ℕ → ℕ → ℕ
  | 0, _ => 0
  | fuel + 1, n => if n < 2 then 0 else log2fuel fuel (n / 2) + 1

/-- Rounding of an integer value to the nearest representable `long double`
(x87 80-bit extended format, 64-bit significand), ties to even: integers of
magnitude below `2^64` are exact, larger ones round to the nearest multiple
of `2^(bits − 64)`. -/
def rnd64 (x : ℤ) : ℤ :=
  if x.natAbs < 2 ^ 64 then x
  else
    let s := log2fuel x.natAbs x.natAbs + 1 - 64
    let q := x.natAbs / 2 ^ s
    let r := x.natAbs % 2 ^ s
    let half := 2 ^ (s - 1)
    let q' := if half < r then q + 1
              else if r < half then q
              else if q % 2 = 0 then q else q + 1
    (x.sign) * (q' * 2 ^ s)

/-- The source's `orientation` with the `T = int64_t` machine arithmetic made
explicit: each coordinate difference is a 64-bit subtraction (wraparound),
each difference converts to `long double` exactly, and the two products and
their difference each round to the 64-bit significand. -/
def orientationLD (p q r : Point) : ℤ :=
  let d1 := wrap64 (q.y - p.y)
  let d2 := wrap64 (r.x - q.x)
  let d3 := wrap64 (q.x - p.x)
  let d4 := wrap64 (r.y - q.y)
  let val := rnd64 (rnd64 (d1 * d2) - rnd64 (d3 * d4))
  if val = 0 then 0 else if 0 < val then 1 else 2

/-- Coordinate negation of a point.  Negating all points reverses the
lexicographic order and preserves all cross products, which turns the
right-to-left upper-chain scan of `convexHull` into a left-to-right
lower-chain scan — the key symmetry of the hull proof. -/
def pointNeg (p : Point) : Point := ⟨-p.x, -p.y⟩

/-- All consecutive triples of a list satisfy the ternary relation `R`
(the three-point analogue of `List.Chain'`). -/
def Chain3 (R : Point → Point → Point → Prop) : List Point → Prop
  | a :: b :: c :: rest => R a b c ∧ Chain3 R (b :: c :: rest)
  | _ => True

/-- Invariant of the monotone-chain scan of `convexHull`: `S` is the stack
(head = most recently pushed) after the points of `P` have been processed in
lexicographically sorted order.  Read bottom-to-top the stack is the current
chain: strictly lexicographically increasing (except in the degenerate state
`[p, p]` reached while all processed points are equal), every consecutive
triple a strict left turn, every processed point weakly to the left of every
chain edge, the top the lexicographic maximum and the bottom the minimum of
the processed points. -/
def ScanInv (P S : List Point) : Prop :=
  S ≠ [] ∧
  (∀ s ∈ S, s ∈ P) ∧
  (S.Chain' (fun u v => lexLt v u) ∨ ∃ p, S = [p, p] ∧ ∀ q ∈ P, q = p) ∧
  Chain3 (fun x y z => 0 < cross z y x) S ∧
  (∀ q ∈ P, S.Chain' (fun u v => 0 ≤ cross v u q)) ∧
  (∀ q ∈ P, ∀ t, S.head? = some t → lexLe q t) ∧
  (∀ q ∈ P, ∀ m, S.getLast? = some m → lexLe m q) ∧
  (2 ≤ S.length ∨ P.length ≤ 1)

/-- All triples drawn from the list are collinear (every cross product
vanishes): the degenerate-input condition under which `convexHull` cannot
return a proper polygon. -/
def collinearAll (P : List Point) : Prop :=
  ∀ a ∈ P, ∀ b ∈ P, ∀ c ∈ P, cross a b c = 0

instance (P : List Point) : Decidable (collinearAll P) := by
  unfold collinearAll; infer_instance

/-- The list is a strictly convex polygon in counter-clockwise order: every
cyclic triple of consecutive vertices is a strict left turn.  Appending the
first two vertices makes the consecutive triples of the extended list
exactly the cyclic triples of `H`. -/
def CyclicCCW (H : List Point) : Prop :=
  Chain3 (fun a b c => 0 < cross a b c) (H ++ H.take 2)

/-- Every point of `P` lies inside or on the boundary of the convex polygon
`H` listed counter-clockwise: each point of `P` is weakly to the left of
every cyclic edge of `H` (appending the first vertex closes the cycle). -/
def ContainsAll (H P : List Point) : Prop :=
  ∀ q ∈ P, (H ++ H.take 1).Chain' (fun u v => 0 ≤ cross u v q)

/-- The joint invariant of the two finished chain scans: `S` is the lower
chain and `D` the upper chain of the point set `P`, both held head-first as
stacks.  `S` is strictly lexicographically decreasing head-first and `D`
strictly increasing; consecutive stack triples turn strictly left; every
point of `P` is weakly left of every chain edge; the two chains share their
first and last vertices (the lexicographic maximum and minimum). -/
structure ChainPair (P S D : List Point) : Prop where
  hS2 : 2 ≤ S.length
  hD2 : 2 ≤ D.length
  hSmem : ∀ s ∈ S, s ∈ P
  hDmem : ∀ s ∈ D, s ∈ P
  hSsort : S.Chain' (fun u v => lexLt v u)
  hDsort : D.Chain' (fun u v => lexLt u v)
  hStri : Chain3 (fun x y z => 0 < cross z y x) S
  hDtri : Chain3 (fun x y z => 0 < cross z y x) D
  hSedge : ∀ q ∈ P, S.Chain' (fun u v => 0 ≤ cross v u q)
  hDedge : ∀ q ∈ P, D.Chain' (fun u v => 0 ≤ cross v u q)
  hheads : S.head? = D.getLast?
  hlasts : S.getLast? = D.head?

/-- The lexicographically sorted copy of the input made by `convexHull`
(`std::sort` with `Point::operator<`). -/
def hullSorted (points : List Point) : List Point := points.mergeSort lexLeB

/-- The stack after the first (lower-chain) scan of `convexHull`. -/
def lowerStack (points : List Point) : List Point :=
  (hullSorted points).foldl chainStep []

/-- The plain (unfloored) chain scan over the reversed sorted points: by the
floor equivalence proved below, this is the part of the second scan's final
stack that sits above the protected lower chain. -/
def upperStack (points : List Point) : List Point :=
  ((hullSorted points).reverse).foldl chainStep []

/-! ### Vector-level primitives for the rotating-calipers analysis -/

/-- Componentwise difference `p − q`: a `Point` used as a direction vector
(the edge vectors `vec_p`, `vec_q` of `polygonDiameter`). -/
def vsub (p q : Point) : Point := ⟨p.x - q.x, p.y - q.y⟩

/-- Cross product of two direction vectors. -/
def crossv (u v : Point) : ℤ := u.x * v.y - u.y * v.x

/-- Dot product of two direction vectors. -/
def dotv (u v : Point) : ℤ := u.x * v.x + u.y * v.y

/-- The vector is lexicographically positive — the difference `q − p` of two
points with `p <lex q`.  Edge directions of the lower hull chain. -/
def lexpos (u : Point) : Prop := 0 < u.x ∨ (u.x = 0 ∧ 0 < u.y)

/-- The vector is lexicographically negative.  Edge directions of the upper
hull chain. -/
def lexneg (u : Point) : Prop := u.x < 0 ∨ (u.x = 0 ∧ u.y < 0)

/-- The `k`-th directed edge vector of the closed polygon `H`, indices taken
modulo `H.length` exactly as in the `% n` indexing of `polygonDiameter`. -/
def edgeVec (H : List Point) (k : ℕ) : Point :=
  vsub (H.getD ((k + 1) % H.length) origin) (H.getD (k % H.length) origin)

/-- The edge cycle of a strictly convex CCW polygon whose `n` edge directions
split into a leading lexicographically positive arc of length `nL` (the lower
chain) followed by a negative arc (the upper chain), consecutive directions
always turning strictly left.  This is the interface through which the
angular-order lemmas of the calipers proof see the hull. -/
structure EdgeCycle (n nL : ℕ) (E : ℕ → Point) : Prop where
  three : 3 ≤ n
  oneL : 1 ≤ nL
  ltL : nL < n
  norm : ∀ k, E (k % n) = E k
  turn : ∀ k, 0 < crossv (E k) (E (k + 1))
  posL : ∀ k, k < nL → lexpos (E k)
  negU : ∀ k, nL ≤ k → k < n → lexneg (E k)

/-- Reflection of a direction vector across the `x`-axis: reverses every
cross product and preserves every dot product, turning the "arc start"
form of the caliper endpoint lemma into its "arc end" form. -/
def mirrorv (u : Point) : Point := ⟨u.x, -u.y⟩

/-- `t` is the number of steps after which the inner advance loop of
`polygonDiameter` for edge `i` first stops: the least offset `t ≥ 1` whose
edge-direction cross product is non-positive. -/
def IsFirstStop (H : List Point) (i t : ℕ) : Prop :=
  1 ≤ t ∧ t < H.length ∧ diamCross H i ((i + t) % H.length) ≤ 0 ∧
    ∀ s, 1 ≤ s → s < t → 0 < diamCross H i ((i + s) % H.length)

/-- Largest squared distance from `a` to a point of `l` (at least 0). -/
def maxDistTo (a : Point) (l : List Point) : ℤ :=
  l.foldl (fun acc q => max acc (distSq a q)) 0

/-- Largest pairwise squared distance over a list of points (at least 0):
the brute-force reference value for `polygonDiameter`. -/
def maxPairDistSq (l : List Point) : ℤ :=
  l.foldl (fun acc p => max acc (maxDistTo p l)) 0

/-! ### Basic facts about the orientation predicate -/

theorem orientation_eq_two_iff (p q r : Point) :
    orientation p q r = 2 ↔ 0 < cross p q r := by
  have h : (q.y - p.y) * (r.x - q.x) - (q.x - p.x) * (r.y - q.y) = -cross p q r := by
    unfold cross; ring
  unfold orientation
  rw [h]
  rcases lt_trichotomy (cross p q r) 0 with h' | h' | h' <;>
    simp [h'] <;> omega

theorem orientation_eq_zero_iff (p q r : Point) :
    orientation p q r = 0 ↔ cross p q r = 0 := by
  have h : (q.y - p.y) * (r.x - q.x) - (q.x - p.x) * (r.y - q.y) = -cross p q r := by
    unfold cross; ring
  unfold orientation
  rw [h]
  rcases lt_trichotomy (cross p q r) 0 with h' | h' | h' <;>
    simp [h'] <;> omega

theorem orientation_ne_two_iff (p q r : Point) :
    orientation p q r ≠ 2 ↔ cross p q r ≤ 0 := by
  rw [ne_eq, orientation_eq_two_iff]; omega

theorem orientation_eq_one_iff (p q r : Point) :
    orientation p q r = 1 ↔ cross p q r < 0 := by
  have h : (q.y - p.y) * (r.x - q.x) - (q.x - p.x) * (r.y - q.y) = -cross p q r := by
    unfold cross; ring
  unfold orientation
  rw [h]
  rcases lt_trichotomy (cross p q r) 0 with h' | h' | h' <;>
    simp [h'] <;> omega

/-- The four-point linear identity relating the cross products of any four
points; the engine of all chain-invariant propagation arguments. -/
theorem cross_four (p q r s : Point) :
    cross q r s - cross p r s + cross p q s - cross p q r = 0 := by
  unfold cross; ring

theorem cross_swap (p q r : Point) : cross p q r = -cross p r q := by
  unfold cross; ring

theorem cross_cyclic (p q r : Point) : cross p q r = cross q r p := by
  unfold cross; ring

theorem cross_self_right (p q : Point) : cross p q q = 0 := by
  unfold cross; ring

theorem cross_self_left (p q : Point) : cross p p q = 0 := by
  unfold cross; ring

/-! ### Basic facts about the lexicographic order -/

theorem lexLt_trans {p q r : Point} (h1 : lexLt p q) (h2 : lexLt q r) :
    lexLt p r := by
  unfold lexLt at *
  rcases h1 with h1 | ⟨h1, h1'⟩ <;> rcases h2 with h2 | ⟨h2, h2'⟩ <;>
    first
      | (left; omega)
      | (right; constructor <;> omega)

theorem lexLt_asymm {p q : Point} (h : lexLt p q) : ¬ lexLt q p := by
  unfold lexLt at *; omega

theorem lexLt_total (p q : Point) : lexLt p q ∨ p = q ∨ lexLt q p := by
  unfold lexLt
  rcases p with ⟨px, py⟩; rcases q with ⟨qx, qy⟩
  simp only [Point.mk.injEq]
  omega

theorem lexLe_iff {p q : Point} : lexLe p q ↔ lexLt p q ∨ p = q := by
  rcases p with ⟨px, py⟩; rcases q with ⟨qx, qy⟩
  simp only [lexLe, lexLt, Point.mk.injEq]
  omega

theorem lexLt_irrefl (p : Point) : ¬ lexLt p p := by
  unfold lexLt; omega

theorem lexLe_refl (p : Point) : lexLe p p := by
  unfold lexLe; exact lexLt_irrefl p

theorem lexLe_antisymm {p q : Point} (h1 : lexLe p q) (h2 : lexLe q p) :
    p = q := by
  rcases lexLe_iff.1 h1 with h | h
  · exact absurd h h2
  · exact h

theorem lexLe_trans {p q r : Point} (h1 : lexLe p q) (h2 : lexLe q r) :
    lexLe p r := by
  rcases lexLe_iff.1 h1 with h1' | rfl
  · rcases lexLe_iff.1 h2 with h2' | rfl
    · exact lexLe_iff.2 (Or.inl (lexLt_trans h1' h2'))
    · exact h1
  · exact h2

theorem lexLt_of_lexLe_of_ne {p q : Point} (h : lexLe p q) (hne : p ≠ q) :
    lexLt p q := by
  rcases lexLe_iff.1 h with h' | h'
  · exact h'
  · exact absurd h' hne

theorem lexLeB_trans (a b c : Point) (h1 : lexLeB a b = true)
    (h2 : lexLeB b c = true) : lexLeB a c = true := by
  simp only [lexLeB, decide_eq_true_eq] at *
  exact lexLe_trans h1 h2

theorem lexLeB_total (a b : Point) : lexLeB a b || lexLeB b a := by
  simp only [lexLeB, Bool.or_eq_true, decide_eq_true_eq]
  rcases lexLt_total a b with h | rfl | h
  · exact Or.inl (lexLe_iff.2 (Or.inl h))
  · exact Or.inl (lexLe_refl a)
  · exact Or.inr (lexLe_iff.2 (Or.inl h))

theorem yLeB_trans (a b c : Point) (h1 : yLeB a b = true)
    (h2 : yLeB b c = true) : yLeB a c = true := by
  simp only [yLeB, yLe, decide_eq_true_eq] at *
  omega

theorem yLeB_total (a b : Point) : yLeB a b || yLeB b a := by
  simp only [yLeB, yLe, Bool.or_eq_true, decide_eq_true_eq]
  omega

/-! ### Claim C3: the point-in-polygon contract -/

/-- Claim C3 (code bug): the contract says `isInside` returns true iff the
query point lies inside the polygon or on its boundary, but on the simple
triangle `(0,0), (4,2), (0,4)` and the query point `(1,2)` — which is
strictly inside: it is strictly to the left of all three counter-clockwise
edges — the ray from `(1,2)` to `(MAX, 2)` passes exactly through the vertex
`(4,2)`, both incident edges are counted as crossings, and the even parity
makes `isInside` answer `false`. -/
theorem c3_isInside_misses_interior_point :
    isInside [⟨0, 0⟩, ⟨4, 2⟩, ⟨0, 4⟩] ⟨1, 2⟩ = false ∧
    orientation ⟨0, 0⟩ ⟨4, 2⟩ ⟨1, 2⟩ = 2 ∧
    orientation ⟨4, 2⟩ ⟨0, 4⟩ ⟨1, 2⟩ = 2 ∧
    orientation ⟨0, 4⟩ ⟨0, 0⟩ ⟨1, 2⟩ = 2 := by
  refine ⟨by decide, by decide, by decide, by decide⟩

/-! ### Claim C6: degenerate inputs -/

/-- Claim C6: every routine returns a well-defined degenerate result: for
fewer than 2 points `closestPair` and `polygonDiameter` return 0 (squared
cores return 0), and for fewer than 3 vertices `polygonArea` returns 0 and
`isInside` returns false. -/
theorem c6_degenerate_inputs_return_defaults (pts poly : List Point) (p : Point)
    (h2 : pts.length < 2) (h3 : poly.length < 3) :
    closestPairSq pts = 0 ∧ polygonDiameterSq pts = 0 ∧
    polygonArea poly = 0 ∧ isInside poly p = false := by
  refine ⟨?_, ?_, ?_, ?_⟩
  · unfold closestPairSq; simp [h2]
  · unfold polygonDiameterSq; simp [h2]
  · unfold polygonArea; simp [h3]
  · unfold isInside; simp [h3]

theorem c6_degenerate_inputs_return_defaults_witness :
    ([⟨5, 5⟩] : List Point).length < 2 ∧ ([⟨1, 2⟩] : List Point).length < 3 ∧
    (closestPairSq [⟨5, 5⟩] = 0 ∧ polygonDiameterSq [⟨5, 5⟩] = 0 ∧
     polygonArea [⟨1, 2⟩] = 0 ∧ isInside [⟨1, 2⟩] ⟨0, 0⟩ = false) :=
  ⟨by decide, by decide,
   c6_degenerate_inputs_return_defaults [⟨5, 5⟩] [⟨1, 2⟩] ⟨0, 0⟩ (by decide) (by decide)⟩

/-! ### Claim C8: closestPair does not modify the caller's sequence -/

/-- Claim C8: `closestPair` leaves the caller's vector untouched: the routine
reads the input only to build its own sorted copies (`pointsX`, `pointsY`),
so in the state-passing model of the call the returned input sequence is
exactly the original one, same points in the same order. -/
theorem c8_closestPair_preserves_input (points : List Point) :
    (closestPairRun points).2 = points := rfl

/-! ### Claim C10: termination of the rotating-calipers advance -/

theorem diamCross_self (l : List Point) (i : ℕ) : diamCross l i i = 0 := by
  unfold diamCross; ring

theorem diamAdvance_spec (l : List Point) (i : ℕ) (hi : i < l.length) :
    ∀ fuel j, j < l.length →
      (if j ≤ i then i - j else i + l.length - j) < fuel →
      diamCross l i (diamAdvance l i fuel j) ≤ 0 := by
  intro fuel
  induction fuel with
  | zero => intro j hj hf; omega
  | succ fuel ih =>
      intro j hj hf
      by_cases hcp : 0 < diamCross l i j
      · have hji : j ≠ i := by
          intro h; rw [h, diamCross_self] at hcp; omega
        have step : diamAdvance l i (fuel + 1) j =
            diamAdvance l i fuel ((j + 1) % l.length) := by
          show (if 0 < diamCross l i j then
                  diamAdvance l i fuel ((j + 1) % l.length) else j) = _
          rw [if_pos hcp]
        rw [step]
        rcases Nat.lt_or_ge (j + 1) l.length with hlt | hge
        · rw [Nat.mod_eq_of_lt hlt]
          apply ih _ hlt
          split_ifs at hf ⊢ <;> omega
        · have hj1 : j + 1 = l.length := by omega
          rw [hj1, Nat.mod_self]
          apply ih _ (by omega)
          split_ifs at hf ⊢ <;> omega
      · have hstop : diamAdvance l i (fuel + 1) j = j := by
          show (if 0 < diamCross l i j then
                  diamAdvance l i fuel ((j + 1) % l.length) else j) = _
          rw [if_neg hcp]
        rw [hstop]; omega

/-- Claim C10: the inner antipodal-advance loop of `polygonDiameter`
terminates: starting from any index `j` of the hull, advancing `j` modulo
the hull size while the edge-direction cross product is positive reaches a
non-positive cross product within `hullSize` steps (the advance can never
pass the index `i` itself, where the cross product is 0), on the hull
produced by `convexHull` for any input. -/
theorem c10_polygonDiameter_advance_terminates (points : List Point) (i j : ℕ)
    (hi : i < (convexHull points).length) (hj : j < (convexHull points).length) :
    diamCross (convexHull points) i
      (diamAdvance (convexHull points) i (convexHull points).length j) ≤ 0 := by
  apply diamAdvance_spec _ _ hi _ _ hj
  split_ifs <;> omega

unseal List.merge List.mergeSort in
theorem c10_polygonDiameter_advance_terminates_witness :
    0 < (convexHull [⟨0, 0⟩, ⟨4, 0⟩, ⟨4, 4⟩, ⟨0, 4⟩]).length ∧
    1 < (convexHull [⟨0, 0⟩, ⟨4, 0⟩, ⟨4, 4⟩, ⟨0, 4⟩]).length ∧
    diamCross (convexHull [⟨0, 0⟩, ⟨4, 0⟩, ⟨4, 4⟩, ⟨0, 4⟩]) 0
      (diamAdvance (convexHull [⟨0, 0⟩, ⟨4, 0⟩, ⟨4, 4⟩, ⟨0, 4⟩]) 0
        (convexHull [⟨0, 0⟩, ⟨4, 0⟩, ⟨4, 4⟩, ⟨0, 4⟩]).length 1) ≤ 0 :=
  ⟨by decide, by decide,
   c10_polygonDiameter_advance_terminates [⟨0, 0⟩, ⟨4, 0⟩, ⟨4, 4⟩, ⟨0, 4⟩] 0 1
     (by decide) (by decide)⟩

/-! ### Claim C9: polygonArea is orientation-independent and nonnegative -/

theorem shoelace_reverse (l : List Point) : shoelace l.reverse = -shoelace l := by
  rcases Nat.eq_zero_or_pos l.length with h0 | hpos
  · have hl : l = [] := List.eq_nil_of_length_eq_zero h0
    subst hl; simp [shoelace]
  obtain ⟨m, hm⟩ : ∃ m, l.length = m + 1 := ⟨l.length - 1, by omega⟩
  have hg : ∀ i, i ≤ m → l.reverse.getD i origin = l.getD (m - i) origin := by
    intro i hi
    rw [List.getD_eq_getElem?_getD, List.getD_eq_getElem?_getD,
        List.getElem?_reverse (by omega)]
    have h' : l.length - 1 - i = m - i := by omega
    rw [h']
  have hlen : l.reverse.length = m + 1 := by rw [List.length_reverse, hm]
  unfold shoelace
  rw [hlen, hm]
  rw [Finset.sum_range_succ, Finset.sum_range_succ]
  rw [Nat.mod_self]
  have e1 : ∀ i ∈ Finset.range m,
      ((l.reverse.getD i origin).x * (l.reverse.getD ((i + 1) % (m + 1)) origin).y -
       (l.reverse.getD ((i + 1) % (m + 1)) origin).x * (l.reverse.getD i origin).y)
      = ((l.getD (m - 1 - i + 1) origin).x * (l.getD (m - 1 - i) origin).y -
         (l.getD (m - 1 - i) origin).x * (l.getD (m - 1 - i + 1) origin).y) := by
    intro i hi
    rw [Finset.mem_range] at hi
    rw [Nat.mod_eq_of_lt (by omega), hg i (by omega), hg (i + 1) (by omega)]
    have h1 : m - 1 - i + 1 = m - i := by omega
    have h2 : m - 1 - i = m - (i + 1) := by omega
    rw [h1, h2]
  rw [Finset.sum_congr rfl e1]
  have hrefl := Finset.sum_range_reflect
      (fun j => ((l.getD (j + 1) origin).x * (l.getD j origin).y -
                 (l.getD j origin).x * (l.getD (j + 1) origin).y)) m
  simp only [] at hrefl
  rw [hrefl]
  have e2 : ∀ i ∈ Finset.range m,
      ((l.getD i origin).x * (l.getD ((i + 1) % (m + 1)) origin).y -
       (l.getD ((i + 1) % (m + 1)) origin).x * (l.getD i origin).y)
      = ((l.getD i origin).x * (l.getD (i + 1) origin).y -
         (l.getD (i + 1) origin).x * (l.getD i origin).y) := by
    intro i hi
    rw [Finset.mem_range] at hi
    rw [Nat.mod_eq_of_lt (by omega)]
  rw [Finset.sum_congr rfl e2]
  have e3 : ∀ i ∈ Finset.range m,
      ((l.getD (i + 1) origin).x * (l.getD i origin).y -
       (l.getD i origin).x * (l.getD (i + 1) origin).y)
      = -((l.getD i origin).x * (l.getD (i + 1) origin).y -
          (l.getD (i + 1) origin).x * (l.getD i origin).y) := by
    intro i _; ring
  rw [Finset.sum_congr rfl e3, Finset.sum_neg_distrib]
  rw [hg m le_rfl, hg 0 (by omega)]
  have h0' : m - m = 0 := by omega
  have hm0 : m - 0 = m := by omega
  rw [h0', hm0]
  ring

/-- Claim C9: for a polygon of at least 3 vertices, `polygonArea` returns a
nonnegative (unsigned) value, and reversing the vertex order (CW polygon
versus the same polygon CCW) does not change the returned value: the
shoelace accumulator merely changes sign and the absolute value absorbs it. -/
theorem c9_polygonArea_nonneg_and_reversal_invariant (poly : List Point)
    (h3 : 3 ≤ poly.length) :
    0 ≤ polygonArea poly ∧ polygonArea poly.reverse = polygonArea poly := by
  constructor
  · unfold polygonArea
    split_ifs
    · exact le_rfl
    · positivity
  · unfold polygonArea
    rw [List.length_reverse, shoelace_reverse, Int.natAbs_neg]

theorem c9_polygonArea_nonneg_and_reversal_invariant_witness :
    3 ≤ ([⟨0, 0⟩, ⟨4, 0⟩, ⟨4, 4⟩, ⟨0, 4⟩] : List Point).length ∧
    (0 ≤ polygonArea [⟨0, 0⟩, ⟨4, 0⟩, ⟨4, 4⟩, ⟨0, 4⟩] ∧
     polygonArea ([⟨0, 0⟩, ⟨4, 0⟩, ⟨4, 4⟩, ⟨0, 4⟩] : List Point).reverse =
       polygonArea [⟨0, 0⟩, ⟨4, 0⟩, ⟨4, 4⟩, ⟨0, 4⟩]) :=
  ⟨by decide,
   c9_polygonArea_nonneg_and_reversal_invariant [⟨0, 0⟩, ⟨4, 0⟩, ⟨4, 4⟩, ⟨0, 4⟩] (by decide)⟩

/-! ### Claim C7: extended-precision arithmetic in orientation -/

theorem wrap64_eq_self {x : ℤ} (h : |x| < 2 ^ 63) : wrap64 x = x := by
  have h' : -2 ^ 63 < x ∧ x < 2 ^ 63 := abs_lt.mp h
  unfold wrap64
  omega

theorem rnd64_eq_self {x : ℤ} (h : |x| < 2 ^ 64) : rnd64 x = x := by
  have h' : -2 ^ 64 < x ∧ x < 2 ^ 64 := abs_lt.mp h
  have hx : x.natAbs < 2 ^ 64 := by omega
  unfold rnd64
  rw [if_pos hx]

set_option maxRecDepth 10000 in
/-- Claim C7 (counterexample): the claim that `orientation`'s widening to an
extended-precision accumulator computes the cross product exactly "for all
representable coordinates" of an integer type fails for `T = int64_t`: with
`p = (0,0)`, `q = (2^33 − 1, 2^33)`, `r = (2^34 − 1, 2^34 + 1)` (all
coordinates comfortably representable in 64 bits) the two products are
`2^66` and `2^66 − 1`; the second is not representable in the 64-bit
significand of `long double`, rounds to `2^66`, and the computed accumulator
becomes 0 (collinear), while the exact cross product is 1 (a clockwise turn). -/
theorem c7_orientation_precision_loss_counterexample :
    orientationLD ⟨0, 0⟩ ⟨8589934591, 8589934592⟩ ⟨17179869183, 17179869185⟩ = 0 ∧
    orientation ⟨0, 0⟩ ⟨8589934591, 8589934592⟩ ⟨17179869183, 17179869185⟩ = 1 := by
  constructor
  · decide
  · decide

/-- Claim C7 (amended): `orientation` computes its cross product exactly —
machine arithmetic (`orientationLD`, with 64-bit coordinate subtraction and
`long double` rounding) agrees with the ideal integer computation — whenever
the four coordinate differences have magnitude at most `2^31`, so that the
differences do not overflow `T` and the products and their difference fit the
64-bit `long double` significand.  It is not exact for all representable
64-bit coordinates (see the counterexample). -/
theorem c7_orientation_exact_for_small_differences (p q r : Point)
    (h1 : |q.y - p.y| ≤ 2 ^ 31) (h2 : |r.x - q.x| ≤ 2 ^ 31)
    (h3 : |q.x - p.x| ≤ 2 ^ 31) (h4 : |r.y - q.y| ≤ 2 ^ 31) :
    orientationLD p q r = orientation p q r := by
  have habs : ∀ a b : ℤ, |a| ≤ 2 ^ 31 → |b| ≤ 2 ^ 31 → |a * b| ≤ 2 ^ 62 := by
    intro a b ha hb
    rw [abs_mul]
    calc |a| * |b| ≤ 2 ^ 31 * 2 ^ 31 :=
          mul_le_mul ha hb (abs_nonneg b) (by positivity)
      _ = 2 ^ 62 := by norm_num
  have w1 : wrap64 (q.y - p.y) = q.y - p.y := wrap64_eq_self (by omega)
  have w2 : wrap64 (r.x - q.x) = r.x - q.x := wrap64_eq_self (by omega)
  have w3 : wrap64 (q.x - p.x) = q.x - p.x := wrap64_eq_self (by omega)
  have w4 : wrap64 (r.y - q.y) = r.y - q.y := wrap64_eq_self (by omega)
  have m1 : |(q.y - p.y) * (r.x - q.x)| ≤ 2 ^ 62 := habs _ _ h1 h2
  have m2 : |(q.x - p.x) * (r.y - q.y)| ≤ 2 ^ 62 := habs _ _ h3 h4
  have r1 : rnd64 ((q.y - p.y) * (r.x - q.x)) = (q.y - p.y) * (r.x - q.x) :=
    rnd64_eq_self (lt_of_le_of_lt m1 (by norm_num))
  have r2 : rnd64 ((q.x - p.x) * (r.y - q.y)) = (q.x - p.x) * (r.y - q.y) :=
    rnd64_eq_self (lt_of_le_of_lt m2 (by norm_num))
  have r3 : rnd64 ((q.y - p.y) * (r.x - q.x) - (q.x - p.x) * (r.y - q.y)) =
      (q.y - p.y) * (r.x - q.x) - (q.x - p.x) * (r.y - q.y) := by
    apply rnd64_eq_self
    calc |(q.y - p.y) * (r.x - q.x) - (q.x - p.x) * (r.y - q.y)|
        ≤ |(q.y - p.y) * (r.x - q.x)| + |(q.x - p.x) * (r.y - q.y)| := abs_sub _ _
      _ < 2 ^ 64 := by omega
  unfold orientationLD orientation
  simp only [w1, w2, w3, w4, r1, r2, r3]

theorem c7_orientation_exact_for_small_differences_witness :
    |(8 : ℤ) - 0| ≤ 2 ^ 31 ∧ |(7 : ℤ) - 3| ≤ 2 ^ 31 ∧
    |(3 : ℤ) - 0| ≤ 2 ^ 31 ∧ |(1 : ℤ) - 8| ≤ 2 ^ 31 ∧
    orientationLD ⟨0, 0⟩ ⟨3, 8⟩ ⟨7, 1⟩ = orientation ⟨0, 0⟩ ⟨3, 8⟩ ⟨7, 1⟩ :=
  ⟨by decide, by decide, by decide, by decide,
   c7_orientation_exact_for_small_differences ⟨0, 0⟩ ⟨3, 8⟩ ⟨7, 1⟩
     (by decide) (by decide) (by decide) (by decide)⟩

/-! ### Claim C2: toolkit for the closest-pair proof -/

theorem distSq_nonneg (p q : Point) : 0 ≤ distSq p q := by
  unfold distSq
  nlinarith [sq_nonneg (p.x - q.x), sq_nonneg (p.y - q.y)]

theorem distSq_comm (p q : Point) : distSq p q = distSq q p := by
  unfold distSq; ring

theorem minDistTo_nil (a : Point) : minDistTo a [] = ⊤ := rfl

theorem minDistTo_cons (a b : Point) (l : List Point) :
    minDistTo a (b :: l) = min ((distSq a b : ℤ) : WithTop ℤ) (minDistTo a l) := rfl

theorem minDistTo_le {a b : Point} {l : List Point} (h : b ∈ l) :
    minDistTo a l ≤ ((distSq a b : ℤ) : WithTop ℤ) := by
  induction l with
  | nil => cases h
  | cons c l ih =>
      rw [minDistTo_cons]
      rcases List.mem_cons.mp h with rfl | h'
      · exact min_le_left _ _
      · exact le_trans (min_le_right _ _) (ih h')

theorem le_minDistTo {a : Point} {c : WithTop ℤ} {l : List Point}
    (h : ∀ b ∈ l, c ≤ ((distSq a b : ℤ) : WithTop ℤ)) : c ≤ minDistTo a l := by
  induction l with
  | nil => exact le_top
  | cons b l ih =>
      rw [minDistTo_cons]
      exact le_min (h b (List.mem_cons_self b l))
        (ih fun b' hb' => h b' (List.mem_cons_of_mem b hb'))

theorem minDistTo_nonneg (a : Point) (l : List Point) : 0 ≤ minDistTo a l :=
  le_minDistTo fun b _ => by exact_mod_cast distSq_nonneg a b

theorem pairsMinSq_nil : pairsMinSq [] = ⊤ := rfl

theorem pairsMinSq_cons (a : Point) (l : List Point) :
    pairsMinSq (a :: l) = min (minDistTo a l) (pairsMinSq l) := rfl

theorem pairsMinSq_nonneg (l : List Point) : 0 ≤ pairsMinSq l := by
  induction l with
  | nil => exact le_top
  | cons a l ih =>
      rw [pairsMinSq_cons]
      exact le_min (minDistTo_nonneg a l) ih

theorem pairsMinSq_le_of_sublist {a b : Point} {l : List Point}
    (h : [a, b].Sublist l) : pairsMinSq l ≤ ((distSq a b : ℤ) : WithTop ℤ) := by
  induction l with
  | nil => cases h
  | cons c l ih =>
      rw [pairsMinSq_cons]
      cases h with
      | cons _ h' => exact le_trans (min_le_right _ _) (ih h')
      | cons₂ _ h' =>
          exact le_trans (min_le_left _ _) (minDistTo_le (List.singleton_sublist.mp h'))

theorem le_pairsMinSq {c : WithTop ℤ} {l : List Point}
    (h : ∀ a b : Point, [a, b].Sublist l → c ≤ ((distSq a b : ℤ) : WithTop ℤ)) :
    c ≤ pairsMinSq l := by
  induction l with
  | nil => exact le_top
  | cons d l ih =>
      rw [pairsMinSq_cons]
      refine le_min (le_minDistTo fun b hb => h d b ?_)
        (ih fun a b hab => h a b (hab.cons d))
      exact (List.singleton_sublist.mpr hb).cons₂ d

theorem pairsMinSq_le_of_subperm {a b : Point} {l : List Point}
    (h : [a, b].Subperm l) : pairsMinSq l ≤ ((distSq a b : ℤ) : WithTop ℤ) := by
  obtain ⟨l', hperm, hsub⟩ := h
  have hlen : l'.length = 2 := by rw [hperm.length_eq]; rfl
  obtain ⟨x, y, rfl⟩ : ∃ x y, l' = [x, y] := by
    match l', hlen with
    | [x, y], _ => exact ⟨x, y, rfl⟩
  rcases List.mem_cons.mp (hperm.mem_iff.mp (List.mem_cons_self x [y])) with rfl | hx
  · have hyb : [y].Perm [b] := hperm.cons_inv
    have hy : y = b := by
      have := hyb.mem_iff.mp (List.mem_singleton.mpr rfl)
      simpa using this
    subst hy
    exact pairsMinSq_le_of_sublist hsub
  · have hx' : x = b := by simpa using hx
    subst hx'
    have hswap : ([x, y] : List Point).Perm [x, a] :=
      hperm.trans (List.Perm.swap x a [])
    have hya : [y].Perm [a] := hswap.cons_inv
    have hy : y = a := by
      have := hya.mem_iff.mp (List.mem_singleton.mpr rfl)
      simpa using this
    subst hy
    rw [distSq_comm]
    exact pairsMinSq_le_of_sublist hsub

theorem pairsMinSq_subperm_mono {l₁ l₂ : List Point} (h : l₁.Subperm l₂) :
    pairsMinSq l₂ ≤ pairsMinSq l₁ :=
  le_pairsMinSq fun _ _ hab => pairsMinSq_le_of_subperm (hab.subperm.trans h)

theorem pairsMinSq_perm {l₁ l₂ : List Point} (h : l₁.Perm l₂) :
    pairsMinSq l₁ = pairsMinSq l₂ :=
  le_antisymm (pairsMinSq_subperm_mono h.symm.subperm)
    (pairsMinSq_subperm_mono h.subperm)

theorem pairsMinSq_sublist_mono {l₁ l₂ : List Point} (h : l₁.Sublist l₂) :
    pairsMinSq l₂ ≤ pairsMinSq l₁ :=
  pairsMinSq_subperm_mono h.subperm

theorem stripInner_eq (a : Point) (rest : List Point) (d : WithTop ℤ)
    (hsorted : rest.Pairwise yLe) (ha : ∀ c ∈ rest, a.y ≤ c.y) :
    stripInner a rest d = min d (minDistTo a rest) := by
  induction rest generalizing d with
  | nil => simp [stripInner, minDistTo_nil]
  | cons b rest ih =>
      have hstep : stripInner a (b :: rest) d =
          if (((b.y - a.y) * (b.y - a.y) : ℤ) : WithTop ℤ) < d then
            stripInner a rest (min d ((distSq a b : ℤ) : WithTop ℤ))
          else d := rfl
      have hsorted' : rest.Pairwise yLe := hsorted.of_cons
      have ha' : ∀ c ∈ rest, a.y ≤ c.y := fun c hc => ha c (List.mem_cons_of_mem b hc)
      rw [hstep, minDistTo_cons]
      split_ifs with hb
      · rw [ih _ hsorted' ha', ← min_assoc]
      · have hdab : d ≤ ((distSq a b : ℤ) : WithTop ℤ) := by
          have h1 : ((b.y - a.y) * (b.y - a.y) : ℤ) ≤ distSq a b := by
            unfold distSq; nlinarith [sq_nonneg (a.x - b.x)]
          exact le_trans (not_lt.mp hb) (by exact_mod_cast h1)
        have hrest : d ≤ minDistTo a rest := by
          apply le_minDistTo
          intro c hc
          have hbc : b.y ≤ c.y := List.rel_of_pairwise_cons hsorted hc
          have hab : a.y ≤ b.y := ha b (List.mem_cons_self b rest)
          have h1 : ((b.y - a.y) * (b.y - a.y) : ℤ) ≤ distSq a c := by
            unfold distSq
            nlinarith [sq_nonneg (a.x - c.x),
              mul_nonneg (sub_nonneg.mpr hbc)
                (by linarith : (0 : ℤ) ≤ c.y + b.y - 2 * a.y)]
          exact le_trans (not_lt.mp hb) (by exact_mod_cast h1)
        rw [min_eq_left (le_min hdab hrest)]

theorem stripClosest_eq (strip : List Point) (d : WithTop ℤ)
    (hsorted : strip.Pairwise yLe) :
    stripClosest strip d = min d (pairsMinSq strip) := by
  induction strip generalizing d with
  | nil => simp [stripClosest, pairsMinSq_nil]
  | cons a rest ih =>
      have hstep : stripClosest (a :: rest) d =
          stripClosest rest (stripInner a rest d) := rfl
      rw [hstep, ih _ hsorted.of_cons,
          stripInner_eq a rest d hsorted.of_cons
            (fun c hc => List.rel_of_pairwise_cons hsorted hc),
          pairsMinSq_cons]
      exact min_assoc d (minDistTo a rest) (pairsMinSq rest)

theorem stripInner_nonneg (a : Point) (rest : List Point) (d : WithTop ℤ)
    (hd : 0 ≤ d) : 0 ≤ stripInner a rest d := by
  induction rest generalizing d with
  | nil => exact hd
  | cons b rest ih =>
      have hstep : stripInner a (b :: rest) d =
          if (((b.y - a.y) * (b.y - a.y) : ℤ) : WithTop ℤ) < d then
            stripInner a rest (min d ((distSq a b : ℤ) : WithTop ℤ))
          else d := rfl
      rw [hstep]
      split_ifs
      · exact ih _ (le_min hd (by exact_mod_cast distSq_nonneg a b))
      · exact hd

theorem stripClosest_nonneg (strip : List Point) (d : WithTop ℤ)
    (hd : 0 ≤ d) : 0 ≤ stripClosest strip d := by
  induction strip generalizing d with
  | nil => exact hd
  | cons a rest ih => exact ih _ (stripInner_nonneg a rest d hd)

theorem closestPairUtil_nonneg_aux :
    ∀ n px py, px.length ≤ n → 0 ≤ closestPairUtil px py := by
  intro n
  induction n with
  | zero =>
      intro px py hlen
      rw [closestPairUtil]
      rw [dif_pos (by omega)]
      exact pairsMinSq_nonneg px
  | succ n ih =>
      intro px py hlen
      rw [closestPairUtil]
      split_ifs with h
      · exact pairsMinSq_nonneg px
      · simp only []
        have hL : (px.take (px.length / 2)).length ≤ n := by
          simp only [List.length_take]; omega
        have hR : (px.drop (px.length / 2)).length ≤ n := by
          simp only [List.length_drop]; omega
        refine le_min (le_min (ih _ _ hL) (ih _ _ hR)) ?_
        exact stripClosest_nonneg _ _ (le_min (ih _ _ hL) (ih _ _ hR))

theorem closestPairUtil_nonneg (px py : List Point) :
    0 ≤ closestPairUtil px py :=
  closestPairUtil_nonneg_aux px.length px py le_rfl

theorem lexLt_x_le {a b : Point} (h : lexLt a b) : a.x ≤ b.x := by
  unfold lexLt at h; omega

theorem lexLe_x_le {a b : Point} (h : lexLe a b) : a.x ≤ b.x := by
  rcases lexLe_iff.1 h with h' | rfl
  · exact lexLt_x_le h'
  · exact le_rfl

/-- Splitting a two-element sublist of a concatenation: either both elements
come from the left part, both from the right part, or they straddle it. -/
theorem pair_sublist_append {a b : Point} {u v : List Point}
    (h : [a, b].Sublist (u ++ v)) :
    [a, b].Sublist u ∨ [a, b].Sublist v ∨ (a ∈ u ∧ b ∈ v) := by
  rcases List.sublist_append_iff.mp h with ⟨l₁, l₂, heq, h₁, h₂⟩
  rcases l₁ with _ | ⟨x, l₁⟩
  · rw [List.nil_append] at heq
    rw [← heq] at h₂
    exact Or.inr (Or.inl h₂)
  rcases l₁ with _ | ⟨y, l₁⟩
  · rw [List.cons_append, List.nil_append, List.cons.injEq] at heq
    refine Or.inr (Or.inr ⟨?_, ?_⟩)
    · have h1 := List.singleton_sublist.mp h₁
      rwa [← heq.1] at h1
    · have h₂' := h₂
      rw [← heq.2] at h₂'
      exact List.singleton_sublist.mp h₂'
  · left
    have hlen := congrArg List.length heq
    simp only [List.length_cons, List.length_append, List.length_nil] at hlen
    have hl1 : l₁ = [] := List.eq_nil_of_length_eq_zero (by omega)
    have hl2 : l₂ = [] := List.eq_nil_of_length_eq_zero (by omega)
    subst hl1; subst hl2
    rw [List.append_nil] at heq
    rw [← heq] at h₁
    exact h₁

/-- The heart of claim C2: on an x-sorted list and any y-sorted permutation
of it, the divide-and-conquer recursion computes exactly the brute-force
minimum pairwise squared distance. -/
theorem closestPairUtil_eq_aux :
    ∀ n px py, px.length ≤ n → px.Pairwise lexLe → py.Pairwise yLe →
      px.Perm py → closestPairUtil px py = pairsMinSq px := by
  intro n
  induction n with
  | zero =>
      intro px py hlen _ _ _
      rw [closestPairUtil, dif_pos (by omega)]
  | succ n ih =>
      intro px py hlen hpx hpy hperm
      rw [closestPairUtil]
      split_ifs with hbase
      · rfl
      simp only []
      set mid := px.length / 2 with hmid_def
      set M := px.getD mid origin with hM_def
      have hmidlt : mid < px.length := by omega
      have hmid2 : 2 ≤ mid := by omega
      have hM_mem : M ∈ px := by
        rw [hM_def, List.getD_eq_getElem px origin hmidlt]
        exact List.getElem_mem hmidlt
      have hlenL : (px.take mid).length ≤ n := by
        simp only [List.length_take]; omega
      have hlenR : (px.drop mid).length ≤ n := by
        simp only [List.length_drop]; omega
      have hxL_sorted : (px.take mid).Pairwise lexLe :=
        List.Pairwise.sublist (List.take_sublist mid px) hpx
      have hxR_sorted : (px.drop mid).Pairwise lexLe :=
        List.Pairwise.sublist (List.drop_sublist mid px) hpx
      have hyL_sorted : (py.filter (fun p => decide (lexLt p M))).Pairwise yLe :=
        List.Pairwise.sublist (List.filter_sublist py) hpy
      have hyR_sorted : (py.filter (fun p => !decide (lexLt p M))).Pairwise yLe :=
        List.Pairwise.sublist (List.filter_sublist py) hpy
      have hsplit : px.take mid ++ px.drop mid = px := List.take_append_drop mid px
      have hxR_cons : px.drop mid = M :: px.drop (mid + 1) := by
        rw [List.drop_eq_getElem_cons hmidlt]
        rw [hM_def, List.getD_eq_getElem px origin hmidlt]
      have hM_in_xR : M ∈ px.drop mid := by rw [hxR_cons]; exact List.mem_cons_self _ _
      have hxR_ge : ∀ b ∈ px.drop mid, lexLe M b := by
        intro b hb
        rw [hxR_cons] at hb
        rcases List.mem_cons.mp hb with rfl | hb'
        · exact lexLe_refl _
        · exact List.rel_of_pairwise_cons (hxR_cons ▸ hxR_sorted) hb'
      have hperm_count : ∀ a : Point, px.count a = py.count a :=
        fun a => hperm.count_eq a
      -- the strip is y-sorted whatever the cutoff is
      have hstrip_sorted : ∀ d : WithTop ℤ,
          (py.filter (fun p =>
            decide ((((p.x - M.x) * (p.x - M.x) : ℤ) : WithTop ℤ) < d))).Pairwise yLe :=
        fun _ => List.Pairwise.sublist (List.filter_sublist py) hpy
      by_cases hdup : 2 ≤ px.count M
      · -- the split point is duplicated: the true minimum is 0 and the strip
        -- (which receives every copy of M) finds it whenever the recursive
        -- halves return a positive value.
        have hMM_px : [M, M].Subperm px := by
          rw [List.subperm_ext_iff]
          intro x hx
          rcases List.mem_cons.mp hx with rfl | hx'
          · simpa using hdup
          · have : x = M := by simpa using hx'
            subst this; simpa using hdup
        have hpairs0 : pairsMinSq px = 0 := by
          apply le_antisymm
          · have h1 := pairsMinSq_le_of_subperm hMM_px
            have h2 : distSq M M = 0 := by unfold distSq; ring
            rw [h2] at h1
            exact_mod_cast h1
          · exact pairsMinSq_nonneg px
        set dL := closestPairUtil (px.take mid)
          (py.filter (fun p => decide (lexLt p M))) with hdL_def
        set dR := closestPairUtil (px.drop mid)
          (py.filter (fun p => !decide (lexLt p M))) with hdR_def
        have hd0 : 0 ≤ min dL dR :=
          le_min (closestPairUtil_nonneg _ _) (closestPairUtil_nonneg _ _)
        rw [stripClosest_eq _ _ (hstrip_sorted (min dL dR))]
        rw [hpairs0]
        rcases eq_or_lt_of_le hd0 with hd0' | hdpos
        · have h1 : min dL dR = 0 := hd0'.symm
          rw [h1, min_eq_left (pairsMinSq_nonneg _), min_self]
        · have hpredM : decide ((((M.x - M.x) * (M.x - M.x) : ℤ) : WithTop ℤ)
              < min dL dR) = true := by
            simp only [sub_self, mul_zero, decide_eq_true_eq]
            exact_mod_cast hdpos
          have hcountM : 2 ≤ (py.filter (fun p =>
              decide ((((p.x - M.x) * (p.x - M.x) : ℤ) : WithTop ℤ) < min dL dR))).count M := by
            have hcf : (py.filter (fun p =>
                decide ((((p.x - M.x) * (p.x - M.x) : ℤ) : WithTop ℤ) < min dL dR))).count M
                = py.count M := List.count_filter hpredM
            rw [hcf, ← hperm_count M]
            exact hdup
          have hMM_strip : [M, M].Subperm (py.filter (fun p =>
              decide ((((p.x - M.x) * (p.x - M.x) : ℤ) : WithTop ℤ) < min dL dR))) := by
            rw [List.subperm_ext_iff]
            intro x hx
            rcases List.mem_cons.mp hx with rfl | hx'
            · simpa using hcountM
            · have : x = M := by simpa using hx'
              subst this; simpa using hcountM
          have hstrip0 : pairsMinSq (py.filter (fun p =>
              decide ((((p.x - M.x) * (p.x - M.x) : ℤ) : WithTop ℤ) < min dL dR))) = 0 := by
            apply le_antisymm
            · have h1 := pairsMinSq_le_of_subperm hMM_strip
              have h2 : distSq M M = 0 := by unfold distSq; ring
              rw [h2] at h1
              exact_mod_cast h1
            · exact pairsMinSq_nonneg _
          rw [hstrip0]
          rw [min_eq_right hd0, min_eq_right hd0]
      · -- the split point M occurs exactly once: the partition of the
        -- y-sorted copy matches the x-sorted halves
        have hcount1 : px.count M = 1 := by
          have := List.count_pos_iff.mpr hM_mem
          omega
        have hM_not_xL : M ∉ px.take mid := by
          intro hmem
          have h1 : 0 < (px.take mid).count M := List.count_pos_iff.mpr hmem
          have h2 : 0 < (px.drop mid).count M := List.count_pos_iff.mpr hM_in_xR
          have h3 : (px.take mid).count M + (px.drop mid).count M = px.count M := by
            rw [← List.count_append, hsplit]
          omega
        have hxL_lt : ∀ a ∈ px.take mid, lexLt a M := by
          intro a ha
          have hle : lexLe a M := by
            have hpx' : (px.take mid ++ px.drop mid).Pairwise lexLe := by
              rw [hsplit]; exact hpx
            exact (List.pairwise_append.mp hpx').2.2 a ha M hM_in_xR
          apply lexLt_of_lexLe_of_ne hle
          intro hEq
          exact hM_not_xL (hEq ▸ ha)
        -- the y-partition filters agree with the x-split, as multisets
        have hfilterL : px.filter (fun p => decide (lexLt p M)) = px.take mid := by
          conv_lhs => rw [← hsplit]
          rw [List.filter_append]
          have h1 : (px.take mid).filter (fun p => decide (lexLt p M)) = px.take mid :=
            List.filter_eq_self.mpr fun a ha => by
              simpa using hxL_lt a ha
          have h2 : (px.drop mid).filter (fun p => decide (lexLt p M)) = [] :=
            List.filter_eq_nil_iff.mpr fun b hb => by
              simpa using hxR_ge b hb
          rw [h1, h2, List.append_nil]
        have hfilterR : px.filter (fun p => !decide (lexLt p M)) = px.drop mid := by
          conv_lhs => rw [← hsplit]
          rw [List.filter_append]
          have h1 : (px.take mid).filter (fun p => !decide (lexLt p M)) = [] :=
            List.filter_eq_nil_iff.mpr fun a ha => by
              simpa using hxL_lt a ha
          have h2 : (px.drop mid).filter (fun p => !decide (lexLt p M)) = px.drop mid :=
            List.filter_eq_self.mpr fun b hb => by
              simpa using hxR_ge b hb
          rw [h1, h2, List.nil_append]
        have hyL_perm : (px.take mid).Perm
            (py.filter (fun p => decide (lexLt p M))) := by
          rw [← hfilterL]
          exact List.Perm.filter _ hperm
        have hyR_perm : (px.drop mid).Perm
            (py.filter (fun p => !decide (lexLt p M))) := by
          rw [← hfilterR]
          exact List.Perm.filter _ hperm
        have hDL : closestPairUtil (px.take mid)
            (py.filter (fun p => decide (lexLt p M))) = pairsMinSq (px.take mid) :=
          ih _ _ hlenL hxL_sorted hyL_sorted hyL_perm
        have hDR : closestPairUtil (px.drop mid)
            (py.filter (fun p => !decide (lexLt p M))) = pairsMinSq (px.drop mid) :=
          ih _ _ hlenR hxR_sorted hyR_sorted hyR_perm
        rw [hDL, hDR]
        set d := min (pairsMinSq (px.take mid)) (pairsMinSq (px.drop mid)) with hd_def
        rw [stripClosest_eq _ _ (hstrip_sorted d)]
        set strip := py.filter (fun p =>
          decide ((((p.x - M.x) * (p.x - M.x) : ℤ) : WithTop ℤ) < d)) with hstrip_def
        have hgoal_shape : min d (min d (pairsMinSq strip)) =
            min d (pairsMinSq strip) := by
          rw [← min_assoc, min_self]
        rw [hgoal_shape]
        apply le_antisymm
        · -- every pair of px is dominated by one of the three components
          apply le_pairsMinSq
          intro a b hab
          have hab' : [a, b].Sublist (px.take mid ++ px.drop mid) := by
            rw [hsplit]; exact hab
          rcases pair_sublist_append hab' with hLL | hRR | ⟨ha_mem, hb_mem⟩
          · -- both points in the left half
            exact le_trans (min_le_left _ _)
              (le_trans (min_le_left _ _) (pairsMinSq_le_of_sublist hLL))
          · -- both points in the right half
            exact le_trans (min_le_left _ _)
              (le_trans (min_le_right _ _) (pairsMinSq_le_of_sublist hRR))
          · -- split pair: a in the left half, b in the right half
            have haM : lexLt a M := hxL_lt a ha_mem
            have hMb : lexLe M b := hxR_ge b hb_mem
            have hax : a.x ≤ M.x := lexLt_x_le haM
            have hbx : M.x ≤ b.x := lexLe_x_le hMb
            have hne : a ≠ b := by
              have hab_lt : lexLt a b := by
                rcases lexLe_iff.1 hMb with h' | rfl
                · exact lexLt_trans haM h'
                · exact haM
              intro hEq
              exact lexLt_irrefl a (hEq ▸ hab_lt)
            by_cases hcase : ((distSq a b : ℤ) : WithTop ℤ) < d
            · -- both endpoints fall in the strip
              have hstr : ∀ c : Point, c ∈ py →
                  ((c.x - M.x) * (c.x - M.x) : ℤ) ≤ distSq a b → c ∈ strip := by
                intro c hc hcd
                rw [hstrip_def]
                apply List.mem_filter.mpr
                refine ⟨hc, ?_⟩
                simp only [decide_eq_true_eq]
                exact lt_of_le_of_lt (by exact_mod_cast hcd) hcase
              have ha_py : a ∈ py := hperm.mem_iff.mp (hab.subset (by simp))
              have hb_py : b ∈ py := hperm.mem_iff.mp (hab.subset (by simp))
              have ha_strip : a ∈ strip := by
                apply hstr a ha_py
                unfold distSq
                nlinarith [sq_nonneg (a.y - b.y)]
              have hb_strip : b ∈ strip := by
                apply hstr b hb_py
                unfold distSq
                nlinarith [sq_nonneg (a.y - b.y)]
              have hsub : [a, b].Subperm strip := by
                apply List.Nodup.subperm
                · simp [hne]
                · intro z hz
                  rcases List.mem_cons.mp hz with rfl | hz'
                  · exact ha_strip
                  · have : z = b := by simpa using hz'
                    subst this
                    exact hb_strip
              exact le_trans (min_le_right _ _) (pairsMinSq_le_of_subperm hsub)
            · exact le_trans (min_le_left _ _) (not_lt.mp hcase)
        · refine le_min (le_min ?_ ?_) ?_
          · exact pairsMinSq_sublist_mono (List.take_sublist mid px)
          · exact pairsMinSq_sublist_mono (List.drop_sublist mid px)
          · rw [pairsMinSq_perm hperm]
            exact pairsMinSq_sublist_mono (List.filter_sublist py)

/-- Claim C2: for every input vector of points, `closestPair` returns the
brute-force minimum Euclidean distance over all pairs of distinct positions,
and 0 when fewer than 2 points are supplied.  Stated on the exactly-computed
squared distances (`closestPairSq` is the value whose square root the C++
function returns, and `pairsMinSq` is the O(n²) reference minimum); since the
square root is strictly monotone, this is equivalent to the claim about the
returned distances. -/
theorem c2_closestPair_equals_bruteforce (points : List Point) :
    closestPairSq points = if points.length < 2 then 0 else pairsMinSq points := by
  unfold closestPairSq
  split_ifs with h
  · rfl
  · have hperm1 : (points.mergeSort lexLeB).Perm points :=
      List.mergeSort_perm points lexLeB
    have hperm2 : (points.mergeSort yLeB).Perm points :=
      List.mergeSort_perm points yLeB
    have hsx : (points.mergeSort lexLeB).Pairwise lexLe := by
      have hs := List.sorted_mergeSort lexLeB_trans lexLeB_total points
      exact hs.imp fun h' => by
        simp only [lexLeB, decide_eq_true_eq] at h'
        exact h'
    have hsy : (points.mergeSort yLeB).Pairwise yLe := by
      have hs := List.sorted_mergeSort yLeB_trans yLeB_total points
      exact hs.imp fun h' => by
        simp only [yLeB, decide_eq_true_eq] at h'
        exact h'
    rw [closestPairUtil_eq_aux (points.mergeSort lexLeB).length _ _ le_rfl hsx hsy
        (hperm1.trans hperm2.symm)]
    exact pairsMinSq_perm hperm1

/-! ### Claims C1 and C5: geometric certificate lemmas for the hull scan -/

theorem cross_swap_fst (p q r : Point) : cross q p r = -cross p q r := by
  unfold cross; ring

theorem cross_four' (a b p q : Point) :
    cross a p q = cross b p q + cross a b q - cross a b p := by
  unfold cross; ring

theorem lexLt_y_lt_of_x_eq {a q : Point} (h : lexLt a q) (hx : q.x = a.x) :
    a.y < q.y := by
  unfold lexLt at h; omega

theorem lexLe_y_le_of_x_eq {q b : Point} (h : lexLe q b) (hx : q.x = b.x) :
    q.y ≤ b.y := by
  unfold lexLe lexLt at h; omega

/-- The BETWEEN certificate: if `q` lies lexicographically between the chain
edge endpoints `a` and `b`, weakly left of the edge, and the new point `p`
(beyond `b`) is weakly right of the edge, then `q` is weakly left of the
candidate edge `a → p`. -/
theorem cross_between {a b p q : Point} (hab : lexLt a b) (hbp : lexLe b p)
    (haq : lexLt a q) (hqb : lexLe q b) (hq : 0 ≤ cross a b q)
    (hp : cross a b p ≤ 0) : 0 ≤ cross a p q := by
  have haxbx : a.x ≤ b.x := lexLt_x_le hab
  have hbxpx : b.x ≤ p.x := lexLe_x_le hbp
  have haxqx : a.x ≤ q.x := lexLt_x_le haq
  have hqxbx : q.x ≤ b.x := lexLe_x_le hqb
  rcases eq_or_lt_of_le haxbx with hxeq | hxlt
  · -- vertical edge: q lies on it, p is weakly to the right of the line
    have hqx : q.x = a.x := by omega
    have hay : a.y < q.y := lexLt_y_lt_of_x_eq haq hqx
    have hcross : cross a p q = (p.x - a.x) * (q.y - a.y) := by
      unfold cross; rw [hqx]; ring
    rw [hcross]
    have h1 : 0 ≤ p.x - a.x := by omega
    have h2 : 0 ≤ q.y - a.y := by omega
    exact mul_nonneg h1 h2
  · have hid : cross a p q * (b.x - a.x) =
        cross a b q * (p.x - a.x) + cross a b p * (a.x - q.x) := by
      unfold cross; ring
    nlinarith [mul_nonneg hq (by omega : (0 : ℤ) ≤ p.x - a.x),
      mul_nonneg (by omega : (0 : ℤ) ≤ -cross a b p) (by omega : (0 : ℤ) ≤ q.x - a.x)]

/-- The PUSH certificate: when the pop loop stops because the stopping
triple `b, c, p` turns strictly left, every processed point `q` at or before
`c` in lexicographic order that was weakly left of the last retained edge
`b → c` is weakly left of the new edge `c → p`. -/
theorem cross_push {b c p q : Point} (hbc : lexLt b c) (hcp : lexLt c p)
    (hqc : lexLe q c) (hp : 0 < cross b c p) (hq : 0 ≤ cross b c q) :
    0 ≤ cross c p q := by
  have hbxcx : b.x ≤ c.x := lexLt_x_le hbc
  have hcxpx : c.x ≤ p.x := lexLt_x_le hcp
  have hqxcx : q.x ≤ c.x := lexLe_x_le hqc
  rcases eq_or_lt_of_le hbxcx with hxeq | hxlt
  · exfalso
    have hby : b.y < c.y := lexLt_y_lt_of_x_eq hbc hxeq.symm
    have hcross : cross b c p = -((c.y - b.y) * (p.x - b.x)) := by
      unfold cross; rw [← hxeq]; ring
    rw [hcross] at hp
    nlinarith
  · have hid : cross c p q * (c.x - b.x) =
        cross b c q * (p.x - c.x) + cross b c p * (c.x - q.x) := by
      unfold cross; ring
    nlinarith [mul_nonneg hq (by omega : (0 : ℤ) ≤ p.x - c.x),
      mul_nonneg hp.le (by omega : (0 : ℤ) ≤ c.x - q.x)]

/-- The PROPAGATE certificate: a new point `p` weakly left of a chain edge
`b → c` is also weakly left of the preceding chain edge `a → b`, the chain
turning strictly left at `b`. -/
theorem cross_prop {a b c p : Point} (hab : lexLt a b) (hbc : lexLt b c)
    (hcp : lexLe c p) (habc : 0 < cross a b c) (hbcp : 0 ≤ cross b c p) :
    0 ≤ cross a b p := by
  have haxbx : a.x ≤ b.x := lexLt_x_le hab
  have hbxcx : b.x ≤ c.x := lexLt_x_le hbc
  have hcxpx : c.x ≤ p.x := lexLe_x_le hcp
  rcases eq_or_lt_of_le hbxcx with hxeq | hxlt
  · -- vertical chain edge b → c: p must lie on its line, above b
    have hby : b.y < c.y := lexLt_y_lt_of_x_eq hbc hxeq.symm
    have habc' : cross a b c = (b.x - a.x) * (c.y - b.y) := by
      unfold cross; rw [← hxeq]; ring
    have hax : a.x < b.x := by
      rw [habc'] at habc
      nlinarith
    have hbcp' : cross b c p = -((c.y - b.y) * (p.x - b.x)) := by
      unfold cross; rw [← hxeq]; ring
    have hpx : p.x = b.x := by
      rw [hbcp'] at hbcp
      nlinarith
    have hpy : c.y ≤ p.y := by
      rcases lexLe_iff.1 hcp with h' | rfl
      · unfold lexLt at h'; omega
      · exact le_rfl
    have hcross : cross a b p = (b.x - a.x) * (p.y - b.y) := by
      unfold cross; rw [hpx]; ring
    rw [hcross]
    exact mul_nonneg (by omega) (by omega)
  · have hid : cross a b p * (c.x - b.x) =
        cross a b c * (p.x - b.x) + cross b c p * (b.x - a.x) := by
      unfold cross; ring
    nlinarith [mul_nonneg habc.le (by omega : (0 : ℤ) ≤ p.x - b.x),
      mul_nonneg hbcp (by omega : (0 : ℤ) ≤ b.x - a.x)]

theorem cross_self_outer (p q : Point) : cross p q p = 0 := by
  unfold cross; ring

/-! ### Shape lemmas for the scan step -/

theorem chainStep_nil (p : Point) : chainStep [] p = [p] := rfl

theorem chainStep_singleton (z p : Point) : chainStep [z] p = [p, z] := rfl

theorem chainStep_cons_cons (b a : Point) (rest : List Point) (p : Point) :
    chainStep (b :: a :: rest) p =
      if orientation a b p ≠ 2 then chainStep (a :: rest) p
      else p :: b :: a :: rest := rfl

theorem chainStep_shape (p : Point) :
    ∀ S : List Point, S ≠ [] →
      ∃ S', chainStep S p = p :: S' ∧ S' ≠ [] ∧ S' <:+ S := by
  intro S
  induction S with
  | nil => intro h; exact absurd rfl h
  | cons b T ih =>
    intro _
    cases T with
    | nil => exact ⟨[b], rfl, by simp, List.suffix_rfl⟩
    | cons a rest =>
      rw [chainStep_cons_cons]
      by_cases hor : orientation a b p ≠ 2
      · rw [if_pos hor]
        obtain ⟨S', h1, h2, h3⟩ := ih (by simp)
        exact ⟨S', h1, h2, h3.trans (List.suffix_cons b (a :: rest))⟩
      · rw [if_neg hor]
        exact ⟨b :: a :: rest, rfl, by simp, List.suffix_rfl⟩

theorem chainStep_ne_nil (S : List Point) (p : Point) : chainStep S p ≠ [] := by
  cases S with
  | nil => simp [chainStep_nil]
  | cons b T =>
    obtain ⟨S', h1, -, -⟩ := chainStep_shape p (b :: T) (by simp)
    simp [h1]

theorem chainStep_head (S : List Point) (p : Point) :
    (chainStep S p).head? = some p := by
  cases S with
  | nil => rfl
  | cons b T =>
    obtain ⟨S', h1, -, -⟩ := chainStep_shape p (b :: T) (by simp)
    rw [h1]; rfl

theorem chainStep_getLast (p : Point) :
    ∀ S : List Point, S ≠ [] → (chainStep S p).getLast? = S.getLast? := by
  intro S
  induction S with
  | nil => intro h; exact absurd rfl h
  | cons b T ih =>
    intro _
    cases T with
    | nil => rw [chainStep_singleton, List.getLast?_cons_cons]
    | cons a rest =>
      rw [chainStep_cons_cons]
      by_cases hor : orientation a b p ≠ 2
      · rw [if_pos hor, ih (by simp), List.getLast?_cons_cons]
      · rw [if_neg hor, List.getLast?_cons_cons]

theorem chainStep_subset (p x : Point) :
    ∀ S : List Point, x ∈ chainStep S p → x = p ∨ x ∈ S := by
  intro S
  induction S with
  | nil =>
    intro h; rw [chainStep_nil] at h
    exact Or.inl (by simpa using h)
  | cons b T ih =>
    cases T with
    | nil =>
      intro h; rw [chainStep_singleton] at h
      exact List.mem_cons.1 h
    | cons a rest =>
      intro h
      rw [chainStep_cons_cons] at h
      by_cases hor : orientation a b p ≠ 2
      · rw [if_pos hor] at h
        exact (ih h).imp id (List.mem_cons_of_mem b)
      · rw [if_neg hor] at h
        exact List.mem_cons.1 h

theorem chainStepB_nil (t : ℕ) (p : Point) : chainStepB t [] p = [p] := rfl

theorem chainStepB_singleton (t : ℕ) (z p : Point) :
    chainStepB t [z] p = [p, z] := rfl

theorem chainStepB_cons_cons (t : ℕ) (b a : Point) (rest : List Point)
    (p : Point) :
    chainStepB t (b :: a :: rest) p =
      if t ≤ (b :: a :: rest).length ∧ orientation a b p ≠ 2 then
        chainStepB t (a :: rest) p
      else p :: b :: a :: rest := rfl

theorem chainStepB_subset (t : ℕ) (p x : Point) :
    ∀ S : List Point, x ∈ chainStepB t S p → x = p ∨ x ∈ S := by
  intro S
  induction S with
  | nil =>
    intro h; rw [chainStepB_nil] at h
    exact Or.inl (by simpa using h)
  | cons b T ih =>
    cases T with
    | nil =>
      intro h; rw [chainStepB_singleton] at h
      exact List.mem_cons.1 h
    | cons a rest =>
      intro h
      rw [chainStepB_cons_cons] at h
      by_cases hc : t ≤ (b :: a :: rest).length ∧ orientation a b p ≠ 2
      · rw [if_pos hc] at h
        exact (ih h).imp id (List.mem_cons_of_mem b)
      · rw [if_neg hc] at h
        exact List.mem_cons.1 h

theorem foldl_chainStep_subset :
    ∀ (todo S : List Point) (x : Point), x ∈ todo.foldl chainStep S →
      x ∈ todo ∨ x ∈ S := by
  intro todo
  induction todo with
  | nil => intro S x h; exact Or.inr h
  | cons r todo' ih =>
    intro S x h
    rcases ih (chainStep S r) x h with h' | h'
    · exact Or.inl (List.mem_cons_of_mem r h')
    · rcases chainStep_subset r x S h' with h'' | h''
      · exact Or.inl (by simp [h''])
      · exact Or.inr h''

theorem foldl_chainStepB_subset (t : ℕ) :
    ∀ (todo S : List Point) (x : Point), x ∈ todo.foldl (chainStepB t) S →
      x ∈ todo ∨ x ∈ S := by
  intro todo
  induction todo with
  | nil => intro S x h; exact Or.inr h
  | cons r todo' ih =>
    intro S x h
    rcases ih (chainStepB t (S : List Point) r) x h with h' | h'
    · exact Or.inl (List.mem_cons_of_mem r h')
    · rcases chainStepB_subset t r x S h' with h'' | h''
      · exact Or.inl (by simp [h''])
      · exact Or.inr h''

/-! ### Facts about consecutive-triple chains -/

theorem Chain3_nil {R : Point → Point → Point → Prop} : Chain3 R [] := trivial

theorem Chain3_single {R : Point → Point → Point → Prop} (a : Point) :
    Chain3 R [a] := trivial

theorem Chain3_pair {R : Point → Point → Point → Prop} (a b : Point) :
    Chain3 R [a, b] := trivial

theorem Chain3_tail {R : Point → Point → Point → Prop} :
    ∀ {l : List Point}, Chain3 R l → Chain3 R l.tail := by
  intro l h
  match l with
  | [] => exact trivial
  | [_] => exact trivial
  | [_, _] => exact trivial
  | _ :: _ :: _ :: _ => exact h.2

theorem Chain3_drop {R : Point → Point → Point → Prop} :
    ∀ (t : List Point) {l : List Point}, Chain3 R (t ++ l) → Chain3 R l := by
  intro t
  induction t with
  | nil => intro l h; exact h
  | cons x t' ih => intro l h; exact ih (Chain3_tail h)

theorem Chain3_of_suffix {R : Point → Point → Point → Prop}
    {l l' : List Point} (h : Chain3 R l) (hs : l' <:+ l) : Chain3 R l' := by
  obtain ⟨t, ht⟩ := hs
  rw [← ht] at h
  exact Chain3_drop t h

theorem Chain3_append_left {R : Point → Point → Point → Prop} :
    ∀ {l l' : List Point}, Chain3 R (l ++ l') → Chain3 R l := by
  intro l
  induction l with
  | nil => intro l' _; exact trivial
  | cons x t ih =>
    intro l' h
    cases t with
    | nil => exact trivial
    | cons y t' =>
      cases t' with
      | nil => exact trivial
      | cons z t'' => exact ⟨h.1, ih h.2⟩

theorem Chain3_imp {R R' : Point → Point → Point → Prop}
    (h : ∀ a b c, R a b c → R' a b c) :
    ∀ {l : List Point}, Chain3 R l → Chain3 R' l := by
  intro l
  induction l with
  | nil => intro _; exact trivial
  | cons x t ih =>
    intro hc
    cases t with
    | nil => exact trivial
    | cons y t' =>
      cases t' with
      | nil => exact trivial
      | cons z t'' => exact ⟨h x y z hc.1, ih hc.2⟩

theorem Chain3_middle {R : Point → Point → Point → Prop} {a x b : Point}
    {l₂ : List Point} :
    ∀ l₁ : List Point, Chain3 R (l₁ ++ a :: x :: b :: l₂) → R a x b := by
  intro l₁ h
  exact (Chain3_drop l₁ h).1

theorem Chain3_glue {R : Point → Point → Point → Prop} :
    ∀ A B : List Point, Chain3 R A → Chain3 R B →
    (∀ a2 a1 b0, A.dropLast.getLast? = some a2 → A.getLast? = some a1 →
      B.head? = some b0 → R a2 a1 b0) →
    (∀ a1 b0 b1, A.getLast? = some a1 → B.head? = some b0 →
      B.tail.head? = some b1 → R a1 b0 b1) →
    Chain3 R (A ++ B) := by
  intro A
  induction A with
  | nil => intro B _ hB _ _; exact hB
  | cons a A' ih =>
    intro B hA hB h3 h4
    cases A' with
    | nil =>
      cases B with
      | nil => exact Chain3_single a
      | cons b0 B' =>
        cases B' with
        | nil => exact Chain3_pair a b0
        | cons b1 B'' => exact ⟨h4 a b0 b1 rfl rfl rfl, hB⟩
    | cons x A'' =>
      cases A'' with
      | nil =>
        cases B with
        | nil => exact Chain3_pair a x
        | cons b0 B' =>
          refine ⟨h3 a x b0 (by simp) (by simp) rfl, ?_⟩
          cases B' with
          | nil => exact Chain3_pair x b0
          | cons b1 B'' => exact ⟨h4 x b0 b1 (by simp) rfl rfl, hB⟩
      | cons y A₃ =>
        refine ⟨hA.1, ih B hA.2 hB ?_ ?_⟩
        · intro a2 a1 b0 h2' h1' hb
          apply h3 a2 a1 b0 ?_ ?_ hb
          · rw [List.dropLast_cons₂, List.dropLast_cons₂, List.getLast?_cons_cons]
            rw [List.dropLast_cons₂] at h2'
            exact h2'
          · rw [List.getLast?_cons_cons]; exact h1'
        · intro a1 b0 b1 h1' hb hb1
          apply h4 a1 b0 b1 ?_ hb hb1
          rw [List.getLast?_cons_cons]; exact h1'

theorem dropLast_reverse_eq (l : List Point) :
    l.reverse.dropLast = l.tail.reverse := by
  cases l with
  | nil => rfl
  | cons x t => rw [List.reverse_cons, List.dropLast_concat]; rfl

theorem tail_reverse_eq (l : List Point) :
    l.reverse.tail = l.dropLast.reverse := by
  have h := dropLast_reverse_eq l.reverse
  rw [List.reverse_reverse] at h
  rw [h, List.reverse_reverse]

theorem Chain3_reverse {R : Point → Point → Point → Prop} :
    ∀ {l : List Point}, Chain3 R l → Chain3 (fun a b c => R c b a) l.reverse := by
  intro l
  induction l with
  | nil => intro _; exact trivial
  | cons x t ih =>
    intro h
    have ht : Chain3 R t := Chain3_tail h
    rw [List.reverse_cons]
    apply Chain3_glue t.reverse [x] (ih ht) (Chain3_single x)
    · intro a2 a1 b0 h2' h1' hb
      have hb0 : x = b0 := by simpa using hb
      rw [List.getLast?_reverse] at h1'
      rw [dropLast_reverse_eq, List.getLast?_reverse] at h2'
      cases t with
      | nil => simp at h1'
      | cons u t' =>
        cases t' with
        | nil => simp at h2'
        | cons v t'' =>
          simp only [List.head?_cons, Option.some.injEq] at h1' h2'
          subst h1'
          simp only [List.tail_cons, List.head?_cons, Option.some.injEq] at h2'
          subst h2'
          subst hb0
          exact h.1
    · intro a1 b0 b1 _ _ hb1
      simp at hb1

/-! ### Points on a common line -/

theorem opposite_dirs {ax ay cx cy wx wy : ℤ}
    (hA : 0 < ax ∨ (ax = 0 ∧ 0 < ay)) (hC : cx < 0 ∨ (cx = 0 ∧ cy < 0))
    (hAC : ax * cy - ay * cx = 0) (h1 : 0 ≤ ax * wy - ay * wx)
    (h2 : 0 ≤ cx * wy - cy * wx) :
    ax * wy - ay * wx = 0 ∧ cx * wy - cy * wx = 0 := by
  have hkey : ax * (cx * wy - cy * wx) - cx * (ax * wy - ay * wx)
      = wx * (ay * cx - ax * cy) := by ring
  have h0 : wx * (ay * cx - ax * cy) = 0 := by
    have hz : ay * cx - ax * cy = 0 := by linarith
    rw [hz, mul_zero]
  have e : ax * (cx * wy - cy * wx) = cx * (ax * wy - ay * wx) := by
    linarith
  rcases hA with hax | ⟨hax, hay⟩
  · rcases hC with hcx | ⟨hcx, hcy⟩
    · have hL : 0 ≤ ax * (cx * wy - cy * wx) := mul_nonneg hax.le h2
      have hR : cx * (ax * wy - ay * wx) ≤ 0 :=
        mul_nonpos_iff.2 (Or.inr ⟨hcx.le, h1⟩)
      have hz1 : cx * (ax * wy - ay * wx) = 0 := by linarith
      have hz2 : ax * (cx * wy - cy * wx) = 0 := by linarith
      constructor
      · rcases mul_eq_zero.1 hz1 with h | h
        · exact absurd h (by omega)
        · exact h
      · rcases mul_eq_zero.1 hz2 with h | h
        · exact absurd h (by omega)
        · exact h
    · exfalso
      subst hcx
      have hneg : ax * cy < 0 := mul_neg_of_pos_of_neg hax hcy
      nlinarith
  · rcases hC with hcx | ⟨hcx, hcy⟩
    · exfalso
      subst hax
      have hneg : ay * cx < 0 := mul_neg_of_pos_of_neg hay hcx
      nlinarith
    · subst hax; subst hcx
      have h1' : ay * wx ≤ 0 := by linarith
      have h2' : cy * wx ≤ 0 := by linarith
      have hwx : wx = 0 := by
        rcases lt_trichotomy wx 0 with hw | hw | hw
        · exfalso
          have := mul_pos_of_neg_of_neg hcy hw
          linarith
        · exact hw
        · exfalso
          have := mul_pos hay hw
          linarith
      subst hwx
      constructor <;> ring

theorem collinear_pair {v m x y : Point} (hvm : v ≠ m)
    (hx : cross v m x = 0) (hy : cross v m y = 0) : cross v x y = 0 := by
  rcases v with ⟨vx, vy⟩
  rcases m with ⟨mx, my⟩
  have idx : (mx - vx) * cross ⟨vx, vy⟩ x y
      = (x.x - vx) * cross ⟨vx, vy⟩ ⟨mx, my⟩ y
        - (y.x - vx) * cross ⟨vx, vy⟩ ⟨mx, my⟩ x := by
    unfold cross; ring
  have idy : (my - vy) * cross ⟨vx, vy⟩ x y
      = (x.y - vy) * cross ⟨vx, vy⟩ ⟨mx, my⟩ y
        - (y.y - vy) * cross ⟨vx, vy⟩ ⟨mx, my⟩ x := by
    unfold cross; ring
  rw [hx, hy] at idx idy
  simp only [mul_zero, sub_zero, zero_sub, mul_eq_zero] at idx idy
  rcases idx with h | h
  · rcases idy with h' | h'
    · exfalso
      apply hvm
      have e1 : vx = mx := by omega
      have e2 : vy = my := by omega
      rw [e1, e2]
    · exact h'
  · exact h

theorem collinear_of_line {v m : Point} (hvm : v ≠ m) {a b c : Point}
    (ha : cross v m a = 0) (hb : cross v m b = 0) (hc : cross v m c = 0) :
    cross a b c = 0 := by
  have hdecomp : cross a b c = cross v a b + cross v b c + cross v c a := by
    unfold cross; ring
  rw [hdecomp, collinear_pair hvm ha hb, collinear_pair hvm hb hc,
    collinear_pair hvm hc ha]
  ring

/-! ### Positional extraction from chains -/

theorem interior_split {l : List Point} {x : Point} (hmem : x ∈ l)
    (hhead : l.head? ≠ some x) (hlast : l.getLast? ≠ some x) :
    ∃ l₁ a b l₂, l = l₁ ++ a :: x :: b :: l₂ := by
  obtain ⟨s, t, rfl⟩ := List.append_of_mem hmem
  cases s with
  | nil => exact absurd rfl hhead
  | cons s0 s' =>
    cases t with
    | nil =>
      exact absurd (List.getLast?_concat (s0 :: s')) hlast
    | cons b l₂ =>
      refine ⟨(s0 :: s').dropLast, (s0 :: s').getLast (by simp), b, l₂, ?_⟩
      conv_lhs => rw [← List.dropLast_concat_getLast (show s0 :: s' ≠ [] by simp)]
      simp

theorem chain'_getLast_pair {R : Point → Point → Prop} {l : List Point}
    (h : l.Chain' R) {x y : Point} (hx : l.dropLast.getLast? = some x)
    (hy : l.getLast? = some y) : R x y := by
  have hrev : l.reverse.Chain' (flip R) := List.chain'_reverse.mpr h
  have hy' : l.reverse.head? = some y := by
    rw [List.head?_reverse]; exact hy
  have hx' : l.reverse.tail.head? = some x := by
    rw [tail_reverse_eq, List.head?_reverse]; exact hx
  cases hl : l.reverse with
  | nil => rw [hl] at hy'; simp at hy'
  | cons u r =>
    rw [hl] at hy' hx' hrev
    cases r with
    | nil => simp at hx'
    | cons u' r' =>
      simp only [List.head?_cons, Option.some.injEq] at hy'
      simp only [List.tail_cons, List.head?_cons, Option.some.injEq] at hx'
      subst hy'; subst hx'
      exact (List.chain'_cons.1 hrev).1

/-! ### The scan-step preserves the chain invariant -/

theorem edges_propagate (p : Point) :
    ∀ S : List Point,
      S.Chain' (fun u v => lexLt v u) →
      Chain3 (fun x y z => 0 < cross z y x) S →
      (∀ s ∈ S, lexLe s p) →
      (∀ b a rest, S = b :: a :: rest → 0 ≤ cross a b p) →
      S.Chain' (fun u v => 0 ≤ cross v u p) := by
  intro S
  induction S with
  | nil => intro _ _ _ _; exact List.chain'_nil
  | cons b T ih =>
    intro hsort htri helem htop
    cases T with
    | nil => exact List.chain'_singleton b
    | cons a rest =>
      apply List.chain'_cons.2
      refine ⟨htop b a rest rfl, ?_⟩
      cases rest with
      | nil => exact List.chain'_singleton a
      | cons a' rest' =>
        apply ih (List.chain'_cons.1 hsort).2 (Chain3_tail htri)
          (fun s hs => helem s (List.mem_cons_of_mem b hs))
        intro b'' a'' rest'' heq
        injection heq with h1 heq'
        injection heq' with h2 _
        rw [← h1, ← h2]
        exact cross_prop
          (List.chain'_cons.1 (List.chain'_cons.1 hsort).2).1
          (List.chain'_cons.1 hsort).1
          (helem b (by simp))
          htri.1
          (htop b a (a' :: rest') rfl)

theorem chainStep_core (p : Point) :
    ∀ S P : List Point, S ≠ [] →
      (∀ s ∈ S, s ∈ P) →
      (S.Chain' (fun u v => lexLt v u) ∨ ∃ p', S = [p', p'] ∧ ∀ q ∈ P, q = p') →
      Chain3 (fun x y z => 0 < cross z y x) S →
      (∀ q ∈ P, S.Chain' (fun u v => 0 ≤ cross v u q)) →
      (∀ q ∈ P, lexLe q p) →
      (∀ q ∈ P, ∀ t, S.head? = some t → lexLt t q → 0 ≤ cross t p q) →
      (∀ q ∈ P, ∀ g, S.getLast? = some g → lexLe g q) →
      (((chainStep S p).Chain' (fun u v => lexLt v u) ∨
          ∃ p', chainStep S p = [p', p'] ∧ ∀ q ∈ p :: P, q = p') ∧
        Chain3 (fun x y z => 0 < cross z y x) (chainStep S p) ∧
        (∀ q ∈ p :: P, (chainStep S p).Chain' (fun u v => 0 ≤ cross v u q))) := by
  intro S
  induction S with
  | nil => intro P h; exact absurd rfl h
  | cons b T ih =>
    intro P _ hmem hsort htri hedges hle hacc hbot
    cases T with
    | nil =>
      rw [chainStep_singleton]
      have hbP : b ∈ P := hmem b (by simp)
      have hble : lexLe b p := hle b hbP
      refine ⟨?_, trivial, ?_⟩
      · by_cases hbp : b = p
        · subst hbp
          refine Or.inr ⟨b, rfl, ?_⟩
          intro q hq
          rcases List.mem_cons.1 hq with hq' | hq'
          · exact hq'
          · exact lexLe_antisymm (hle q hq') (hbot q hq' b (by simp))
        · exact Or.inl (List.chain'_cons.2
            ⟨lexLt_of_lexLe_of_ne hble hbp, List.chain'_singleton b⟩)
      · intro q hq
        rcases List.mem_cons.1 hq with hq' | hq'
        · refine List.chain'_cons.2 ⟨?_, List.chain'_singleton b⟩
          rw [hq']
          exact (cross_self_right b p).ge
        · refine List.chain'_cons.2 ⟨?_, List.chain'_singleton b⟩
          rcases lexLt_total b q with hlt | heq | hgt
          · exact hacc q hq' b rfl hlt
          · rw [← heq]
            exact (cross_self_outer b p).ge
          · exact absurd hgt (hbot q hq' b (by simp))
    | cons a rest =>
      rw [chainStep_cons_cons]
      by_cases hor : orientation a b p ≠ 2
      · rw [if_pos hor]
        have hcabp : cross a b p ≤ 0 := (orientation_ne_two_iff a b p).1 hor
        have hbP : b ∈ P := hmem b (by simp)
        refine ih P (by simp) (fun s hs => hmem s (List.mem_cons_of_mem b hs)) ?_
          (Chain3_tail htri) (fun q hq => (List.chain'_cons.1 (hedges q hq)).2)
          hle ?_ ?_
        · rcases hsort with hchain | ⟨p', heq, hall⟩
          · exact Or.inl (List.chain'_cons.1 hchain).2
          · injection heq with h1 heq'
            rw [heq']
            exact Or.inl (List.chain'_singleton p')
        · intro q hq t ht hlt
          simp only [List.head?_cons, Option.some.injEq] at ht
          subst ht
          rcases hsort with hchain | ⟨p', heq, hall⟩
          · have hab : lexLt a b := (List.chain'_cons.1 hchain).1
            have hble : lexLe b p := hle b hbP
            have hedge : 0 ≤ cross a b q := (List.chain'_cons.1 (hedges q hq)).1
            by_cases hbq : lexLt b q
            · have hbpq : 0 ≤ cross b p q := hacc q hq b rfl hbq
              have h4 := cross_four' a b p q
              linarith
            · have hqb : lexLe q b := hbq
              exact cross_between hab hble hlt hqb hedge hcabp
          · exfalso
            injection heq with h1 heq'
            injection heq' with h2 _
            have hq' := hall q hq
            rw [h2, hq'] at hlt
            exact absurd hlt (lexLt_irrefl p')
        · intro q hq g hg
          apply hbot q hq g
          rw [List.getLast?_cons_cons]
          exact hg
      · rw [if_neg hor]
        have hor' : orientation a b p = 2 := not_not.1 hor
        have hp0 : 0 < cross a b p := (orientation_eq_two_iff a b p).1 hor'
        have hbP : b ∈ P := hmem b (by simp)
        have hchain : (b :: a :: rest).Chain' (fun u v => lexLt v u) := by
          rcases hsort with hchain | ⟨p', heq, hall⟩
          · exact hchain
          · exfalso
            injection heq with h1 heq'
            injection heq' with h2 _
            rw [h1, h2, cross_self_left] at hp0
            exact absurd hp0 (lt_irrefl 0)
        have hab : lexLt a b := (List.chain'_cons.1 hchain).1
        have hbp_ne : b ≠ p := by
          intro hbp
          rw [hbp, cross_self_right] at hp0
          exact absurd hp0 (lt_irrefl 0)
        have hbp : lexLt b p := lexLt_of_lexLe_of_ne (hle b hbP) hbp_ne
        refine ⟨Or.inl (List.chain'_cons.2 ⟨hbp, hchain⟩), ⟨hp0, htri⟩, ?_⟩
        intro q hq
        rcases List.mem_cons.1 hq with hq' | hq'
        · rw [hq']
          refine List.chain'_cons.2 ⟨(cross_self_right b p).ge, ?_⟩
          apply edges_propagate p (b :: a :: rest) hchain htri
            (fun s hs => hle s (hmem s hs))
          intro b'' a'' rest'' heq
          injection heq with h1 heq'
          injection heq' with h2 _
          rw [← h1, ← h2]
          exact hp0.le
        · refine List.chain'_cons.2 ⟨?_, hedges q hq'⟩
          by_cases hbq : lexLt b q
          · exact hacc q hq' b rfl hbq
          · have hqb : lexLe q b := hbq
            have hedgeq : 0 ≤ cross a b q := (List.chain'_cons.1 (hedges q hq')).1
            exact cross_push hab hbp hqb hp0 hedgeq

theorem chainStep_inv {P S : List Point} {p : Point} (hinv : ScanInv P S)
    (hle : ∀ q ∈ P, lexLe q p) : ScanInv (p :: P) (chainStep S p) := by
  obtain ⟨hne, hmem, hsort, htri, hedges, hhead, hbot, hlen⟩ := hinv
  have hacc : ∀ q ∈ P, ∀ t, S.head? = some t → lexLt t q → 0 ≤ cross t p q := by
    intro q hq t ht hlt
    exact absurd hlt (hhead q hq t ht)
  obtain ⟨hsort', htri', hedges'⟩ :=
    chainStep_core p S P hne hmem hsort htri hedges hle hacc hbot
  obtain ⟨S', hS', hS'ne, hS'suf⟩ := chainStep_shape p S hne
  refine ⟨chainStep_ne_nil S p, ?_, hsort', htri', hedges', ?_, ?_, ?_⟩
  · intro s hs
    rcases chainStep_subset p s S hs with hs' | hs'
    · rw [hs']
      exact List.mem_cons_self p P
    · exact List.mem_cons_of_mem p (hmem s hs')
  · intro q hq t ht
    rw [chainStep_head] at ht
    injection ht with ht
    rw [← ht]
    rcases List.mem_cons.1 hq with hq' | hq'
    · rw [hq']
      exact lexLe_refl p
    · exact hle q hq'
  · intro q hq g hg
    rw [chainStep_getLast p S hne] at hg
    have hgmem : g ∈ S := List.mem_of_getLast?_eq_some hg
    rcases List.mem_cons.1 hq with hq' | hq'
    · rw [hq']
      exact hle g (hmem g hgmem)
    · exact hbot q hq' g hg
  · left
    rw [hS', List.length_cons]
    have := List.length_pos.2 hS'ne
    omega

/-! ### The whole scan preserves the invariant -/

theorem ScanInv_singleton (p : Point) : ScanInv [p] [p] := by
  refine ⟨by simp, fun s hs => hs, Or.inl (List.chain'_singleton p), trivial,
    ?_, ?_, ?_, ?_⟩
  · intro q hq; exact List.chain'_singleton p
  · intro q hq t ht
    simp only [List.head?_cons, Option.some.injEq] at ht
    simp only [List.mem_singleton] at hq
    rw [hq, ← ht]
    exact lexLe_refl p
  · intro q hq g hg
    simp only [List.mem_singleton] at hq
    have hg' : (some p : Option Point) = some g := hg
    injection hg' with hg'
    rw [hq, ← hg']
    exact lexLe_refl p
  · right; simp

theorem scan_fold :
    ∀ (todo P S : List Point), ScanInv P S →
      (∀ q ∈ P, ∀ r ∈ todo, lexLe q r) →
      todo.Pairwise lexLe →
      ScanInv (todo.reverse ++ P) (todo.foldl chainStep S) := by
  intro todo
  induction todo with
  | nil => intro P S h _ _; simpa using h
  | cons r todo' ih =>
    intro P S hinv hle hpw
    have h1 : ScanInv (r :: P) (chainStep S r) :=
      chainStep_inv hinv (fun q hq => hle q hq r (by simp))
    have hpw' := List.pairwise_cons.1 hpw
    have h2 : ∀ q ∈ r :: P, ∀ s ∈ todo', lexLe q s := by
      intro q hq s hs
      rcases List.mem_cons.1 hq with hq' | hq'
      · rw [hq']
        exact hpw'.1 s hs
      · exact hle q hq' s (List.mem_cons_of_mem r hs)
    have h3 := ih (r :: P) (chainStep S r) h1 h2 hpw'.2
    rw [List.reverse_cons, List.append_assoc]
    exact h3

/-! ### Sortedness facts about the sorted copy -/

theorem hullSorted_pairwise (points : List Point) :
    (hullSorted points).Pairwise lexLe := by
  have hs := List.sorted_mergeSort lexLeB_trans lexLeB_total points
  exact hs.imp (fun h => of_decide_eq_true h)

theorem hullSorted_mem (points : List Point) (x : Point) :
    x ∈ hullSorted points ↔ x ∈ points := List.mem_mergeSort

theorem hullSorted_length (points : List Point) :
    (hullSorted points).length = points.length :=
  (List.mergeSort_perm points lexLeB).length_eq

theorem pairwise_le_getLast :
    ∀ l : List Point, l.Pairwise lexLe →
      ∀ s ∈ l, ∀ g, l.getLast? = some g → lexLe s g := by
  intro l
  induction l with
  | nil => intro _ s hs; simp at hs
  | cons x t ih =>
    intro hpw s hs g hg
    have hpw' := List.pairwise_cons.1 hpw
    cases t with
    | nil =>
      simp only [List.mem_singleton] at hs
      have hg' : (some x : Option Point) = some g := hg
      injection hg' with hg'
      rw [hs, ← hg']
      exact lexLe_refl x
    | cons y t' =>
      rw [List.getLast?_cons_cons] at hg
      rcases List.mem_cons.1 hs with hs' | hs'
      · have hgmem : g ∈ y :: t' := List.mem_of_getLast?_eq_some hg
        rw [hs']
        exact hpw'.1 g hgmem
      · exact ih hpw'.2 s hs' g hg

/-! ### Phase 1: the lower-chain invariant -/

theorem lowerStack_inv (points : List Point) (hne : points ≠ []) :
    ∃ P₁, (∀ x, x ∈ P₁ ↔ x ∈ points) ∧ P₁.length = points.length ∧
      ScanInv P₁ (lowerStack points) := by
  have hsne : hullSorted points ≠ [] := by
    have hl := hullSorted_length points
    intro h
    rw [h] at hl
    exact hne (List.length_eq_zero.1 hl.symm)
  obtain ⟨p₀, rest, hsplit⟩ := List.exists_cons_of_ne_nil hsne
  have hpw : (hullSorted points).Pairwise lexLe := hullSorted_pairwise points
  rw [hsplit] at hpw
  have hpw' := List.pairwise_cons.1 hpw
  have hfold : lowerStack points = rest.foldl chainStep [p₀] := by
    unfold lowerStack
    rw [hsplit]
    rfl
  refine ⟨rest.reverse ++ [p₀], ?_, ?_, ?_⟩
  · intro x
    rw [← hullSorted_mem points x, hsplit]
    simp
    tauto
  · have hl := hullSorted_length points
    rw [hsplit, List.length_cons] at hl
    rw [List.length_append, List.length_reverse]
    simp only [List.length_cons, List.length_nil]
    omega
  · rw [hfold]
    apply scan_fold rest [p₀] [p₀] (ScanInv_singleton p₀) ?_ hpw'.2
    intro q hq r hr
    simp only [List.mem_singleton] at hq
    rw [hq]
    exact hpw'.1 r hr

/-! ### Negation transport: the upper chain is a lower chain of negations -/

theorem pointNeg_pointNeg (p : Point) : pointNeg (pointNeg p) = p := by
  rcases p with ⟨px, py⟩
  simp [pointNeg]

theorem map_pointNeg_involutive (l : List Point) :
    (l.map pointNeg).map pointNeg = l := by
  induction l with
  | nil => rfl
  | cons x t ih => simp [pointNeg_pointNeg, ih]

theorem cross_pointNeg (p q r : Point) :
    cross (pointNeg p) (pointNeg q) (pointNeg r) = cross p q r := by
  rcases p with ⟨px, py⟩
  rcases q with ⟨qx, qy⟩
  rcases r with ⟨rx, ry⟩
  simp only [cross, pointNeg]
  ring

theorem lexLt_pointNeg (p q : Point) :
    lexLt (pointNeg p) (pointNeg q) ↔ lexLt q p := by
  rcases p with ⟨px, py⟩
  rcases q with ⟨qx, qy⟩
  simp only [lexLt, pointNeg]
  omega

theorem lexLe_pointNeg (p q : Point) :
    lexLe (pointNeg p) (pointNeg q) ↔ lexLe q p := by
  unfold lexLe
  rw [lexLt_pointNeg]

theorem orientation_pointNeg (p q r : Point) :
    orientation (pointNeg p) (pointNeg q) (pointNeg r) = orientation p q r := by
  rcases lt_trichotomy (cross p q r) 0 with h | h | h
  · rw [(orientation_eq_one_iff p q r).2 h,
      (orientation_eq_one_iff (pointNeg p) (pointNeg q) (pointNeg r)).2
        (by rw [cross_pointNeg]; exact h)]
  · rw [(orientation_eq_zero_iff p q r).2 h,
      (orientation_eq_zero_iff (pointNeg p) (pointNeg q) (pointNeg r)).2
        (by rw [cross_pointNeg]; exact h)]
  · rw [(orientation_eq_two_iff p q r).2 h,
      (orientation_eq_two_iff (pointNeg p) (pointNeg q) (pointNeg r)).2
        (by rw [cross_pointNeg]; exact h)]

theorem chainStep_pointNeg (p : Point) :
    ∀ S : List Point,
      chainStep (S.map pointNeg) (pointNeg p) = (chainStep S p).map pointNeg := by
  intro S
  induction S with
  | nil => rfl
  | cons b T ih =>
    cases T with
    | nil => rfl
    | cons a rest =>
      rw [List.map_cons, List.map_cons, chainStep_cons_cons, chainStep_cons_cons,
        orientation_pointNeg]
      by_cases hor : orientation a b p ≠ 2
      · rw [if_pos hor, if_pos hor, ← List.map_cons]
        exact ih
      · rw [if_neg hor, if_neg hor]
        simp

theorem foldl_chainStep_pointNeg :
    ∀ (todo S : List Point),
      (todo.map pointNeg).foldl chainStep (S.map pointNeg)
        = (todo.foldl chainStep S).map pointNeg := by
  intro todo
  induction todo with
  | nil => intro S; rfl
  | cons r todo' ih =>
    intro S
    rw [List.map_cons, List.foldl_cons, List.foldl_cons, chainStep_pointNeg]
    exact ih (chainStep S r)

/-! ### The floor of the second scan protects exactly the lower chain -/

theorem chainStepB_eq (rest1 : List Point) (p : Point) :
    ∀ Y : List Point, Y ≠ [] →
      chainStepB (rest1.length + 2) (Y ++ rest1) p = chainStep Y p ++ rest1 := by
  intro Y
  induction Y with
  | nil => intro h; exact absurd rfl h
  | cons b T ih =>
    intro _
    cases T with
    | nil =>
      cases rest1 with
      | nil => rfl
      | cons r rest1' =>
        rw [chainStep_singleton, List.cons_append, List.nil_append,
          List.length_cons, chainStepB_cons_cons, if_neg]
        · rfl
        · intro hcon
          have := hcon.1
          simp only [List.length_cons] at this
          omega
    | cons a Y' =>
      rw [chainStep_cons_cons, List.cons_append, List.cons_append,
        chainStepB_cons_cons]
      by_cases hor : orientation a b p ≠ 2
      · have hcond : rest1.length + 2 ≤ (b :: a :: (Y' ++ rest1)).length ∧
            orientation a b p ≠ 2 := by
          refine ⟨?_, hor⟩
          simp only [List.length_cons, List.length_append]
          omega
        rw [if_pos hcond, if_pos hor]
        exact ih (by simp)
      · have hcond : ¬(rest1.length + 2 ≤ (b :: a :: (Y' ++ rest1)).length ∧
            orientation a b p ≠ 2) := fun hc => hor hc.2
        rw [if_neg hcond, if_neg hor]
        rfl

theorem foldlB_eq (rest1 : List Point) :
    ∀ (todo Y : List Point), Y ≠ [] →
      todo.foldl (chainStepB (rest1.length + 2)) (Y ++ rest1)
        = (todo.foldl chainStep Y) ++ rest1 := by
  intro todo
  induction todo with
  | nil => intro Y _; rfl
  | cons r todo' ih =>
    intro Y hY
    rw [List.foldl_cons, List.foldl_cons, chainStepB_eq rest1 r Y hY]
    exact ih (chainStep Y r) (chainStep_ne_nil Y r)

theorem foldl_chainStep_ne_nil :
    ∀ (todo S : List Point), S ≠ [] → todo.foldl chainStep S ≠ [] := by
  intro todo
  induction todo with
  | nil => intro S h; exact h
  | cons r todo' ih =>
    intro S _
    exact ih (chainStep S r) (chainStep_ne_nil S r)

theorem foldl_chainStep_head :
    ∀ (todo S : List Point), todo ≠ [] →
      (todo.foldl chainStep S).head? = todo.getLast? := by
  intro todo
  induction todo with
  | nil => intro S h; exact absurd rfl h
  | cons r todo' ih =>
    intro S _
    cases todo' with
    | nil => exact chainStep_head S r
    | cons s todo'' =>
      rw [List.foldl_cons, List.getLast?_cons_cons]
      exact ih (chainStep S r) (by simp)

theorem Chain3_map {R : Point → Point → Point → Prop} (f : Point → Point) :
    ∀ l : List Point, Chain3 (fun x y z => R (f x) (f y) (f z)) l →
      Chain3 R (l.map f) := by
  intro l
  induction l with
  | nil => intro _; exact trivial
  | cons x t ih =>
    intro h
    cases t with
    | nil => exact trivial
    | cons y t' =>
      cases t' with
      | nil => exact trivial
      | cons z t'' =>
        rw [List.map_cons, List.map_cons, List.map_cons]
        exact ⟨h.1, ih h.2⟩

theorem two_le_length_of_two_mem {l : List Point} {a b : Point} (ha : a ∈ l)
    (hb : b ∈ l) (hab : a ≠ b) : 2 ≤ l.length := by
  cases l with
  | nil => simp at ha
  | cons x t =>
    cases t with
    | nil =>
      simp only [List.mem_singleton] at ha hb
      rw [ha, hb] at hab
      exact absurd rfl hab
    | cons y t' =>
      simp only [List.length_cons]
      omega

theorem scan_of_sorted (l : List Point) (hne : l ≠ []) (hpw : l.Pairwise lexLe) :
    ∃ P, (∀ x, x ∈ P ↔ x ∈ l) ∧ P.length = l.length ∧
      ScanInv P (l.foldl chainStep []) := by
  obtain ⟨p₀, rest, hsplit⟩ := List.exists_cons_of_ne_nil hne
  subst hsplit
  have hpw' := List.pairwise_cons.1 hpw
  refine ⟨rest.reverse ++ [p₀], ?_, ?_, ?_⟩
  · intro x
    simp only [List.mem_append, List.mem_reverse, List.mem_singleton,
      List.mem_cons]
    tauto
  · simp only [List.length_append, List.length_reverse, List.length_cons,
      List.length_nil]
  · rw [List.foldl_cons]
    have hstep : chainStep [] p₀ = [p₀] := rfl
    rw [hstep]
    apply scan_fold rest [p₀] [p₀] (ScanInv_singleton p₀) ?_ hpw'.2
    intro q hq r hr
    simp only [List.mem_singleton] at hq
    rw [hq]
    exact hpw'.1 r hr

theorem lowerStack_facts (points : List Point) (hne : points ≠ [])
    (hex : ∃ a, a ∈ points ∧ ∃ b, b ∈ points ∧ a ≠ b) :
    (∀ s ∈ lowerStack points, s ∈ points) ∧
    (lowerStack points).Chain' (fun u v => lexLt v u) ∧
    Chain3 (fun x y z => 0 < cross z y x) (lowerStack points) ∧
    (∀ q ∈ points, (lowerStack points).Chain' (fun u v => 0 ≤ cross v u q)) ∧
    2 ≤ (lowerStack points).length ∧
    (∀ t, (lowerStack points).head? = some t → ∀ q ∈ points, lexLe q t) ∧
    (∀ g, (lowerStack points).getLast? = some g → ∀ q ∈ points, lexLe g q) := by
  obtain ⟨P₁, hPmem, hPlen, hinv⟩ := lowerStack_inv points hne
  obtain ⟨hne', hmem', hsort', htri', hedges', hhead', hbot', hlen'⟩ := hinv
  refine ⟨?_, ?_, htri', ?_, ?_, ?_, ?_⟩
  · intro s hs; exact (hPmem s).1 (hmem' s hs)
  · rcases hsort' with h | ⟨p', hp', hall⟩
    · exact h
    · exfalso
      obtain ⟨a, ha, b, hb, hab⟩ := hex
      apply hab
      rw [hall a ((hPmem a).2 ha), hall b ((hPmem b).2 hb)]
  · intro q hq; exact hedges' q ((hPmem q).2 hq)
  · rcases hlen' with h | h
    · exact h
    · exfalso
      obtain ⟨a, ha, b, hb, hab⟩ := hex
      have h2 := two_le_length_of_two_mem ha hb hab
      omega
  · intro t ht q hq; exact hhead' q ((hPmem q).2 hq) t ht
  · intro g hg q hq; exact hbot' q ((hPmem q).2 hq) g hg

theorem upperStack_inv (points : List Point) (hne : points ≠ [])
    (hex : ∃ a, a ∈ points ∧ ∃ b, b ∈ points ∧ a ≠ b) :
    (∀ s ∈ upperStack points, s ∈ points) ∧
    (upperStack points).Chain' (fun u v => lexLt u v) ∧
    Chain3 (fun x y z => 0 < cross z y x) (upperStack points) ∧
    (∀ q ∈ points, (upperStack points).Chain' (fun u v => 0 ≤ cross v u q)) ∧
    2 ≤ (upperStack points).length ∧
    (∀ t, (upperStack points).head? = some t → ∀ q ∈ points, lexLe t q) ∧
    (∀ g, (upperStack points).getLast? = some g → ∀ q ∈ points, lexLe q g) := by
  have hrevne : ((hullSorted points).reverse).map pointNeg ≠ [] := by
    have hl := hullSorted_length points
    intro h
    have h' : (hullSorted points).reverse = [] := by
      cases hrev : (hullSorted points).reverse with
      | nil => rfl
      | cons x t => rw [hrev] at h; simp at h
    have h'' : hullSorted points = [] := by
      cases hs : hullSorted points with
      | nil => rfl
      | cons x t => rw [hs] at h'; simp at h'
    rw [h''] at hl
    apply hne
    exact List.length_eq_zero.1 hl.symm
  have hrevpw : (((hullSorted points).reverse).map pointNeg).Pairwise lexLe := by
    have h1 : (hullSorted points).Pairwise lexLe := hullSorted_pairwise points
    have h2 : ((hullSorted points).reverse).Pairwise (fun a b => lexLe b a) :=
      List.pairwise_reverse.2 h1
    apply List.pairwise_map.2
    exact h2.imp (fun h => (lexLe_pointNeg _ _).2 h)
  obtain ⟨Q, hQmem, hQlen, hQinv⟩ :=
    scan_of_sorted (((hullSorted points).reverse).map pointNeg) hrevne hrevpw
  obtain ⟨hne', hmem', hsort', htri', hedges', hhead', hbot', hlen'⟩ := hQinv
  have hNU : (((hullSorted points).reverse).map pointNeg).foldl chainStep []
      = (upperStack points).map pointNeg := by
    have h := foldl_chainStep_pointNeg ((hullSorted points).reverse) []
    simpa [upperStack] using h
  have hUN : upperStack points
      = ((((hullSorted points).reverse).map pointNeg).foldl chainStep []).map
          pointNeg := by
    rw [hNU, map_pointNeg_involutive]
  rw [hNU] at hne' hmem' hsort' htri' hedges' hhead' hbot' hlen'
  have hmempts : ∀ x ∈ (upperStack points).map pointNeg, pointNeg x ∈ points := by
    intro x hx
    have h1 := (hQmem x).1 (hmem' x hx)
    obtain ⟨y, hy, hyx⟩ := List.mem_map.1 h1
    rw [← hyx, pointNeg_pointNeg]
    exact (hullSorted_mem points y).1 (List.mem_reverse.1 hy)
  have hptsmem : ∀ q ∈ points, pointNeg q ∈ Q := by
    intro q hq
    apply (hQmem (pointNeg q)).2
    apply List.mem_map_of_mem pointNeg
    exact List.mem_reverse.2 ((hullSorted_mem points q).2 hq)
  have hchainN : ((upperStack points).map pointNeg).Chain' (fun u v => lexLt v u) := by
    rcases hsort' with h | ⟨p', hp', hall⟩
    · exact h
    · exfalso
      obtain ⟨a, ha, b, hb, hab⟩ := hex
      apply hab
      rw [← pointNeg_pointNeg a, hall (pointNeg a) (hptsmem a ha),
        ← pointNeg_pointNeg b, hall (pointNeg b) (hptsmem b hb)]
  refine ⟨?_, ?_, ?_, ?_, ?_, ?_, ?_⟩
  · intro s hs
    have h1 : pointNeg s ∈ (upperStack points).map pointNeg :=
      List.mem_map_of_mem pointNeg hs
    have h2 := hmempts (pointNeg s) h1
    rw [pointNeg_pointNeg] at h2
    exact h2
  · have h := (List.chain'_map pointNeg).1 hchainN
    exact h.imp (fun a b hr => (lexLt_pointNeg b a).1 hr)
  · have hpre : Chain3
        (fun x y z => 0 < cross (pointNeg z) (pointNeg y) (pointNeg x))
        ((upperStack points).map pointNeg) := by
      apply Chain3_imp ?_ htri'
      intro a b c hr
      show (0:ℤ) < cross (pointNeg c) (pointNeg b) (pointNeg a)
      rw [cross_pointNeg]
      exact hr
    have h2 := @Chain3_map (fun x y z => 0 < cross z y x) pointNeg
      ((upperStack points).map pointNeg) hpre
    rw [map_pointNeg_involutive] at h2
    exact h2
  · intro q hq
    have h := hedges' (pointNeg q) (hptsmem q hq)
    have h2 := (List.chain'_map pointNeg).1 h
    exact h2.imp (fun a b hr => by
      rw [← cross_pointNeg b a q]
      exact hr)
  · rcases hlen' with h | h
    · rw [List.length_map] at h
      exact h
    · exfalso
      obtain ⟨a, ha, b, hb, hab⟩ := hex
      have h2 := two_le_length_of_two_mem ha hb hab
      have hQl : Q.length = points.length := by
        rw [hQlen, List.length_map, List.length_reverse, hullSorted_length]
      omega
  · intro t ht q hq
    have hmap : ((upperStack points).map pointNeg).head?
        = (upperStack points).head?.map pointNeg := List.head?_map pointNeg _
    rw [ht] at hmap
    have hhh := hhead' (pointNeg q) (hptsmem q hq) (pointNeg t) hmap
    exact (lexLe_pointNeg q t).1 hhh
  · intro g hg q hq
    have hmap : ((upperStack points).map pointNeg).getLast?
        = (upperStack points).getLast?.map pointNeg := List.getLast?_map pointNeg _
    rw [hg] at hmap
    have hhh := hbot' (pointNeg q) (hptsmem q hq) (pointNeg g) hmap
    exact (lexLe_pointNeg g q).1 hhh

/-! ### Decomposition of `convexHull` into the two chain scans -/

theorem convexHull_eq (points : List Point) (h3 : 3 ≤ points.length) :
    convexHull points
      = ((upperStack points).tail ++ (lowerStack points).tail).reverse := by
  have hsne : hullSorted points ≠ [] := by
    have hl := hullSorted_length points
    intro h
    rw [h] at hl
    simp at hl
    omega
  have hstack1ne : lowerStack points ≠ [] := by
    unfold lowerStack
    obtain ⟨p₀, rest, hsplit⟩ := List.exists_cons_of_ne_nil hsne
    rw [hsplit, List.foldl_cons]
    exact foldl_chainStep_ne_nil rest (chainStep [] p₀) (chainStep_ne_nil [] p₀)
  obtain ⟨st1h, st1t, hst1⟩ := List.exists_cons_of_ne_nil hstack1ne
  have hhead : (lowerStack points).head? = (hullSorted points).getLast? := by
    unfold lowerStack
    exact foldl_chainStep_head (hullSorted points) [] hsne
  have hrev : (hullSorted points).reverse
      = (hullSorted points).getLast hsne ::
        ((hullSorted points).take ((hullSorted points).length - 1)).reverse := by
    conv_lhs => rw [← List.dropLast_concat_getLast hsne]
    rw [List.reverse_append, List.dropLast_eq_take, List.reverse_singleton,
      List.singleton_append]
  have hupper : upperStack points
      = (((hullSorted points).take ((hullSorted points).length - 1)).reverse).foldl
          chainStep [(hullSorted points).getLast hsne] := by
    unfold upperStack
    rw [hrev, List.foldl_cons]
    rfl
  have hst1h : st1h = (hullSorted points).getLast hsne := by
    rw [hst1] at hhead
    simp only [List.head?_cons] at hhead
    rw [List.getLast?_eq_getLast (hullSorted points) hsne] at hhead
    injection hhead
  have hupne : upperStack points ≠ [] := by
    rw [hupper]
    exact foldl_chainStep_ne_nil _ _ (by simp)
  have hmain : convexHull points
      = ((((hullSorted points).take ((hullSorted points).length - 1)).reverse).foldl
          (chainStepB ((lowerStack points).length + 1))
          (lowerStack points)).tail.reverse := by
    unfold convexHull hullSorted lowerStack
    rw [if_neg (by omega)]
    rfl
  have hfloor : (((hullSorted points).take ((hullSorted points).length - 1)).reverse).foldl
        (chainStepB ((lowerStack points).length + 1)) (lowerStack points)
      = upperStack points ++ st1t := by
    rw [hupper, ← hst1h, hst1]
    exact foldlB_eq st1t _ [st1h] (by simp)
  rw [hmain, hfloor, List.tail_append_of_ne_nil hupne, hst1]
  rfl

/-! ### Order and uniqueness helpers for the assembled hull -/

theorem chain'_head_rel {R : Point → Point → Prop}
    (htrans : ∀ a b c, R a b → R b c → R a c) :
    ∀ {l : List Point} {x : Point}, (x :: l).Chain' R → ∀ y ∈ l, R x y := by
  intro l
  induction l with
  | nil => intro x _ y hy; simp at hy
  | cons z t ih =>
    intro x hc y hy
    have h1 : R x z := (List.chain'_cons.1 hc).1
    rcases List.mem_cons.1 hy with hy' | hy'
    · rw [hy']
      exact h1
    · exact htrans x z y h1 (ih (List.chain'_cons.1 hc).2 y hy')

theorem chain'_nodup {R : Point → Point → Prop}
    (htrans : ∀ a b c, R a b → R b c → R a c)
    (hirr : ∀ a, ¬ R a a) :
    ∀ {l : List Point}, l.Chain' R → l.Nodup := by
  intro l
  induction l with
  | nil => intro _; exact List.nodup_nil
  | cons x t ih =>
    intro hc
    rw [List.nodup_cons]
    refine ⟨?_, ih hc.tail⟩
    intro hx
    exact hirr x (chain'_head_rel htrans hc x hx)

theorem chain'_split_rel {R : Point → Point → Prop} {l₁ l₂ : List Point}
    {a x b : Point} (h : (l₁ ++ a :: x :: b :: l₂).Chain' R) :
    R a x ∧ R x b := by
  obtain ⟨-, hax, hrest⟩ := List.chain'_append_cons_cons.1 h
  exact ⟨hax, (List.chain'_cons.1 hrest).1⟩

/-! ### Strictness of the two seam turns -/

theorem seam_strict_max {P : List Point} (hncol : ¬ collinearAll P)
    {v m u : Point} (hvm : lexLt v m) (hum : lexLt u m)
    (h1 : ∀ q ∈ P, 0 ≤ cross v m q) (h2 : ∀ q ∈ P, 0 ≤ cross m u q)
    (huP : u ∈ P) : 0 < cross v m u := by
  rcases lt_or_eq_of_le (h1 u huP) with h | h
  · exact h
  · exfalso
    apply hncol
    have hvne : v ≠ m := by
      intro he
      rw [he] at hvm
      exact lexLt_irrefl m hvm
    have hline : ∀ q ∈ P, cross v m q = 0 := by
      intro q hq
      have hA : 0 < m.x - v.x ∨ (m.x - v.x = 0 ∧ 0 < m.y - v.y) := by
        have hvm' := hvm
        unfold lexLt at hvm'
        omega
      have hC : u.x - m.x < 0 ∨ (u.x - m.x = 0 ∧ u.y - m.y < 0) := by
        have hum' := hum
        unfold lexLt at hum'
        omega
      have hAC : (m.x - v.x) * (u.y - m.y) - (m.y - v.y) * (u.x - m.x) = 0 := by
        have he : (m.x - v.x) * (u.y - m.y) - (m.y - v.y) * (u.x - m.x)
            = cross v m u := by unfold cross; ring
        rw [he, ← h]
      have he1 : (m.x - v.x) * (q.y - m.y) - (m.y - v.y) * (q.x - m.x)
          = cross v m q := by unfold cross; ring
      have he2 : (u.x - m.x) * (q.y - m.y) - (u.y - m.y) * (q.x - m.x)
          = cross m u q := by unfold cross; ring
      have hod := opposite_dirs hA hC hAC
        (by rw [he1]; exact h1 q hq) (by rw [he2]; exact h2 q hq)
      have hz := hod.1
      rw [he1] at hz
      exact hz
    intro a ha b hb c hc
    exact collinear_of_line hvne (hline a ha) (hline b hb) (hline c hc)

theorem seam_strict_min {P : List Point} (hncol : ¬ collinearAll P)
    {u m0 v : Point} (hmu : lexLt m0 u) (hmv : lexLt m0 v)
    (h1 : ∀ q ∈ P, 0 ≤ cross u m0 q) (h2 : ∀ q ∈ P, 0 ≤ cross m0 v q)
    (hvP : v ∈ P) : 0 < cross u m0 v := by
  rcases lt_or_eq_of_le (h1 v hvP) with h | h
  · exact h
  · exfalso
    apply hncol
    have hvne : m0 ≠ v := by
      intro he
      rw [← he] at hmv
      exact lexLt_irrefl m0 hmv
    have hline : ∀ q ∈ P, cross m0 v q = 0 := by
      intro q hq
      have hA : 0 < v.x - m0.x ∨ (v.x - m0.x = 0 ∧ 0 < v.y - m0.y) := by
        have hmv' := hmv
        unfold lexLt at hmv'
        omega
      have hC : m0.x - u.x < 0 ∨ (m0.x - u.x = 0 ∧ m0.y - u.y < 0) := by
        have hmu' := hmu
        unfold lexLt at hmu'
        omega
      have hAC : (v.x - m0.x) * (m0.y - u.y) - (v.y - m0.y) * (m0.x - u.x) = 0 := by
        have he : (v.x - m0.x) * (m0.y - u.y) - (v.y - m0.y) * (m0.x - u.x)
            = -cross u m0 v := by unfold cross; ring
        rw [he, ← h]
        ring
      have he1 : (v.x - m0.x) * (q.y - m0.y) - (v.y - m0.y) * (q.x - m0.x)
          = cross m0 v q := by unfold cross; ring
      have he2 : (m0.x - u.x) * (q.y - m0.y) - (m0.y - u.y) * (q.x - m0.x)
          = cross u m0 q := by unfold cross; ring
      have hod := opposite_dirs hA hC hAC
        (by rw [he1]; exact h2 q hq) (by rw [he2]; exact h1 q hq)
      have hz := hod.1
      rw [he1] at hz
      exact hz
    intro a ha b hb c hc
    exact collinear_of_line hvne (hline a ha) (hline b hb) (hline c hc)

/-- A vertex interior to both chains is impossible: the strict upper turn at
such a vertex contradicts the collinearity forced by the four weak edge
conditions. -/
theorem interior_impossible {adn x cup ddn : Point}
    (h1 : lexLt adn x) (h2 : lexLt x cup)
    (hw1 : 0 ≤ cross adn x cup) (hw2 : 0 ≤ cross cup x adn)
    (hw3 : 0 ≤ cross adn x ddn) (hstrict : 0 < cross cup x ddn) : False := by
  have hyy : cross cup x adn = -cross adn x cup := by unfold cross; ring
  have hz : cross adn x cup = 0 := by linarith
  have hA : 0 < x.x - adn.x ∨ (x.x - adn.x = 0 ∧ 0 < x.y - adn.y) := by
    have h1' := h1
    unfold lexLt at h1'
    omega
  have hC : x.x - cup.x < 0 ∨ (x.x - cup.x = 0 ∧ x.y - cup.y < 0) := by
    have h2' := h2
    unfold lexLt at h2'
    omega
  have hAC : (x.x - adn.x) * (x.y - cup.y) - (x.y - adn.y) * (x.x - cup.x) = 0 := by
    have he : (x.x - adn.x) * (x.y - cup.y) - (x.y - adn.y) * (x.x - cup.x)
        = -cross adn x cup := by unfold cross; ring
    rw [he, hz]
    ring
  have he1 : (x.x - adn.x) * (ddn.y - x.y) - (x.y - adn.y) * (ddn.x - x.x)
      = cross adn x ddn := by unfold cross; ring
  have he2 : (x.x - cup.x) * (ddn.y - x.y) - (x.y - cup.y) * (ddn.x - x.x)
      = cross cup x ddn := by unfold cross; ring
  have hod := opposite_dirs hA hC hAC (by rw [he1]; exact hw3)
    (by rw [he2]; exact hstrict.le)
  have hzz := hod.2
  rw [he2] at hzz
  linarith

/-! ### Assembling the hull from the two chains -/

theorem collinearAll_of_le_two {points : List Point} (h : points.length ≤ 2) :
    collinearAll points := by
  intro a ha b hb c hc
  cases points with
  | nil => simp at ha
  | cons x t =>
    cases t with
    | nil =>
      simp only [List.mem_singleton] at ha hb hc
      rw [ha, hb, cross_self_left]
    | cons y t' =>
      cases t' with
      | nil =>
        simp only [List.mem_cons, List.mem_singleton, List.not_mem_nil,
          or_false] at ha hb hc
        rcases ha with rfl | rfl <;> rcases hb with rfl | rfl <;>
          rcases hc with rfl | rfl <;>
          simp [cross_self_left, cross_self_right, cross_self_outer]
      | cons z t'' =>
        simp only [List.length_cons] at h
        omega

theorem exists_two_ne_of_not_collinear {points : List Point}
    (h : ¬ collinearAll points) :
    ∃ a, a ∈ points ∧ ∃ b, b ∈ points ∧ a ≠ b := by
  by_contra hcon
  push_neg at hcon
  apply h
  intro a ha b hb c hc
  rw [hcon a ha b hb, cross_self_left]

theorem hull_assembly {P S D : List Point} (hcp : ChainPair P S D)
    (hncol : ¬ collinearAll P) :
    3 ≤ ((D.tail ++ S.tail).reverse).length ∧
    CyclicCCW ((D.tail ++ S.tail).reverse) ∧
    ContainsAll ((D.tail ++ S.tail).reverse) P ∧
    ((D.tail ++ S.tail).reverse).Nodup := by
  obtain ⟨hS2, hD2, hSmem, hDmem, hSsort, hDsort, hStri, hDtri, hSedge, hDedge,
    hheads, hlasts⟩ := hcp
  obtain ⟨m, S', hS1⟩ := List.exists_cons_of_ne_nil
    (show S ≠ [] by intro he; rw [he] at hS2; simp at hS2)
  have hS'ne : S' ≠ [] := by
    intro he
    rw [hS1, he] at hS2
    simp at hS2
  obtain ⟨s1, S₂, hS2s⟩ := List.exists_cons_of_ne_nil hS'ne
  rw [hS2s] at hS1
  obtain ⟨m0, D', hD1⟩ := List.exists_cons_of_ne_nil
    (show D ≠ [] by intro he; rw [he] at hD2; simp at hD2)
  have hD'ne : D' ≠ [] := by
    intro he
    rw [hD1, he] at hD2
    simp at hD2
  obtain ⟨d1, D₂, hD2s⟩ := List.exists_cons_of_ne_nil hD'ne
  rw [hD2s] at hD1
  subst hS1
  subst hD1
  simp only [List.head?_cons] at hheads hlasts
  have hDlast : (m0 :: d1 :: D₂).getLast? = some m := hheads.symm
  have hSlast : (m :: s1 :: S₂).getLast? = some m0 := hlasts
  have hSdne : (m :: s1 :: S₂).dropLast ≠ [] := by
    rw [List.dropLast_cons₂]
    simp
  have hDdne : (m0 :: d1 :: D₂).dropLast ≠ [] := by
    rw [List.dropLast_cons₂]
    simp
  obtain ⟨vpen, hvpen⟩ := Option.isSome_iff_exists.1 (List.getLast?_isSome.2 hSdne)
  obtain ⟨upen, hupen⟩ := Option.isSome_iff_exists.1 (List.getLast?_isSome.2 hDdne)
  have hs1m : lexLt s1 m := (List.chain'_cons.1 hSsort).1
  have hm0d1 : lexLt m0 d1 := (List.chain'_cons.1 hDsort).1
  have hvpenm0 : lexLt m0 vpen := chain'_getLast_pair hSsort hvpen hSlast
  have hupenm : lexLt upen m := chain'_getLast_pair hDsort hupen hDlast
  have hvpenP : vpen ∈ P := hSmem vpen
    (List.Sublist.mem (List.mem_of_getLast?_eq_some hvpen)
      (List.dropLast_sublist (m :: s1 :: S₂)))
  have hupenP : upen ∈ P := hDmem upen
    (List.Sublist.mem (List.mem_of_getLast?_eq_some hupen)
      (List.dropLast_sublist (m0 :: d1 :: D₂)))
  have hSfirst : ∀ q ∈ P, 0 ≤ cross s1 m q := fun q hq =>
    (List.chain'_cons.1 (hSedge q hq)).1
  have hDfirst : ∀ q ∈ P, 0 ≤ cross d1 m0 q := fun q hq =>
    (List.chain'_cons.1 (hDedge q hq)).1
  have hSlastE : ∀ q ∈ P, 0 ≤ cross m0 vpen q := fun q hq =>
    chain'_getLast_pair (hSedge q hq) hvpen hSlast
  have hDlastE : ∀ q ∈ P, 0 ≤ cross m upen q := fun q hq =>
    chain'_getLast_pair (hDedge q hq) hupen hDlast
  have hseamM : 0 < cross s1 m upen :=
    seam_strict_max hncol hs1m hupenm hSfirst hDlastE hupenP
  have hseamMin : 0 < cross d1 m0 vpen :=
    seam_strict_min hncol hm0d1 hvpenm0 hDfirst hSlastE hvpenP
  simp only [List.tail_cons]
  rw [List.reverse_append]
  set A := (s1 :: S₂).reverse with hA
  set Bu := (d1 :: D₂).reverse with hBu
  have hSlastT : (s1 :: S₂).getLast? = some m0 := by
    have h := hSlast
    rw [List.getLast?_cons_cons] at h
    exact h
  have hDlastT : (d1 :: D₂).getLast? = some m := by
    have h := hDlast
    rw [List.getLast?_cons_cons] at h
    exact h
  have hAlast : A.getLast? = some s1 := by
    rw [hA, List.getLast?_reverse]
    rfl
  have hAhead : A.head? = some m0 := by
    rw [hA, List.head?_reverse]
    exact hSlastT
  have hBuhead : Bu.head? = some m := by
    rw [hBu, List.head?_reverse]
    exact hDlastT
  have hBulast : Bu.getLast? = some d1 := by
    rw [hBu, List.getLast?_reverse]
    rfl
  have hAdrop : A.dropLast.getLast? = S₂.head? := by
    rw [hA, dropLast_reverse_eq, List.getLast?_reverse]
    rfl
  have hDrev : (m0 :: d1 :: D₂).reverse = Bu ++ [m0] := by
    rw [hBu, List.reverse_cons]
  obtain ⟨A', hAsplit⟩ : ∃ A', A = m0 :: A' := by
    cases hA0 : A with
    | nil => rw [hA0] at hAhead; simp at hAhead
    | cons a0 A' =>
      rw [hA0] at hAhead
      simp only [List.head?_cons, Option.some.injEq] at hAhead
      exact ⟨A', by rw [hAhead]⟩
  obtain ⟨Bu', hBusplit⟩ : ∃ Bu', Bu = m :: Bu' := by
    cases hB0 : Bu with
    | nil => rw [hB0] at hBuhead; simp at hBuhead
    | cons b0 Bu' =>
      rw [hB0] at hBuhead
      simp only [List.head?_cons, Option.some.injEq] at hBuhead
      exact ⟨Bu', by rw [hBuhead]⟩
  have hA' : A' = ((s1 :: S₂).dropLast).reverse := by
    have h := tail_reverse_eq (s1 :: S₂)
    rw [← hA, hAsplit] at h
    exact h
  have hsecond : (A' ++ Bu).head? = some vpen := by
    cases hS₂s : S₂ with
    | nil =>
      have hA'nil : A' = [] := by rw [hA', hS₂s]; rfl
      have hvm : vpen = m := by
        rw [hS₂s] at hvpen
        have h2 : (some m : Option Point) = some vpen := hvpen
        exact (Option.some.inj h2).symm
      rw [hA'nil, List.nil_append, hBusplit, hvm]
      rfl
    | cons s2 S₃ =>
      have hA'cons : A'.head? = some vpen := by
        rw [hA', List.head?_reverse]
        rw [hS₂s] at hvpen
        rw [List.dropLast_cons₂, List.dropLast_cons₂,
          List.getLast?_cons_cons] at hvpen
        rw [hS₂s, List.dropLast_cons₂]
        exact hvpen
      cases hA0 : A' with
      | nil => rw [hA0] at hA'cons; simp at hA'cons
      | cons x X =>
        rw [hA0] at hA'cons
        rw [List.cons_append]
        exact hA'cons
  have hlen3 : 3 ≤ (A ++ Bu).length := by
    rw [List.length_append, hA, hBu, List.length_reverse, List.length_reverse,
      List.length_cons, List.length_cons]
    by_contra hcon
    push_neg at hcon
    have h0 : S₂.length = 0 ∧ D₂.length = 0 := by omega
    have hS₂nil : S₂ = [] := List.length_eq_zero.1 h0.1
    have hD₂nil : D₂ = [] := List.length_eq_zero.1 h0.2
    have hs1m0 : s1 = m0 := by
      rw [hS₂nil] at hSlast
      have h2 : (some s1 : Option Point) = some m0 := hSlast
      exact Option.some.inj h2
    have hupm0 : upen = m0 := by
      rw [hD₂nil] at hupen
      have h2 : (some m0 : Option Point) = some upen := hupen
      exact (Option.some.inj h2).symm
    rw [hs1m0, hupm0, cross_self_outer] at hseamM
    exact absurd hseamM (lt_irrefl 0)
  have hCCW : CyclicCCW (A ++ Bu) := by
    unfold CyclicCCW
    have htake : (A ++ Bu).take 2 = [m0, vpen] := by
      rw [hAsplit, List.cons_append]
      obtain ⟨Z, hZ⟩ : ∃ Z, A' ++ Bu = vpen :: Z := by
        cases hab : A' ++ Bu with
        | nil => rw [hab] at hsecond; simp at hsecond
        | cons z Z =>
          rw [hab] at hsecond
          simp only [List.head?_cons, Option.some.injEq] at hsecond
          exact ⟨Z, by rw [hsecond]⟩
      rw [hZ]
      rfl
    rw [htake]
    have hgrp : (A ++ Bu) ++ [m0, vpen] = (A ++ (Bu ++ [m0])) ++ [vpen] := by
      simp [List.append_assoc]
    rw [hgrp]
    have hUDccw : Chain3 (fun a b c => 0 < cross a b c) (Bu ++ [m0]) := by
      have h := Chain3_reverse hDtri
      rw [List.reverse_cons, ← hBu] at h
      exact Chain3_imp (fun a b c hh => hh) h
    have hLAccw : Chain3 (fun a b c => 0 < cross a b c) (A ++ [m]) := by
      have h := Chain3_reverse hStri
      rw [List.reverse_cons, ← hA] at h
      exact Chain3_imp (fun a b c hh => hh) h
    have hAccw : Chain3 (fun a b c => 0 < cross a b c) A :=
      Chain3_append_left hLAccw
    have hglue1 : Chain3 (fun a b c => 0 < cross a b c) (A ++ (Bu ++ [m0])) := by
      apply Chain3_glue A (Bu ++ [m0]) hAccw hUDccw
      · intro a2 a1 b0 ha2 ha1 hb0
        have ha1' : s1 = a1 :=
          Option.some.inj (hAlast.symm.trans ha1)
        have hb0' : m = b0 := by
          rw [hBusplit, List.cons_append] at hb0
          simp only [List.head?_cons, Option.some.injEq] at hb0
          exact hb0
        rw [hAdrop] at ha2
        cases hS₂c : S₂ with
        | nil => rw [hS₂c] at ha2; simp at ha2
        | cons s2 S₃ =>
          rw [hS₂c] at ha2
          simp only [List.head?_cons, Option.some.injEq] at ha2
          have htri := hStri
          rw [hS₂c] at htri
          rw [← ha1', ← hb0', ← ha2]
          exact htri.1
      · intro a1 b0 b1 ha1 hb0 hb1
        have ha1' : s1 = a1 :=
          Option.some.inj (hAlast.symm.trans ha1)
        have hb0' : m = b0 := by
          rw [hBusplit, List.cons_append] at hb0
          simp only [List.head?_cons, Option.some.injEq] at hb0
          exact hb0
        have hb1' : upen = b1 := by
          rw [hDrev.symm, tail_reverse_eq, List.head?_reverse] at hb1
          exact Option.some.inj (hupen.symm.trans hb1)
        rw [← ha1', ← hb0', ← hb1']
        exact hseamM
    apply Chain3_glue (A ++ (Bu ++ [m0])) [vpen] hglue1 (Chain3_single vpen)
    · intro a2 a1 b0 ha2 ha1 hb0
      have hb0' : vpen = b0 := by
        simp only [List.head?_cons, Option.some.injEq] at hb0
        exact hb0
      have hassoc := (List.append_assoc A Bu [m0]).symm
      rw [hassoc, List.getLast?_concat] at ha1
      have ha1' : m0 = a1 := Option.some.inj ha1
      rw [hassoc, List.dropLast_concat] at ha2
      have hABlast : (A ++ Bu).getLast? = some d1 := by
        rw [List.getLast?_append, hBulast]
        rfl
      have ha2' : d1 = a2 :=
        Option.some.inj (hABlast.symm.trans ha2)
      rw [← ha2', ← ha1', ← hb0']
      exact hseamMin
    · intro a1 b0 b1 _ _ hb1
      simp at hb1
  have hContains : ContainsAll (A ++ Bu) P := by
    intro q hq
    have htake1 : (A ++ Bu).take 1 = [m0] := by
      rw [hAsplit, List.cons_append]
      rfl
    rw [htake1]
    have hgrp : (A ++ Bu) ++ [m0] = A ++ (Bu ++ [m0]) :=
      List.append_assoc A Bu [m0]
    rw [hgrp]
    have hLAe : (A ++ [m]).Chain' (fun u v => 0 ≤ cross u v q) := by
      have h : ((m :: s1 :: S₂).reverse).Chain' (fun u v => 0 ≤ cross u v q) :=
        List.chain'_reverse.mpr (hSedge q hq)
      rw [List.reverse_cons, ← hA] at h
      exact h
    have hUDe : (Bu ++ [m0]).Chain' (fun u v => 0 ≤ cross u v q) := by
      have h : ((m0 :: d1 :: D₂).reverse).Chain' (fun u v => 0 ≤ cross u v q) :=
        List.chain'_reverse.mpr (hDedge q hq)
      rw [List.reverse_cons, ← hBu] at h
      exact h
    obtain ⟨hAe, -, hpairA⟩ := List.chain'_append.1 hLAe
    apply List.chain'_append.2
    refine ⟨hAe, hUDe, ?_⟩
    intro x hx y hy
    have hy' : y = m := by
      rw [hBusplit, List.cons_append] at hy
      simp only [List.head?_cons, Option.mem_def, Option.some.injEq] at hy
      exact hy.symm
    rw [hy']
    exact hpairA x hx m rfl
  have hNodup : (A ++ Bu).Nodup := by
    have htransS : ∀ a b c : Point, lexLt b a → lexLt c b → lexLt c a :=
      fun a b c h1 h2 => lexLt_trans h2 h1
    have htransD : ∀ a b c : Point, lexLt a b → lexLt b c → lexLt a c :=
      fun a b c h1 h2 => lexLt_trans h1 h2
    have hndA : A.Nodup := by
      rw [hA, List.nodup_reverse]
      exact chain'_nodup htransS lexLt_irrefl (List.chain'_cons.1 hSsort).2
    have hndB : Bu.Nodup := by
      rw [hBu, List.nodup_reverse]
      exact chain'_nodup htransD lexLt_irrefl (List.chain'_cons.1 hDsort).2
    apply List.Nodup.append hndA hndB
    intro x hxA hxB
    rw [hA, List.mem_reverse] at hxA
    rw [hBu, List.mem_reverse] at hxB
    have hxm : lexLt x m := chain'_head_rel htransS hSsort x hxA
    have hm0x : lexLt m0 x := chain'_head_rel htransD hDsort x hxB
    have hxS : x ∈ m :: s1 :: S₂ := List.mem_cons_of_mem m hxA
    have hheadne : (m :: s1 :: S₂).head? ≠ some x := by
      simp only [List.head?_cons, ne_eq, Option.some.injEq]
      intro he
      rw [he] at hxm
      exact lexLt_irrefl x hxm
    have hlastne : (m :: s1 :: S₂).getLast? ≠ some x := by
      rw [hSlast]
      simp only [ne_eq, Option.some.injEq]
      intro he
      rw [he] at hm0x
      exact lexLt_irrefl x hm0x
    obtain ⟨sl₁, bup, adn, sl₂, hSsplit2⟩ := interior_split hxS hheadne hlastne
    have hxD : x ∈ m0 :: d1 :: D₂ := List.mem_cons_of_mem m0 hxB
    have hheadneD : (m0 :: d1 :: D₂).head? ≠ some x := by
      simp only [List.head?_cons, ne_eq, Option.some.injEq]
      intro he
      rw [he] at hm0x
      exact lexLt_irrefl x hm0x
    have hlastneD : (m0 :: d1 :: D₂).getLast? ≠ some x := by
      rw [hDlast]
      simp only [ne_eq, Option.some.injEq]
      intro he
      rw [he] at hxm
      exact lexLt_irrefl x hxm
    obtain ⟨dl₁, ddn, cup, dl₂, hDsplit2⟩ := interior_split hxD hheadneD hlastneD
    have hSs := hSsort
    rw [hSsplit2] at hSs
    obtain ⟨hr1, hr2⟩ := chain'_split_rel hSs
    have hDs := hDsort
    rw [hDsplit2] at hDs
    obtain ⟨hr3, hr4⟩ := chain'_split_rel hDs
    have hadnP : adn ∈ P := hSmem adn (by rw [hSsplit2]; simp)
    have hcupP : cup ∈ P := hDmem cup (by rw [hDsplit2]; simp)
    have hddnP : ddn ∈ P := hDmem ddn (by rw [hDsplit2]; simp)
    have hw1 : 0 ≤ cross adn x cup := by
      have h := hSedge cup hcupP
      rw [hSsplit2] at h
      exact (chain'_split_rel h).2
    have hw3 : 0 ≤ cross adn x ddn := by
      have h := hSedge ddn hddnP
      rw [hSsplit2] at h
      exact (chain'_split_rel h).2
    have hw2 : 0 ≤ cross cup x adn := by
      have h := hDedge adn hadnP
      rw [hDsplit2] at h
      exact (chain'_split_rel h).2
    have hstrict : 0 < cross cup x ddn := by
      have h := hDtri
      rw [hDsplit2] at h
      exact Chain3_middle dl₁ h
    exact interior_impossible hr2 hr4 hw1 hw2 hw3 hstrict
  exact ⟨hlen3, hCCW, hContains, hNodup⟩

/-- Main correctness theorem for `convexHull` on inputs that are not all
collinear: the result is a subset of the input of length at least 3, a
strictly convex counter-clockwise polygon, containing every input point,
with no duplicate vertices. -/
theorem hull_main (points : List Point) (hncol : ¬ collinearAll points) :
    3 ≤ (convexHull points).length ∧
    (∀ v ∈ convexHull points, v ∈ points) ∧
    CyclicCCW (convexHull points) ∧
    ContainsAll (convexHull points) points ∧
    (convexHull points).Nodup := by
  have h3 : 3 ≤ points.length := by
    by_contra hcon
    push_neg at hcon
    exact hncol (collinearAll_of_le_two (by omega))
  have hne : points ≠ [] := by
    intro he
    rw [he] at h3
    simp at h3
  have hex := exists_two_ne_of_not_collinear hncol
  obtain ⟨hSmem, hSsort, hStri, hSedge, hS2, hShead, hSbot⟩ :=
    lowerStack_facts points hne hex
  obtain ⟨hDmem, hDsort, hDtri, hDedge, hD2, hDhead, hDbot⟩ :=
    upperStack_inv points hne hex
  have hSne : lowerStack points ≠ [] := by
    intro he
    rw [he] at hS2
    simp at hS2
  have hDne : upperStack points ≠ [] := by
    intro he
    rw [he] at hD2
    simp at hD2
  obtain ⟨s0, Srest, hSsplit⟩ := List.exists_cons_of_ne_nil hSne
  obtain ⟨d0, Drest, hDsplit⟩ := List.exists_cons_of_ne_nil hDne
  have hms : (lowerStack points).head? = some s0 := by rw [hSsplit]; rfl
  have hd0 : (upperStack points).head? = some d0 := by rw [hDsplit]; rfl
  obtain ⟨mg, hmg⟩ := Option.isSome_iff_exists.1 (List.getLast?_isSome.2 hDne)
  obtain ⟨gs, hgs⟩ := Option.isSome_iff_exists.1 (List.getLast?_isSome.2 hSne)
  have hs0P : s0 ∈ points := hSmem s0 (by rw [hSsplit]; simp)
  have hd0P : d0 ∈ points := hDmem d0 (by rw [hDsplit]; simp)
  have hmgP : mg ∈ points := hDmem mg (List.mem_of_getLast?_eq_some hmg)
  have hgsP : gs ∈ points := hSmem gs (List.mem_of_getLast?_eq_some hgs)
  have hheads : (lowerStack points).head? = (upperStack points).getLast? := by
    rw [hms, hmg]
    have h1 : lexLe mg s0 := hShead s0 hms mg hmgP
    have h2 : lexLe s0 mg := hDbot mg hmg s0 hs0P
    rw [lexLe_antisymm h2 h1]
  have hlasts : (lowerStack points).getLast? = (upperStack points).head? := by
    rw [hgs, hd0]
    have h1 : lexLe gs d0 := hSbot gs hgs d0 hd0P
    have h2 : lexLe d0 gs := hDhead d0 hd0 gs hgsP
    rw [lexLe_antisymm h1 h2]
  have hcp : ChainPair points (lowerStack points) (upperStack points) :=
    ⟨hS2, hD2, hSmem, hDmem, hSsort, hDsort, hStri, hDtri, hSedge, hDedge,
      hheads, hlasts⟩
  have hasm := hull_assembly hcp hncol
  rw [convexHull_eq points h3]
  refine ⟨hasm.1, ?_, hasm.2.1, hasm.2.2.1, hasm.2.2.2⟩
  intro v hv
  rw [List.mem_reverse, List.mem_append] at hv
  rcases hv with hv | hv
  · exact hDmem v (List.mem_of_mem_tail hv)
  · exact hSmem v (List.mem_of_mem_tail hv)

/-! ### The collinear degenerate branch and the general subset property -/

theorem convexHull_subset (points : List Point) :
    ∀ v ∈ convexHull points, v ∈ points := by
  intro v hv
  by_cases hlen : points.length ≤ 2
  · unfold convexHull at hv
    rw [if_pos hlen] at hv
    exact hv
  · have h3 : 3 ≤ points.length := by omega
    rw [convexHull_eq points h3] at hv
    rw [List.mem_reverse, List.mem_append] at hv
    have hup : ∀ x ∈ upperStack points, x ∈ points := by
      intro x hx
      unfold upperStack at hx
      rcases foldl_chainStep_subset _ _ _ hx with h | h
      · exact (hullSorted_mem points x).1 (List.mem_reverse.1 h)
      · simp at h
    have hlo : ∀ x ∈ lowerStack points, x ∈ points := by
      intro x hx
      unfold lowerStack at hx
      rcases foldl_chainStep_subset _ _ _ hx with h | h
      · exact (hullSorted_mem points x).1 h
      · simp at h
    rcases hv with hv | hv
    · exact hup v (List.mem_of_mem_tail hv)
    · exact hlo v (List.mem_of_mem_tail hv)

theorem foldl_collinear (P : List Point) (hcol : collinearAll P) :
    ∀ (todo : List Point) (x y : Point), x ∈ P → y ∈ P →
      (∀ q ∈ todo, q ∈ P) → ∀ g, todo.getLast? = some g →
      todo.foldl chainStep [y, x] = [g, x] := by
  intro todo
  induction todo with
  | nil => intro x y _ _ _ g hg; simp at hg
  | cons p todo' ih =>
    intro x y hx hy hmem g hg
    have hstep : chainStep [y, x] p = [p, x] := by
      rw [chainStep_cons_cons, if_pos]
      · rfl
      · rw [orientation_ne_two_iff, hcol x hx y hy p (hmem p (by simp))]
    rw [List.foldl_cons, hstep]
    cases todo' with
    | nil =>
      have h2 : (some p : Option Point) = some g := hg
      rw [List.foldl_nil, Option.some.inj h2]
    | cons p' todo'' =>
      rw [List.getLast?_cons_cons] at hg
      exact ih x p hx (hmem p (by simp))
        (fun q hq => hmem q (List.mem_cons_of_mem p hq)) g hg

theorem foldlB_collinear (P : List Point) (hcol : collinearAll P) :
    ∀ (todo : List Point) (p x y : Point), p ∈ P → x ∈ P → y ∈ P →
      (∀ q ∈ todo, q ∈ P) → ∀ g, (p :: todo).getLast? = some g →
      todo.foldl (chainStepB 3) [p, y, x] = [g, y, x] := by
  intro todo
  induction todo with
  | nil =>
    intro p x y _ _ _ _ g hg
    have h2 : (some p : Option Point) = some g := hg
    rw [List.foldl_nil, Option.some.inj h2]
  | cons p' todo' ih =>
    intro p x y hp hx hy hmem g hg
    have hp' : p' ∈ P := hmem p' (by simp)
    have hstep : chainStepB 3 [p, y, x] p' = [p', y, x] := by
      have hcond1 : 3 ≤ ((p :: y :: [x]) : List Point).length ∧
          orientation y p p' ≠ 2 := by
        refine ⟨by simp, ?_⟩
        rw [orientation_ne_two_iff, hcol y hy p hp p' hp']
      have hcond2 : ¬(3 ≤ (([y, x]) : List Point).length ∧
          orientation x y p' ≠ 2) := by
        intro hcon
        have h1 := hcon.1
        simp at h1
      rw [chainStepB_cons_cons, if_pos hcond1, chainStepB_cons_cons,
        if_neg hcond2]
    rw [List.foldl_cons, hstep]
    rw [List.getLast?_cons_cons] at hg
    exact ih p' x y hp' hx hy
      (fun q hq => hmem q (List.mem_cons_of_mem p' hq)) g hg

theorem hull_collinear (points : List Point) (h3 : 3 ≤ points.length)
    (hcol : collinearAll points) :
    ∃ a b, convexHull points = [a, b] ∧ a ∈ points ∧ b ∈ points ∧
      ∀ q ∈ points, lexLe a q ∧ lexLe q b := by
  have hlen : (hullSorted points).length = points.length := hullSorted_length points
  obtain ⟨p₀, t₀, h₀⟩ := List.exists_cons_of_ne_nil
    (show hullSorted points ≠ [] by
      intro he; rw [he] at hlen; simp at hlen; omega)
  obtain ⟨p₁, t₁, h₁⟩ := List.exists_cons_of_ne_nil
    (show t₀ ≠ [] by
      intro he; rw [h₀, he] at hlen; simp at hlen; omega)
  obtain ⟨p₂, t₂, h₂⟩ := List.exists_cons_of_ne_nil
    (show t₁ ≠ [] by
      intro he; rw [h₀, h₁, he] at hlen; simp at hlen; omega)
  rw [h₂] at h₁
  rw [h₁] at h₀
  have hmemS : ∀ q ∈ hullSorted points, q ∈ points := fun q hq =>
    (hullSorted_mem points q).1 hq
  obtain ⟨gl, hgl⟩ : ∃ gl, (p₂ :: t₂).getLast? = some gl :=
    Option.isSome_iff_exists.1 (List.getLast?_isSome.2 (by simp))
  have hlow : lowerStack points = [gl, p₀] := by
    unfold lowerStack
    rw [h₀, List.foldl_cons, List.foldl_cons]
    have e1 : chainStep [] p₀ = [p₀] := rfl
    have e2 : chainStep [p₀] p₁ = [p₁, p₀] := rfl
    rw [e1, e2]
    exact foldl_collinear points hcol (p₂ :: t₂) p₀ p₁
      (hmemS p₀ (by rw [h₀]; simp)) (hmemS p₁ (by rw [h₀]; simp))
      (fun q hq => hmemS q (by
        rw [h₀]
        exact List.mem_cons_of_mem _ (List.mem_cons_of_mem _ hq)))
      gl hgl
  have hrevlen : ((hullSorted points).reverse).length = points.length := by
    rw [List.length_reverse, hlen]
  obtain ⟨q₀, u₀, k₀⟩ := List.exists_cons_of_ne_nil
    (show (hullSorted points).reverse ≠ [] by
      intro he; rw [he] at hrevlen; simp at hrevlen; omega)
  obtain ⟨q₁, u₁, k₁⟩ := List.exists_cons_of_ne_nil
    (show u₀ ≠ [] by
      intro he; rw [k₀, he] at hrevlen; simp at hrevlen; omega)
  obtain ⟨q₂, u₂, k₂⟩ := List.exists_cons_of_ne_nil
    (show u₁ ≠ [] by
      intro he; rw [k₀, k₁, he] at hrevlen; simp at hrevlen; omega)
  rw [k₂] at k₁
  rw [k₁] at k₀
  have hmemR : ∀ q ∈ (hullSorted points).reverse, q ∈ points := fun q hq =>
    hmemS q (List.mem_reverse.1 hq)
  obtain ⟨gu, hgu⟩ : ∃ gu, (q₂ :: u₂).getLast? = some gu :=
    Option.isSome_iff_exists.1 (List.getLast?_isSome.2 (by simp))
  have hupp : upperStack points = [gu, q₀] := by
    unfold upperStack
    rw [k₀, List.foldl_cons, List.foldl_cons]
    have e1 : chainStep [] q₀ = [q₀] := rfl
    have e2 : chainStep [q₀] q₁ = [q₁, q₀] := rfl
    rw [e1, e2]
    exact foldl_collinear points hcol (q₂ :: u₂) q₀ q₁
      (hmemR q₀ (by rw [k₀]; simp)) (hmemR q₁ (by rw [k₀]; simp))
      (fun q hq => hmemR q (by
        rw [k₀]
        exact List.mem_cons_of_mem _ (List.mem_cons_of_mem _ hq)))
      gu hgu
  have hq₀last : (hullSorted points).getLast? = some q₀ := by
    rw [← List.head?_reverse, k₀]
    rfl
  refine ⟨p₀, q₀, ?_, hmemS p₀ (by rw [h₀]; simp), hmemS q₀
    (List.mem_of_getLast?_eq_some hq₀last), ?_⟩
  · rw [convexHull_eq points h3, hlow, hupp]
    rfl
  · intro q hq
    have hq' : q ∈ hullSorted points := (hullSorted_mem points q).2 hq
    have hpw := hullSorted_pairwise points
    constructor
    · have hpw' := hpw
      rw [h₀] at hpw' hq'
      rcases List.mem_cons.1 hq' with he | hq''
      · rw [he]
        exact lexLe_refl p₀
      · exact (List.pairwise_cons.1 hpw').1 q hq''
    · exact pairwise_le_getLast (hullSorted points) hpw q hq' q₀ hq₀last

/-! ### Claim C1: convex-hull correctness -/

unseal List.merge List.mergeSort in
/-- Counterexample to claim C1 as stated: for the 3-point collinear input
`[(0,0), (1,1), (2,2)]` the routine returns the 2-point chain
`[(0,0), (2,2)]`, which does not form a convex polygon in counter-clockwise
order (a polygon needs at least 3 vertices, and the 2-element cyclic triples
are degenerate).  The universally quantified claim is therefore false. -/
theorem c1_convexHull_collinear_counterexample :
    convexHull [⟨0, 0⟩, ⟨1, 1⟩, ⟨2, 2⟩] = [⟨0, 0⟩, ⟨2, 2⟩] ∧
    ¬ CyclicCCW [(⟨0, 0⟩ : Point), ⟨2, 2⟩] :=
  ⟨by decide, fun h => absurd h.1 (by decide)⟩

/-- Claim C1, amended: `convexHull` always returns a subset of the input
points, and whenever the input is not entirely collinear (which in
particular forces at least 3 points) the output is a strictly convex
polygon of at least 3 vertices in counter-clockwise order that contains
every input point inside or on its boundary.  For collinear inputs the
output degenerates to at most 2 points and is not a polygon. -/
theorem c1_convexHull_corrected (points : List Point) :
    (∀ v ∈ convexHull points, v ∈ points) ∧
    (¬ collinearAll points →
      3 ≤ (convexHull points).length ∧
      CyclicCCW (convexHull points) ∧
      ContainsAll (convexHull points) points) := by
  refine ⟨convexHull_subset points, ?_⟩
  intro hncol
  obtain ⟨h1, h2, h3, h4, h5⟩ := hull_main points hncol
  exact ⟨h1, h3, h4⟩

/-- Witness for the amended C1 at the spec's square-with-interior-point
scenario: the hypothesis of the guarded conjunct is discharged by `decide`
and the conclusion is obtained by applying the theorem. -/
theorem c1_convexHull_corrected_witness :
    ¬ collinearAll [⟨0, 0⟩, ⟨4, 0⟩, ⟨4, 4⟩, ⟨0, 4⟩, ⟨2, 2⟩] ∧
    (CyclicCCW (convexHull [⟨0, 0⟩, ⟨4, 0⟩, ⟨4, 4⟩, ⟨0, 4⟩, ⟨2, 2⟩]) ∧
      ContainsAll (convexHull [⟨0, 0⟩, ⟨4, 0⟩, ⟨4, 4⟩, ⟨0, 4⟩, ⟨2, 2⟩])
        [⟨0, 0⟩, ⟨4, 0⟩, ⟨4, 4⟩, ⟨0, 4⟩, ⟨2, 2⟩]) :=
  ⟨by decide,
    ⟨((c1_convexHull_corrected [⟨0, 0⟩, ⟨4, 0⟩, ⟨4, 4⟩, ⟨0, 4⟩, ⟨2, 2⟩]).2
        (by decide)).2.1,
      ((c1_convexHull_corrected [⟨0, 0⟩, ⟨4, 0⟩, ⟨4, 4⟩, ⟨0, 4⟩, ⟨2, 2⟩]).2
        (by decide)).2.2⟩⟩

/-! ### Claim C5: no duplicate and no collinear-redundant hull vertices -/

unseal List.merge List.mergeSort in
/-- Counterexample to claim C5 as stated: for 3 identical input points the
returned sequence is `[(0,0), (0,0)]`, which contains a duplicate point, so
"no duplicate points" fails for an input of 3 or more points.  (The turn
test absorbs duplicates only while at least two distinct values remain.) -/
theorem c5_convexHull_duplicate_counterexample :
    convexHull [⟨0, 0⟩, ⟨0, 0⟩, ⟨0, 0⟩] = [⟨0, 0⟩, ⟨0, 0⟩] ∧
    ¬ (convexHull [⟨0, 0⟩, ⟨0, 0⟩, ⟨0, 0⟩]).Nodup :=
  ⟨by decide, by decide⟩

/-- Claim C5, amended: for an input of at least 3 points containing at
least two distinct values, the hull has no duplicate points and no three
consecutive collinear points, and a collinear input yields a 2-point
degenerate hull.  (When all input points are equal the routine instead
returns the duplicated pair `[p, p]`, as the counterexample shows.) -/
theorem c5_convexHull_nodup_corrected (points : List Point)
    (h3 : 3 ≤ points.length)
    (hex : ∃ a, a ∈ points ∧ ∃ b, b ∈ points ∧ a ≠ b) :
    (convexHull points).Nodup ∧
    Chain3 (fun a b c => cross a b c ≠ 0) (convexHull points) ∧
    (collinearAll points → (convexHull points).length = 2) := by
  by_cases hcol : collinearAll points
  · obtain ⟨a, b, heq, haP, hbP, hbounds⟩ := hull_collinear points h3 hcol
    have hab : a ≠ b := by
      intro he
      obtain ⟨x, hx, y, hy, hxy⟩ := hex
      have hx1 := hbounds x hx
      have hy1 := hbounds y hy
      apply hxy
      have hxa : x = a := by
        have h2 := hx1.2
        rw [← he] at h2
        exact lexLe_antisymm h2 hx1.1
      have hya : y = a := by
        have h2 := hy1.2
        rw [← he] at h2
        exact lexLe_antisymm h2 hy1.1
      rw [hxa, hya]
    rw [heq]
    refine ⟨by simp [hab], trivial, fun _ => rfl⟩
  · obtain ⟨h1, h2, hccw, h4, h5⟩ := hull_main points hcol
    refine ⟨h5, ?_, fun hc => absurd hc hcol⟩
    have hccw' : Chain3 (fun a b c => 0 < cross a b c)
        (convexHull points ++ (convexHull points).take 2) := hccw
    have hpos : Chain3 (fun a b c => 0 < cross a b c) (convexHull points) :=
      Chain3_append_left hccw'
    exact Chain3_imp (fun a b c h => ne_of_gt h) hpos

/-- Witness for the amended C5 at the square input: both hypotheses are
discharged by `decide` and the duplicate-freeness conclusion is obtained by
applying the theorem. -/
theorem c5_convexHull_nodup_corrected_witness :
    (3 ≤ ([⟨0, 0⟩, ⟨4, 0⟩, ⟨4, 4⟩, ⟨0, 4⟩] : List Point).length ∧
      (∃ a, a ∈ ([⟨0, 0⟩, ⟨4, 0⟩, ⟨4, 4⟩, ⟨0, 4⟩] : List Point) ∧
        ∃ b, b ∈ ([⟨0, 0⟩, ⟨4, 0⟩, ⟨4, 4⟩, ⟨0, 4⟩] : List Point) ∧ a ≠ b)) ∧
    (convexHull [⟨0, 0⟩, ⟨4, 0⟩, ⟨4, 4⟩, ⟨0, 4⟩]).Nodup := by
  refine ⟨⟨by decide, ⟨⟨0, 0⟩, by decide, ⟨4, 0⟩, by decide, by decide⟩⟩, ?_⟩
  exact (c5_convexHull_nodup_corrected [⟨0, 0⟩, ⟨4, 0⟩, ⟨4, 4⟩, ⟨0, 4⟩]
    (by decide) ⟨⟨0, 0⟩, by decide, ⟨4, 0⟩, by decide, by decide⟩).1

/-! ### Vector algebra for the rotating-calipers proof -/

theorem crossv_anticomm (u v : Point) : crossv u v = -crossv v u := by
  simp only [crossv]; ring

theorem crossv_pairing (nv u v w : Point) :
    dotv nv v * crossv u w = dotv nv u * crossv v w + dotv nv w * crossv u v := by
  simp only [dotv, crossv]; ring

theorem crossv_decomp (p w dv : Point) :
    crossv p w * dotv dv dv = dotv dv w * crossv p dv + crossv dv w * dotv dv p := by
  simp only [dotv, crossv]; ring

theorem crossv_pointNeg_left (u v : Point) :
    crossv (pointNeg u) v = -crossv u v := by
  simp only [crossv, pointNeg]; ring

theorem crossv_pointNeg_both (u v : Point) :
    crossv (pointNeg u) (pointNeg v) = crossv u v := by
  simp only [crossv, pointNeg]; ring

theorem crossv_mirrorv (u v : Point) :
    crossv (mirrorv u) (mirrorv v) = -crossv u v := by
  simp only [crossv, mirrorv]; ring

theorem dotv_mirrorv (u v : Point) :
    dotv (mirrorv u) (mirrorv v) = dotv u v := by
  simp only [dotv, mirrorv]; ring

theorem dotv_pointNeg_right (u v : Point) :
    dotv u (pointNeg v) = -dotv u v := by
  simp only [dotv, pointNeg]; ring

theorem lexneg_lexpos {u : Point} : lexneg u ↔ lexpos (pointNeg u) := by
  simp only [lexneg, lexpos, pointNeg]
  omega

theorem lexLt_iff_lexpos {p q : Point} : lexLt p q ↔ lexpos (vsub q p) := by
  simp only [lexLt, lexpos, vsub]
  omega

theorem lagrange_identity (u v : Point) :
    dotv u v ^ 2 + crossv u v ^ 2 = dotv u u * dotv v v := by
  simp only [dotv, crossv]; ring

theorem cross_eq_crossv (p q r : Point) :
    cross p q r = crossv (vsub q p) (vsub r p) := by
  simp only [cross, crossv, vsub]

theorem cross_eq_crossv_mid (p q r : Point) :
    cross p q r = crossv (vsub q p) (vsub r q) := by
  simp only [cross, crossv, vsub]; ring

theorem distSq_eq_dotv (p q : Point) :
    distSq p q = dotv (vsub q p) (vsub q p) := by
  simp only [distSq, dotv, vsub]; ring

theorem distSq_pos_of_ne {p q : Point} (h : p ≠ q) : 0 < distSq p q := by
  rcases lt_or_eq_of_le (distSq_nonneg p q) with hlt | heq
  · exact hlt
  · exfalso
    apply h
    simp only [distSq] at heq
    have hx : p.x = q.x := by nlinarith [mul_self_nonneg (p.x - q.x), mul_self_nonneg (p.y - q.y)]
    have hy : p.y = q.y := by nlinarith [mul_self_nonneg (p.x - q.x), mul_self_nonneg (p.y - q.y)]
    cases p; cases q
    simp_all

/-- If both endpoints of a maximal-distance pair `p, q` see every point `w`
within distance `|pq|`, then `w` is weakly on the `p` side of the
perpendicular at `q`: the antipodal (supporting-line) property of a
diameter pair. -/
theorem antipodal_dot {p q w : Point} (h1 : distSq p w ≤ distSq p q)
    (h2 : distSq q w ≤ distSq p q) :
    dotv (vsub w q) (vsub q p) ≤ 0 := by
  simp only [distSq, dotv, vsub] at *
  nlinarith [mul_self_nonneg (w.x - q.x), mul_self_nonneg (w.y - q.y)]

theorem lexpos_dot_aux (z : Point) (c : ℤ) (hz : lexpos z) (hc : |z.y| ≤ c) :
    0 < (1 + c) * z.x + 1 * z.y := by
  rcases hz with h | ⟨h0, hy⟩
  · have h1 : (1 : ℤ) ≤ z.x := h
    have h2 : (1 + c) * 1 ≤ (1 + c) * z.x :=
      mul_le_mul_of_nonneg_left h1 (by have := abs_nonneg z.y; linarith)
    have h3 : -z.y ≤ |z.y| := neg_le_abs z.y
    linarith
  · rw [h0]
    simp only [mul_zero, zero_add, one_mul]
    exact hy

/-- A common strictly-positive pairing direction for three lexicographically
positive vectors: the half-plane certificate that makes the cross product a
strict angular order on the lower (and, negated, the upper) chain. -/
theorem lexpos_pairing (u v w : Point) (hu : lexpos u) (hv : lexpos v)
    (hw : lexpos w) :
    ∃ nv : Point, 0 < dotv nv u ∧ 0 < dotv nv v ∧ 0 < dotv nv w := by
  refine ⟨⟨1 + (|u.y| + |v.y| + |w.y|), 1⟩, ?_, ?_, ?_⟩
  · have := lexpos_dot_aux u (|u.y| + |v.y| + |w.y|) hu
      (by have := abs_nonneg v.y; have := abs_nonneg w.y; linarith)
    simpa only [dotv] using this
  · have := lexpos_dot_aux v (|u.y| + |v.y| + |w.y|) hv
      (by have := abs_nonneg u.y; have := abs_nonneg w.y; linarith)
    simpa only [dotv] using this
  · have := lexpos_dot_aux w (|u.y| + |v.y| + |w.y|) hw
      (by have := abs_nonneg u.y; have := abs_nonneg v.y; linarith)
    simpa only [dotv] using this

/-- Within a half-plane of directions, a strict angular step followed by a
weak one is strict: cross-product positivity is transitive on
lexicographically positive vectors. -/
theorem crossv_trans_sw (u v w : Point) (hu : lexpos u) (hv : lexpos v)
    (hw : lexpos w) (h1 : 0 < crossv u v) (h2 : 0 ≤ crossv v w) :
    0 < crossv u w := by
  obtain ⟨nv, hnu, hnv, hnw⟩ := lexpos_pairing u v w hu hv hw
  have hid := crossv_pairing nv u v w
  by_contra hcon
  push_neg at hcon
  have ht1 : 0 ≤ dotv nv u * crossv v w := mul_nonneg hnu.le h2
  have ht2 : 0 < dotv nv w * crossv u v := mul_pos hnw h1
  have ht3 : dotv nv v * crossv u w ≤ 0 :=
    mul_nonpos_iff.mpr (Or.inl ⟨hnv.le, hcon⟩)
  linarith

theorem crossv_trans_ws (u v w : Point) (hu : lexpos u) (hv : lexpos v)
    (hw : lexpos w) (h1 : 0 ≤ crossv u v) (h2 : 0 < crossv v w) :
    0 < crossv u w := by
  obtain ⟨nv, hnu, hnv, hnw⟩ := lexpos_pairing u v w hu hv hw
  have hid := crossv_pairing nv u v w
  by_contra hcon
  push_neg at hcon
  have ht1 : 0 < dotv nv u * crossv v w := mul_pos hnu h2
  have ht2 : 0 ≤ dotv nv w * crossv u v := mul_nonneg hnw.le h1
  have ht3 : dotv nv v * crossv u w ≤ 0 :=
    mul_nonpos_iff.mpr (Or.inl ⟨hnv.le, hcon⟩)
  linarith

/-- Two independent vectors both orthogonal to `dv` force `dv = 0`. -/
theorem perp_perp_zero (dv a b : Point) (h1 : dotv dv a = 0)
    (h2 : dotv dv b = 0) (h3 : crossv a b ≠ 0) : dv.x = 0 ∧ dv.y = 0 := by
  simp only [dotv] at h1 h2
  simp only [crossv] at h3
  constructor
  · have hx : dv.x * (a.x * b.y - a.y * b.x) = 0 := by linear_combination b.y * h1 - a.y * h2
    rcases mul_eq_zero.1 hx with h | h
    · exact h
    · exact absurd h h3
  · have hy : dv.y * (a.x * b.y - a.y * b.x) = 0 := by linear_combination a.x * h2 - b.x * h1
    rcases mul_eq_zero.1 hy with h | h
    · exact h
    · exact absurd h h3

/-- The arc-intersection endpoint lemma: if the direction `dv` lies in the
normal cone spanned by the turn `a → b` (dot ≤ 0 after, ≥ 0 before) and in
the antipodal cone of the turn `p → q`, then the start of one cone lies in
the other: either `p`'s turn straddles `a` or `a`'s turn straddles `p`.
This is the discrete heart of the antipodal-pair covering argument. -/
theorem endpoint_cases (a b p q dv : Point)
    (hab : 0 < crossv a b) (hpq : 0 < crossv p q)
    (hbd : 0 ≤ dotv dv b) (had : dotv dv a ≤ 0)
    (hqd : dotv dv q ≤ 0) (hpd : 0 ≤ dotv dv p)
    (hdd : 0 < dotv dv dv) :
    (0 ≤ crossv a p ∧ crossv a q ≤ 0) ∨ (0 ≤ crossv p a ∧ crossv p b ≤ 0) := by
  by_cases hap : 0 ≤ crossv a p
  · by_cases haq : crossv a q ≤ 0
    · exact Or.inl ⟨hap, haq⟩
    · push_neg at haq
      right
      have hid := crossv_pairing dv p a q
      have hpa_le : crossv p a ≤ 0 := by
        have := crossv_anticomm p a
        linarith
      have hA : dotv dv a * crossv p q ≤ 0 :=
        mul_nonpos_iff.mpr (Or.inr ⟨had, hpq.le⟩)
      have hB : 0 ≤ dotv dv p * crossv a q := mul_nonneg hpd haq.le
      have hC : 0 ≤ dotv dv q * crossv p a := by
        nlinarith [mul_nonneg (neg_nonneg.2 hqd) (neg_nonneg.2 hpa_le)]
      have hB0 : dotv dv p * crossv a q = 0 := le_antisymm (by linarith) hB
      have hC0 : dotv dv q * crossv p a = 0 := le_antisymm (by linarith) hC
      have hP0 : dotv dv p = 0 := by
        rcases mul_eq_zero.1 hB0 with h | h
        · exact h
        · exact absurd h (ne_of_gt haq)
      rcases mul_eq_zero.1 hC0 with hq0 | hpa0
      · obtain ⟨hx, hy⟩ := perp_perp_zero dv p q hP0 hq0 (ne_of_gt hpq)
        simp [dotv, hx, hy] at hdd
      · refine ⟨le_of_eq hpa0.symm, ?_⟩
        have hdq := crossv_decomp p q dv
        rw [hP0, mul_zero, add_zero] at hdq
        have hL : 0 < dotv dv q * crossv p dv := by
          rw [← hdq]
          exact mul_pos hpq hdd
        have hpdv : crossv p dv < 0 := by
          by_contra hcon
          push_neg at hcon
          have : dotv dv q * crossv p dv ≤ 0 :=
            mul_nonpos_iff.mpr (Or.inr ⟨hqd, hcon⟩)
          linarith
        have hdb := crossv_decomp p b dv
        rw [hP0, mul_zero, add_zero] at hdb
        have hRb : dotv dv b * crossv p dv ≤ 0 :=
          mul_nonpos_iff.mpr (Or.inl ⟨hbd, hpdv.le⟩)
        by_contra hcon
        push_neg at hcon
        nlinarith [mul_pos hcon hdd]
  · push_neg at hap
    right
    refine ⟨by have := crossv_anticomm a p; linarith, ?_⟩
    by_contra hpb
    push_neg at hpb
    have hid := crossv_pairing dv a p b
    have hL : 0 ≤ dotv dv p * crossv a b := mul_nonneg hpd hab.le
    have hB : dotv dv a * crossv p b ≤ 0 :=
      mul_nonpos_iff.mpr (Or.inr ⟨had, hpb.le⟩)
    have hC : dotv dv b * crossv a p ≤ 0 :=
      mul_nonpos_iff.mpr (Or.inl ⟨hbd, hap.le⟩)
    have hpz : dotv dv p = 0 := by
      rcases mul_eq_zero.1 (le_antisymm (by linarith) hL) with h | h
      · exact h
      · exact absurd h (ne_of_gt hab)
    have haz : dotv dv a = 0 := by
      rcases mul_eq_zero.1 (le_antisymm hB (by linarith)) with h | h
      · exact h
      · exact absurd h (ne_of_gt hpb)
    have hbz : dotv dv b = 0 := by
      rcases mul_eq_zero.1 (le_antisymm hC (by linarith)) with h | h
      · exact h
      · exact absurd h (ne_of_lt hap)
    obtain ⟨hx, hy⟩ := perp_perp_zero dv a b haz hbz (ne_of_gt hab)
    simp [dotv, hx, hy] at hdd

theorem crossv_pointNeg_right (u v : Point) :
    crossv u (pointNeg v) = -crossv u v := by
  simp only [crossv, pointNeg]; ring

/-! ### The abstract edge-cycle rotation theory -/

theorem EdgeCycle.per {n nL : ℕ} {E : ℕ → Point} (h : EdgeCycle n nL E) (k : ℕ) :
    E (k + n) = E k := by
  rw [← h.norm (k + n), Nat.add_mod_right]
  exact h.norm k

/-- Within the lower (lexicographically positive) arc the edge directions are
in strict angular order. -/
theorem EdgeCycle.arcL {n nL : ℕ} {E : ℕ → Point} (h : EdgeCycle n nL E) :
    ∀ k2 k1, k1 < k2 → k2 < nL → 0 < crossv (E k1) (E k2) := by
  intro k2
  induction k2 with
  | zero => intro k1 h1 h2; omega
  | succ m ih =>
      intro k1 h1 h2
      rcases Nat.lt_or_ge k1 m with hlt | hge
      · exact crossv_trans_sw (E k1) (E m) (E (m + 1))
          (h.posL k1 (by omega)) (h.posL m (by omega)) (h.posL (m + 1) h2)
          (ih k1 hlt (by omega)) (h.turn m).le
      · have hk : k1 = m := by omega
        rw [hk]
        exact h.turn m

/-- Within the upper (lexicographically negative) arc the edge directions are
in strict angular order. -/
theorem EdgeCycle.arcU {n nL : ℕ} {E : ℕ → Point} (h : EdgeCycle n nL E) :
    ∀ k2 k1, nL ≤ k1 → k1 < k2 → k2 < n → 0 < crossv (E k1) (E k2) := by
  intro k2
  induction k2 with
  | zero => intro k1 _ h1 h2; omega
  | succ m ih =>
      intro k1 hL h1 h2
      rcases Nat.lt_or_ge k1 m with hlt | hge
      · have e1 := lexneg_lexpos.1 (h.negU k1 hL (by omega))
        have e2 := lexneg_lexpos.1 (h.negU m (by omega) (by omega))
        have e3 := lexneg_lexpos.1 (h.negU (m + 1) (by omega) h2)
        have hm : 0 < crossv (pointNeg (E k1)) (pointNeg (E m)) := by
          rw [crossv_pointNeg_both]
          exact ih k1 hL hlt (by omega)
        have ht : 0 ≤ crossv (pointNeg (E m)) (pointNeg (E (m + 1))) := by
          rw [crossv_pointNeg_both]
          exact (h.turn m).le
        have hres := crossv_trans_sw _ _ _ e1 e2 e3 hm ht
        rw [crossv_pointNeg_both] at hres
        exact hres
      · have hk : k1 = m := by omega
        rw [hk]
        exact h.turn m

/-- Once an upper-arc edge is angularly at or past the antipode of a
lower-arc edge, every later upper-arc edge is strictly past it. -/
theorem EdgeCycle.stepLU {n nL : ℕ} {E : ℕ → Point} (h : EdgeCycle n nL E)
    {a b1 b2 : ℕ} (ha : a < nL) (hb1 : nL ≤ b1) (h12 : b1 < b2) (hb2 : b2 < n)
    (hc : crossv (E a) (E b1) ≤ 0) : crossv (E a) (E b2) < 0 := by
  have ea := h.posL a ha
  have e1 := lexneg_lexpos.1 (h.negU b1 hb1 (by omega))
  have e2 := lexneg_lexpos.1 (h.negU b2 (by omega) hb2)
  have h1 : 0 ≤ crossv (E a) (pointNeg (E b1)) := by
    rw [crossv_pointNeg_right]
    linarith
  have h2 : 0 < crossv (pointNeg (E b1)) (pointNeg (E b2)) := by
    rw [crossv_pointNeg_both]
    exact h.arcU b2 b1 hb1 h12 hb2
  have hres := crossv_trans_ws (E a) (pointNeg (E b1)) (pointNeg (E b2))
    ea e1 e2 h1 h2
  rw [crossv_pointNeg_right] at hres
  linarith

/-- The mirror image of `EdgeCycle.stepLU` for an upper-arc base edge and
lower-arc probes. -/
theorem EdgeCycle.stepUL {n nL : ℕ} {E : ℕ → Point} (h : EdgeCycle n nL E)
    {a b1 b2 : ℕ} (haL : nL ≤ a) (ha : a < n) (h12 : b1 < b2) (hb2 : b2 < nL)
    (hc : crossv (E a) (E b1) ≤ 0) : crossv (E a) (E b2) < 0 := by
  have ea := lexneg_lexpos.1 (h.negU a haL ha)
  have e1 := h.posL b1 (by omega)
  have e2 := h.posL b2 hb2
  have h1 : 0 ≤ crossv (pointNeg (E a)) (E b1) := by
    rw [crossv_pointNeg_left]
    linarith
  have h2 : 0 < crossv (E b1) (E b2) := h.arcL b2 b1 h12 hb2
  have hres := crossv_trans_ws (pointNeg (E a)) (E b1) (E b2) ea e1 e2 h1 h2
  rw [crossv_pointNeg_left] at hres
  linarith

/-- The rotation (suffix) lemma: scanning the edge cycle from any base edge
`i`, once the cross product with the base direction is non-positive it is
strictly negative at every strictly later offset within the lap. -/
theorem EdgeCycle.suffix {n nL : ℕ} {E : ℕ → Point} (h : EdgeCycle n nL E)
    {i t s : ℕ} (hi : i < n) (ht : 1 ≤ t) (hts : t < s) (hs : s < n)
    (hc : crossv (E i) (E (i + t)) ≤ 0) : crossv (E i) (E (i + s)) < 0 := by
  rcases Nat.lt_or_ge i nL with hiL | hiU
  · rcases Nat.lt_or_ge (i + t) nL with hT1 | hT2
    · have habs := h.arcL (i + t) i (by omega) hT1
      linarith
    · rcases Nat.lt_or_ge (i + t) n with hT2n | hT3
      · rcases Nat.lt_or_ge (i + s) n with hS2 | hS3
        · exact h.stepLU hiL hT2 (by omega) hS2 hc
        · have harith : i + s = (i + s - n) + n := by omega
          rw [harith, h.per]
          have hflip := h.arcL i (i + s - n) (by omega) hiL
          have hac := crossv_anticomm (E (i + s - n)) (E i)
          linarith
      · have harith : i + s = (i + s - n) + n := by omega
        rw [harith, h.per]
        have hflip := h.arcL i (i + s - n) (by omega) hiL
        have hac := crossv_anticomm (E (i + s - n)) (E i)
        linarith
  · rcases Nat.lt_or_ge (i + t) n with hT1 | hT2
    · have habs := h.arcU (i + t) i hiU (by omega) hT1
      linarith
    · rcases Nat.lt_or_ge (i + t) (n + nL) with hT2' | hT3
      · rcases Nat.lt_or_ge (i + s) (n + nL) with hS2 | hS3
        · have ha1 : i + t = (i + t - n) + n := by omega
          have ha2 : i + s = (i + s - n) + n := by omega
          rw [ha1, h.per] at hc
          rw [ha2, h.per]
          exact h.stepUL hiU hi (by omega) (by omega) hc
        · have ha2 : i + s = (i + s - n) + n := by omega
          rw [ha2, h.per]
          have hflip := h.arcU i (i + s - n) (by omega) (by omega) hi
          have hac := crossv_anticomm (E (i + s - n)) (E i)
          linarith
      · have ha2 : i + s = (i + s - n) + n := by omega
        rw [ha2, h.per]
        have hflip := h.arcU i (i + s - n) (by omega) (by omega) hi
        have hac := crossv_anticomm (E (i + s - n)) (E i)
        linarith

/-- Stepping the base edge forward one position only moves the antipodal
stop later: an edge at or past the antipode of the successor edge `i + 1` is
at or past the antipode of edge `i` as well. -/
theorem EdgeCycle.back_step {n nL : ℕ} {E : ℕ → Point} (h : EdgeCycle n nL E)
    {i t : ℕ} (hi : i < n) (ht : 1 ≤ t) (htn : t + 2 ≤ n)
    (hc : crossv (E (i + 1)) (E (i + 1 + t)) ≤ 0) :
    crossv (E i) (E (i + 1 + t)) ≤ 0 := by
  rcases Nat.lt_trichotomy (i + 1) nL with hA | hA | hA
  · rcases Nat.lt_or_ge (i + 1 + t) nL with h1 | h1
    · have habs := h.arcL (i + 1 + t) (i + 1) (by omega) h1
      linarith
    · rcases Nat.lt_or_ge (i + 1 + t) n with h2 | h2
      · have e1 := h.posL i (by omega)
        have e2 := h.posL (i + 1) hA
        have e3 := lexneg_lexpos.1 (h.negU (i + 1 + t) h1 h2)
        have hcw : 0 ≤ crossv (E (i + 1)) (pointNeg (E (i + 1 + t))) := by
          rw [crossv_pointNeg_right]
          linarith
        have hres := crossv_trans_sw (E i) (E (i + 1))
          (pointNeg (E (i + 1 + t))) e1 e2 e3 (h.turn i) hcw
        rw [crossv_pointNeg_right] at hres
        linarith
      · have ha : i + 1 + t = (i + 1 + t - n) + n := by omega
        rw [ha, h.per]
        have hflip := h.arcL i (i + 1 + t - n) (by omega) (by omega)
        have hac := crossv_anticomm (E (i + 1 + t - n)) (E i)
        linarith
  · rcases Nat.lt_or_ge (i + 1 + t) n with h2 | h2
    · have habs := h.arcU (i + 1 + t) (i + 1) (by omega) (by omega) h2
      linarith
    · have ha : i + 1 + t = (i + 1 + t - n) + n := by omega
      rw [ha, h.per]
      have hflip := h.arcL i (i + 1 + t - n) (by omega) (by omega)
      have hac := crossv_anticomm (E (i + 1 + t - n)) (E i)
      linarith
  · rcases Nat.lt_or_ge (i + 1) n with hB | hB
    · rcases Nat.lt_or_ge (i + 1 + t) n with h2 | h2
      · have habs := h.arcU (i + 1 + t) (i + 1) (by omega) (by omega) h2
        linarith
      · rcases Nat.lt_or_ge (i + 1 + t - n) nL with h3 | h3
        · have e1 := lexneg_lexpos.1 (h.negU i (by omega) hi)
          have e2 := lexneg_lexpos.1 (h.negU (i + 1) (by omega) hB)
          have e3 := h.posL (i + 1 + t - n) h3
          have ha : i + 1 + t = (i + 1 + t - n) + n := by omega
          rw [ha, h.per] at hc
          rw [ha, h.per]
          have hturn : 0 < crossv (pointNeg (E i)) (pointNeg (E (i + 1))) := by
            rw [crossv_pointNeg_both]
            exact h.turn i
          have hcw : 0 ≤ crossv (pointNeg (E (i + 1))) (E (i + 1 + t - n)) := by
            rw [crossv_pointNeg_left]
            linarith
          have hres := crossv_trans_sw (pointNeg (E i)) (pointNeg (E (i + 1)))
            (E (i + 1 + t - n)) e1 e2 e3 hturn hcw
          rw [crossv_pointNeg_left] at hres
          linarith
        · have ha : i + 1 + t = (i + 1 + t - n) + n := by omega
          rw [ha, h.per]
          have hflip := h.arcU i (i + 1 + t - n) h3 (by omega) hi
          have hac := crossv_anticomm (E (i + 1 + t - n)) (E i)
          linarith
    · have ha : i + 1 + t = t + n := by omega
      rw [ha, h.per]
      have hEn : E (i + 1) = E 0 := by
        have hper0 := h.per 0
        rw [Nat.zero_add] at hper0
        rw [show i + 1 = n by omega]
        exact hper0
      rcases Nat.lt_or_ge t nL with h3 | h3
      · rw [hEn, ha, h.per] at hc
        have habs := h.arcL t 0 (by omega) h3
        linarith
      · have hflip := h.arcU i t h3 (by omega) hi
        have hac := crossv_anticomm (E t) (E i)
        linarith

/-- A full lap is never needed: at offset `n − 1` the cross product with the
base direction is already negative. -/
theorem EdgeCycle.stop_exists {n nL : ℕ} {E : ℕ → Point} (h : EdgeCycle n nL E)
    (i : ℕ) : crossv (E i) (E (i + (n - 1))) < 0 := by
  have ht := h.turn (i + (n - 1))
  have ha : i + (n - 1) + 1 = i + n := by
    have := h.three
    omega
  rw [ha, h.per] at ht
  have hac := crossv_anticomm (E (i + (n - 1))) (E i)
  linarith

/-! ### Indexing toolkit: chains, appends and the cyclic wrap -/

theorem add_one_mod (k n : ℕ) : (k % n + 1) % n = (k + 1) % n := by
  conv_rhs => rw [Nat.add_mod]
  conv_lhs => rw [Nat.add_mod]
  rw [Nat.mod_mod_of_dvd k dvd_rfl]

theorem chain'_getD {R : Point → Point → Prop} {l : List Point} (h : l.Chain' R)
    {k : ℕ} (hk : k + 1 < l.length) :
    R (l.getD k origin) (l.getD (k + 1) origin) := by
  have hg := List.chain'_iff_get.1 h k (by omega)
  rw [List.getD_eq_getElem l origin (by omega), List.getD_eq_getElem l origin hk]
  simpa using hg

theorem getD_head {l : List Point} {a : Point} (h : l.head? = some a) :
    l.getD 0 origin = a := by
  cases l with
  | nil => simp at h
  | cons x xs =>
      simp only [List.head?_cons, Option.some.injEq] at h
      simp [List.getD_cons_zero, h]

theorem getD_getLast {l : List Point} {a : Point} (h : l.getLast? = some a) :
    l.getD (l.length - 1) origin = a := by
  rw [List.getLast?_eq_getElem?] at h
  rw [List.getD_eq_getElem?_getD, h]
  rfl

theorem Chain3_getD {R : Point → Point → Point → Prop} :
    ∀ (k : ℕ) (l : List Point), Chain3 R l → k + 3 ≤ l.length →
      R (l.getD k origin) (l.getD (k + 1) origin) (l.getD (k + 2) origin) := by
  intro k
  induction k with
  | zero =>
      intro l h3 hk
      cases l with
      | nil => simp only [List.length_nil] at hk; omega
      | cons a L =>
          cases L with
          | nil => simp only [List.length_cons, List.length_nil] at hk; omega
          | cons b L2 =>
              cases L2 with
              | nil => simp only [List.length_cons, List.length_nil] at hk; omega
              | cons c L3 => exact h3.1
  | succ m ihk =>
      intro l h3 hk
      cases l with
      | nil => simp only [List.length_nil] at hk; omega
      | cons a L =>
          cases L with
          | nil => simp only [List.length_cons, List.length_nil] at hk; omega
          | cons b L2 =>
              cases L2 with
              | nil => simp only [List.length_cons, List.length_nil] at hk; omega
              | cons c L3 =>
                  exact ihk (b :: c :: L3) h3.2
                    (by simp only [List.length_cons] at hk ⊢; omega)

theorem pointNeg_vsub (a b : Point) : pointNeg (vsub a b) = vsub b a := by
  simp only [pointNeg, vsub, Point.mk.injEq]
  constructor <;> ring

/-- The vertex order around the assembled hull `(D.tail ++ S.tail).reverse`:
lexicographically increasing along the lower part, decreasing along the
upper part and along the wrap-around edge. -/
theorem two_chain_vertex_order {S D : List Point}
    (hS2 : 2 ≤ S.length) (hD2 : 2 ≤ D.length)
    (hSsort : S.Chain' (fun u v => lexLt v u))
    (hDsort : D.Chain' (fun u v => lexLt u v))
    (hheads : S.head? = D.getLast?)
    (hlasts : S.getLast? = D.head?) :
    (((D.tail ++ S.tail).reverse).length = S.length + D.length - 2) ∧
    (∀ k, k + 1 ≤ S.length - 1 →
      lexLt (((D.tail ++ S.tail).reverse).getD k origin)
        (((D.tail ++ S.tail).reverse).getD (k + 1) origin)) ∧
    (∀ k, S.length - 1 ≤ k → k + 1 < S.length + D.length - 2 →
      lexLt (((D.tail ++ S.tail).reverse).getD (k + 1) origin)
        (((D.tail ++ S.tail).reverse).getD k origin)) ∧
    lexLt (((D.tail ++ S.tail).reverse).getD 0 origin)
      (((D.tail ++ S.tail).reverse).getD (S.length + D.length - 3) origin) := by
  obtain ⟨s0, S', hS⟩ := List.exists_cons_of_ne_nil
    (show S ≠ [] by intro h; rw [h] at hS2; simp at hS2)
  obtain ⟨s1, S₂, hS'⟩ := List.exists_cons_of_ne_nil
    (show S' ≠ [] by intro h; rw [hS, h] at hS2; simp at hS2)
  rw [hS'] at hS
  subst hS
  obtain ⟨d0, D', hD⟩ := List.exists_cons_of_ne_nil
    (show D ≠ [] by intro h; rw [h] at hD2; simp at hD2)
  obtain ⟨d1, D₂, hD'⟩ := List.exists_cons_of_ne_nil
    (show D' ≠ [] by intro h; rw [hD, h] at hD2; simp at hD2)
  rw [hD'] at hD
  subst hD
  simp only [List.tail_cons, List.reverse_append]
  set A := (s1 :: S₂).reverse with hA
  set B := (d1 :: D₂).reverse with hB
  have hAlen : A.length = S₂.length + 1 := by rw [hA]; simp
  have hBlen : B.length = D₂.length + 1 := by rw [hB]; simp
  have hAchain : A.Chain' (fun u v => lexLt u v) := by
    rw [hA, List.chain'_reverse]
    exact hSsort.tail
  have hBchain : B.Chain' (fun u v => lexLt v u) := by
    rw [hB, List.chain'_reverse]
    exact hDsort.tail
  have hAlast : A.getD (A.length - 1) origin = s1 := by
    apply getD_getLast
    rw [hA, List.getLast?_reverse]
    rfl
  have hBhead : B.getD 0 origin = s0 := by
    apply getD_head
    rw [hB, List.head?_reverse]
    have h1 : (d0 :: d1 :: D₂).getLast? = (d1 :: D₂).getLast? :=
      List.getLast?_cons_cons
    rw [← h1, ← hheads]
    rfl
  have hAhead : A.getD 0 origin = d0 := by
    apply getD_head
    rw [hA, List.head?_reverse]
    have h1 : (s0 :: s1 :: S₂).getLast? = (s1 :: S₂).getLast? :=
      List.getLast?_cons_cons
    rw [← h1, hlasts]
    rfl
  have hBlast : B.getD (B.length - 1) origin = d1 := by
    apply getD_getLast
    rw [hB, List.getLast?_reverse]
    rfl
  have hj1 : lexLt s1 s0 := (List.chain'_cons.1 hSsort).1
  have hj2 : lexLt d0 d1 := (List.chain'_cons.1 hDsort).1
  refine ⟨?_, ?_, ?_, ?_⟩
  · simp only [List.length_append, List.length_cons]
    omega
  · intro k hk
    have hk' : k + 1 ≤ A.length := by
      simp only [List.length_cons] at hk
      omega
    rcases Nat.lt_or_ge (k + 1) A.length with hlt | hge
    · rw [List.getD_append A B origin k (by omega),
          List.getD_append A B origin (k + 1) hlt]
      exact chain'_getD hAchain (by omega)
    · rw [List.getD_append A B origin k (by omega)]
      rw [List.getD_append_right A B origin (k + 1) (by omega)]
      rw [show k + 1 - A.length = 0 by omega, hBhead]
      rw [show k = A.length - 1 by omega, hAlast]
      exact hj1
  · intro k hk1 hk2
    have hkA : A.length ≤ k := by
      simp only [List.length_cons] at hk1
      omega
    have hkn : k + 1 < A.length + B.length := by
      simp only [List.length_cons] at hk2
      omega
    rw [List.getD_append_right A B origin k hkA,
        List.getD_append_right A B origin (k + 1) (by omega)]
    rw [show k + 1 - A.length = (k - A.length) + 1 by omega]
    exact chain'_getD hBchain (by omega)
  · rw [List.getD_append A B origin 0 (by omega), hAhead]
    rw [show (s0 :: s1 :: S₂).length + (d0 :: d1 :: D₂).length - 3
        = A.length + (B.length - 1) by simp only [List.length_cons]; omega]
    rw [List.getD_append_right A B origin _ (by omega)]
    rw [show A.length + (B.length - 1) - A.length = B.length - 1 by omega]
    rw [hBlast]
    exact hj2

/-- Indexed form of `CyclicCCW`: every cyclic triple of consecutive hull
vertices is a strict left turn. -/
theorem cyclicCCW_getD {H : List Point} (hCCW : CyclicCCW H) (h3 : 3 ≤ H.length) :
    ∀ k, k < H.length →
      0 < cross (H.getD k origin) (H.getD ((k + 1) % H.length) origin)
        (H.getD ((k + 2) % H.length) origin) := by
  intro k hk
  have hlen2 : (H ++ H.take 2).length = H.length + 2 := by
    simp only [List.length_append, List.length_take]
    omega
  have hg := Chain3_getD k (H ++ H.take 2) hCCW (by omega)
  have etake : ∀ j, j < 2 → (H.take 2).getD j origin = H.getD j origin := by
    intro j hj
    rw [List.getD_eq_getElem (H.take 2) origin
        (by simp only [List.length_take]; omega),
      List.getD_eq_getElem H origin (by omega)]
    rw [List.getElem_take]
  have e0 : (H ++ H.take 2).getD k origin = H.getD k origin :=
    List.getD_append H (H.take 2) origin k hk
  have e1 : (H ++ H.take 2).getD (k + 1) origin
      = H.getD ((k + 1) % H.length) origin := by
    rcases Nat.lt_or_ge (k + 1) H.length with hlt | hge
    · rw [List.getD_append H (H.take 2) origin (k + 1) hlt, Nat.mod_eq_of_lt hlt]
    · have hke : k + 1 = H.length := by omega
      rw [List.getD_append_right H (H.take 2) origin (k + 1) hge]
      rw [show k + 1 - H.length = 0 by omega]
      rw [etake 0 (by omega)]
      rw [show (k + 1) % H.length = 0 by rw [hke]; exact Nat.mod_self H.length]
  have e2 : (H ++ H.take 2).getD (k + 2) origin
      = H.getD ((k + 2) % H.length) origin := by
    rcases Nat.lt_or_ge (k + 2) H.length with hlt | hge
    · rw [List.getD_append H (H.take 2) origin (k + 2) hlt, Nat.mod_eq_of_lt hlt]
    · have hmod : (k + 2) % H.length = k + 2 - H.length := by
        rw [Nat.mod_eq_sub_mod hge]
        exact Nat.mod_eq_of_lt (by omega)
      rw [List.getD_append_right H (H.take 2) origin (k + 2) hge]
      rw [etake (k + 2 - H.length) (by omega), hmod]
  rw [e0, e1, e2] at hg
  exact hg

theorem edgeVec_norm (H : List Point) (k : ℕ) :
    edgeVec H (k % H.length) = edgeVec H k := by
  unfold edgeVec
  rw [Nat.mod_mod_of_dvd k dvd_rfl, add_one_mod]

theorem diamCross_eq_crossv (H : List Point) (i j : ℕ) (hi : i < H.length)
    (hj : j < H.length) :
    diamCross H i j = crossv (edgeVec H i) (edgeVec H j) := by
  simp only [diamCross, edgeVec, vsub, crossv]
  rw [Nat.mod_eq_of_lt hi, Nat.mod_eq_of_lt hj]

/-- The hull of a non-collinear input satisfies the edge-cycle interface:
its edges turn strictly left cyclically and split into a lexicographically
positive arc (the lower chain) followed by a negative arc (the upper
chain). -/
theorem hull_edgeCycle (points : List Point) (hncol : ¬ collinearAll points) :
    ∃ nL, EdgeCycle (convexHull points).length nL (edgeVec (convexHull points)) := by
  obtain ⟨h3, hsub, hCCW, hcont, hnodup⟩ := hull_main points hncol
  have hplen3 : 3 ≤ points.length := by
    by_contra hcon
    push_neg at hcon
    exact hncol (collinearAll_of_le_two (by omega))
  have hne : points ≠ [] := by
    intro he
    rw [he] at hplen3
    simp at hplen3
  have hex := exists_two_ne_of_not_collinear hncol
  obtain ⟨hSmem, hSsort, hStri, hSedge, hS2, hShead, hSbot⟩ :=
    lowerStack_facts points hne hex
  obtain ⟨hDmem, hDsort, hDtri, hDedge, hD2, hDhead, hDbot⟩ :=
    upperStack_inv points hne hex
  have hSne : lowerStack points ≠ [] := by
    intro he
    rw [he] at hS2
    simp at hS2
  have hDne : upperStack points ≠ [] := by
    intro he
    rw [he] at hD2
    simp at hD2
  obtain ⟨s0, Srest, hSsplit⟩ := List.exists_cons_of_ne_nil hSne
  obtain ⟨d0, Drest, hDsplit⟩ := List.exists_cons_of_ne_nil hDne
  have hms : (lowerStack points).head? = some s0 := by rw [hSsplit]; rfl
  have hd0 : (upperStack points).head? = some d0 := by rw [hDsplit]; rfl
  obtain ⟨mg, hmg⟩ := Option.isSome_iff_exists.1 (List.getLast?_isSome.2 hDne)
  obtain ⟨gs, hgs⟩ := Option.isSome_iff_exists.1 (List.getLast?_isSome.2 hSne)
  have hs0P : s0 ∈ points := hSmem s0 (by rw [hSsplit]; simp)
  have hd0P : d0 ∈ points := hDmem d0 (by rw [hDsplit]; simp)
  have hmgP : mg ∈ points := hDmem mg (List.mem_of_getLast?_eq_some hmg)
  have hgsP : gs ∈ points := hSmem gs (List.mem_of_getLast?_eq_some hgs)
  have hheads : (lowerStack points).head? = (upperStack points).getLast? := by
    rw [hms, hmg]
    have h1 : lexLe mg s0 := hShead s0 hms mg hmgP
    have h2 : lexLe s0 mg := hDbot mg hmg s0 hs0P
    rw [lexLe_antisymm h2 h1]
  have hlasts : (lowerStack points).getLast? = (upperStack points).head? := by
    rw [hgs, hd0]
    have h1 : lexLe gs d0 := hSbot gs hgs d0 hd0P
    have h2 : lexLe d0 gs := hDhead d0 hd0 gs hgsP
    rw [lexLe_antisymm h1 h2]
  have hord := two_chain_vertex_order hS2 hD2 hSsort hDsort hheads hlasts
  rw [← convexHull_eq points hplen3] at hord
  obtain ⟨hlen, hinc, hdec, hwrap⟩ := hord
  refine ⟨(lowerStack points).length - 1, ?_, ?_, ?_, ?_, ?_, ?_, ?_⟩
  · exact h3
  · omega
  · omega
  · exact fun k => edgeVec_norm (convexHull points) k
  · -- turn
    intro k
    have hred : ∀ m, m < (convexHull points).length →
        0 < crossv (edgeVec (convexHull points) m)
          (edgeVec (convexHull points) (m + 1)) := by
      intro m hm
      have hcc := cyclicCCW_getD hCCW h3 m hm
      have hbr : cross ((convexHull points).getD m origin)
          ((convexHull points).getD ((m + 1) % (convexHull points).length) origin)
          ((convexHull points).getD ((m + 2) % (convexHull points).length) origin)
          = crossv (edgeVec (convexHull points) m)
            (edgeVec (convexHull points) (m + 1)) := by
        rw [cross_eq_crossv_mid]
        unfold edgeVec
        rw [Nat.mod_eq_of_lt hm]
      rw [hbr] at hcc
      exact hcc
    have hk' := hred (k % (convexHull points).length)
      (Nat.mod_lt k (by omega))
    rw [edgeVec_norm] at hk'
    have hstep : edgeVec (convexHull points) (k % (convexHull points).length + 1)
        = edgeVec (convexHull points) (k + 1) := by
      rw [← edgeVec_norm (convexHull points) (k % (convexHull points).length + 1),
        add_one_mod, edgeVec_norm]
    rw [hstep] at hk'
    exact hk'
  · -- posL
    intro k hk
    have hlex := hinc k (by omega)
    unfold edgeVec
    rw [Nat.mod_eq_of_lt (show k < (convexHull points).length by omega),
      Nat.mod_eq_of_lt (show k + 1 < (convexHull points).length by omega)]
    exact lexLt_iff_lexpos.1 hlex
  · -- negU
    intro k hkL hkn
    unfold edgeVec
    rw [Nat.mod_eq_of_lt hkn]
    rw [lexneg_lexpos, pointNeg_vsub]
    rcases Nat.lt_or_ge (k + 1) (convexHull points).length with hlt | hge
    · rw [Nat.mod_eq_of_lt hlt]
      exact lexLt_iff_lexpos.1 (hdec k (by omega) (by omega))
    · have hke : k + 1 = (convexHull points).length := by omega
      rw [show (k + 1) % (convexHull points).length = 0 by
        rw [hke]; exact Nat.mod_self _]
      have hw := lexLt_iff_lexpos.1 hwrap
      rw [show k = (lowerStack points).length + (upperStack points).length - 3
        by omega]
      exact hw

/-! ### The first stop of the antipodal advance and the sweep invariant -/

theorem diamCross_bridge {H : List Point} {nL : ℕ}
    (hEC : EdgeCycle H.length nL (edgeVec H)) {i : ℕ} (hi : i < H.length)
    (m : ℕ) :
    diamCross H i (m % H.length) = crossv (edgeVec H i) (edgeVec H m) := by
  rw [diamCross_eq_crossv H i (m % H.length) hi
      (Nat.mod_lt _ (by have := hEC.three; omega))]
  rw [edgeVec_norm]

theorem firstStop_exists {H : List Point} {nL : ℕ}
    (hEC : EdgeCycle H.length nL (edgeVec H)) {i : ℕ} (hi : i < H.length) :
    ∃ t, IsFirstStop H i t := by
  have hwit : 1 ≤ H.length - 1 ∧
      diamCross H i ((i + (H.length - 1)) % H.length) ≤ 0 := by
    refine ⟨by have := hEC.three; omega, ?_⟩
    rw [diamCross_bridge hEC hi]
    exact (hEC.stop_exists i).le
  have hP : ∃ t, 1 ≤ t ∧ diamCross H i ((i + t) % H.length) ≤ 0 :=
    ⟨H.length - 1, hwit⟩
  refine ⟨Nat.find hP, (Nat.find_spec hP).1, ?_, (Nat.find_spec hP).2, ?_⟩
  · have hle : Nat.find hP ≤ H.length - 1 := Nat.find_min' hP hwit
    have := hEC.three
    omega
  · intro s hs1 hs2
    have hmin := Nat.find_min hP hs2
    push_neg at hmin
    exact hmin hs1

theorem firstStop_uniq {H : List Point} {i a b : ℕ}
    (ha : IsFirstStop H i a) (hb : IsFirstStop H i b) : a = b := by
  obtain ⟨ha1, ha2, ha3, ha4⟩ := ha
  obtain ⟨hb1, hb2, hb3, hb4⟩ := hb
  by_contra hne
  rcases Nat.lt_or_ge a b with h | h
  · have := hb4 a ha1 h
    linarith
  · have := ha4 b hb1 (by omega)
    linarith

/-- The advance for edge `i` never stops after a single step: the cross
product with the successor edge is the strict left turn at the shared
vertex. -/
theorem firstStop_two_le {H : List Point} {nL : ℕ}
    (hEC : EdgeCycle H.length nL (edgeVec H)) {i t : ℕ} (hi : i < H.length)
    (hfs : IsFirstStop H i t) : 2 ≤ t := by
  obtain ⟨h1, h2, h3, _⟩ := hfs
  by_contra hcon
  push_neg at hcon
  have ht1 : t = 1 := by omega
  rw [ht1, diamCross_bridge hEC hi] at h3
  have := hEC.turn i
  linarith

/-- Advancing the base edge by one moves the first stop by at most one step
backward in offset terms: the unrolled stop position is monotone. -/
theorem firstStop_mono {H : List Point} {nL : ℕ}
    (hEC : EdgeCycle H.length nL (edgeVec H)) {i t t' : ℕ}
    (hi1 : i + 1 < H.length) (hft : IsFirstStop H i t)
    (hft' : IsFirstStop H (i + 1) t') :
    t ≤ t' + 1 := by
  by_contra hcon
  push_neg at hcon
  obtain ⟨h1, h2, h3, h4⟩ := hft
  obtain ⟨h1', h2', h3', h4'⟩ := hft'
  rcases Nat.lt_or_ge t' (H.length - 1) with hlt | hge
  · rw [diamCross_bridge hEC hi1] at h3'
    have hback := hEC.back_step (show i < H.length by omega) h1'
      (by omega) h3'
    have hpos := h4 (t' + 1) (by omega) (by omega)
    rw [diamCross_bridge hEC (show i < H.length by omega)] at hpos
    rw [show i + (t' + 1) = i + 1 + t' by omega] at hpos
    linarith
  · omega

theorem diamAdvance_lt (H : List Point) (i : ℕ) (h0 : 0 < H.length) :
    ∀ fuel j, j < H.length → diamAdvance H i fuel j < H.length := by
  intro fuel
  induction fuel with
  | zero => intro j hj; exact hj
  | succ f ih =>
      intro j hj
      show (if 0 < diamCross H i j then
          diamAdvance H i f ((j + 1) % H.length) else j) < H.length
      split_ifs with h
      · exact ih _ (Nat.mod_lt _ h0)
      · exact hj

/-- The fuelled advance loop, started anywhere strictly between the base
edge and its first stop, lands exactly on the first stop. -/
theorem diamAdvance_eq_firstStop {H : List Point} {nL : ℕ}
    (hEC : EdgeCycle H.length nL (edgeVec H)) {i t0 : ℕ} (hi : i < H.length)
    (hfs : IsFirstStop H i t0) :
    ∀ fuel u0, i < u0 → u0 ≤ i + t0 → i + t0 - u0 < fuel →
      diamAdvance H i fuel (u0 % H.length) = (i + t0) % H.length := by
  intro fuel
  induction fuel with
  | zero => intro u0 h1 h2 h3; exact absurd h3 (Nat.not_lt_zero _)
  | succ f ih =>
      intro u0 h1 h2 h3
      obtain ⟨ht1, ht2, ht3, ht4⟩ := hfs
      rcases Nat.lt_or_ge u0 (i + t0) with hlt | hge
      · have hpos := ht4 (u0 - i) (by omega) (by omega)
        rw [show i + (u0 - i) = u0 by omega] at hpos
        have hstep : diamAdvance H i (f + 1) (u0 % H.length)
            = diamAdvance H i f ((u0 % H.length + 1) % H.length) := by
          show (if 0 < diamCross H i (u0 % H.length) then
              diamAdvance H i f ((u0 % H.length + 1) % H.length)
            else u0 % H.length) = _
          rw [if_pos hpos]
        rw [hstep, add_one_mod]
        exact ih (u0 + 1) (by omega) (by omega) (by omega)
      · have hu : u0 = i + t0 := by omega
        have hnonpos : ¬ 0 < diamCross H i (u0 % H.length) := by
          rw [hu]
          exact not_lt.2 ht3
        have hstop : diamAdvance H i (f + 1) (u0 % H.length) = u0 % H.length := by
          show (if 0 < diamCross H i (u0 % H.length) then
              diamAdvance H i f ((u0 % H.length + 1) % H.length)
            else u0 % H.length) = _
          rw [if_neg hnonpos]
        rw [hstop, hu]

/-! ### Fold-max toolkit for the brute-force reference maximum -/

theorem foldl_max_init (f : Point → ℤ) :
    ∀ (l : List Point) (acc : ℤ), acc ≤ l.foldl (fun a x => max a (f x)) acc := by
  intro l
  induction l with
  | nil => intro acc; simp
  | cons y ys ih =>
      intro acc
      simp only [List.foldl_cons]
      exact le_trans (le_max_left _ _) (ih _)

theorem foldl_max_mem (f : Point → ℤ) :
    ∀ (l : List Point) (acc : ℤ) (x : Point), x ∈ l →
      f x ≤ l.foldl (fun a x2 => max a (f x2)) acc := by
  intro l
  induction l with
  | nil => intro acc x hx; simp at hx
  | cons y ys ih =>
      intro acc x hx
      simp only [List.foldl_cons]
      rcases List.mem_cons.1 hx with he | hm
      · rw [he]
        exact le_trans (le_max_right _ _) (foldl_max_init f ys _)
      · exact ih _ x hm

theorem foldl_max_le (f : Point → ℤ) (B : ℤ) :
    ∀ (l : List Point) (acc : ℤ), acc ≤ B → (∀ x ∈ l, f x ≤ B) →
      l.foldl (fun a x => max a (f x)) acc ≤ B := by
  intro l
  induction l with
  | nil => intro acc h _; exact h
  | cons y ys ih =>
      intro acc h hB
      simp only [List.foldl_cons]
      apply ih
      · exact max_le h (hB y (by simp))
      · intro x hx
        exact hB x (by simp [hx])

theorem foldl_max_cases (f : Point → ℤ) :
    ∀ (l : List Point) (acc : ℤ),
      l.foldl (fun a x => max a (f x)) acc = acc ∨
        ∃ x ∈ l, l.foldl (fun a x2 => max a (f x2)) acc = f x := by
  intro l
  induction l with
  | nil => intro acc; left; rfl
  | cons y ys ih =>
      intro acc
      simp only [List.foldl_cons]
      rcases ih (max acc (f y)) with he | ⟨x, hx, he⟩
      · rcases max_choice acc (f y) with hm | hm
        · left
          rw [he, hm]
        · right
          exact ⟨y, by simp, by rw [he, hm]⟩
      · right
        exact ⟨x, by simp [hx], he⟩

theorem le_maxDistTo {a q : Point} {l : List Point} (hq : q ∈ l) :
    distSq a q ≤ maxDistTo a l :=
  foldl_max_mem (fun z => distSq a z) l 0 q hq

theorem maxDistTo_nonneg (a : Point) (l : List Point) : 0 ≤ maxDistTo a l :=
  foldl_max_init (fun z => distSq a z) l 0

theorem maxDistTo_le {a : Point} {l : List Point} {B : ℤ} (h0 : 0 ≤ B)
    (hB : ∀ q ∈ l, distSq a q ≤ B) : maxDistTo a l ≤ B :=
  foldl_max_le (fun z => distSq a z) B l 0 h0 hB

theorem le_maxPairDistSq {p q : Point} {l : List Point} (hp : p ∈ l)
    (hq : q ∈ l) : distSq p q ≤ maxPairDistSq l :=
  le_trans (le_maxDistTo hq) (foldl_max_mem (fun z => maxDistTo z l) l 0 p hp)

theorem maxPairDistSq_nonneg (l : List Point) : 0 ≤ maxPairDistSq l :=
  foldl_max_init (fun z => maxDistTo z l) l 0

theorem maxPairDistSq_le {l : List Point} {B : ℤ} (h0 : 0 ≤ B)
    (hB : ∀ p ∈ l, ∀ q ∈ l, distSq p q ≤ B) : maxPairDistSq l ≤ B :=
  foldl_max_le (fun z => maxDistTo z l) B l 0 h0
    (fun p hp => maxDistTo_le h0 (hB p hp))

theorem maxPairDistSq_attained {l : List Point} (hne : l ≠ []) :
    ∃ p, p ∈ l ∧ ∃ q, q ∈ l ∧ maxPairDistSq l = distSq p q := by
  obtain ⟨z, hz⟩ := List.exists_mem_of_ne_nil l hne
  rcases foldl_max_cases (fun w => maxDistTo w l) l 0 with he | ⟨p, hp, he⟩
  · refine ⟨z, hz, z, hz, ?_⟩
    have h0 : maxPairDistSq l = 0 := he
    rw [h0]
    simp only [distSq]
    ring
  · rcases foldl_max_cases (fun w => distSq p w) l 0 with h2 | ⟨q, hq, h2⟩
    · refine ⟨p, hp, p, hp, ?_⟩
      have e1 : maxPairDistSq l = maxDistTo p l := he
      have e2 : maxDistTo p l = 0 := h2
      rw [e1, e2]
      simp only [distSq]
      ring
    · refine ⟨p, hp, q, hq, ?_⟩
      have e1 : maxPairDistSq l = maxDistTo p l := he
      have e2 : maxDistTo p l = distSq p q := h2
      rw [e1, e2]

theorem getD_mem {l : List Point} {k : ℕ} (hk : k < l.length) :
    l.getD k origin ∈ l := by
  rw [List.getD_eq_getElem l origin hk]
  exact List.getElem_mem hk

/-! ### The outer sweep of polygonDiameter -/

theorem diamLoop_mono (H : List Point) :
    ∀ (l : List ℕ) (j : ℕ) (mx : ℤ), mx ≤ diamLoop H l j mx := by
  intro l
  induction l with
  | nil => intro j mx; exact le_refl _
  | cons i rest ih =>
      intro j mx
      have hstep : diamLoop H (i :: rest) j mx
          = diamLoop H rest (diamAdvance H i H.length j)
            (max mx (max (distSq (H.getD i origin)
                (H.getD (diamAdvance H i H.length j) origin))
              (distSq (H.getD ((i + 1) % H.length) origin)
                (H.getD (diamAdvance H i H.length j) origin)))) := rfl
      rw [hstep]
      exact le_trans (le_max_left _ _) (ih _ _)

theorem diamLoop_le (H : List Point) (B : ℤ)
    (hB : ∀ p ∈ H, ∀ q ∈ H, distSq p q ≤ B) (h0 : 0 < H.length) :
    ∀ (l : List ℕ) (j : ℕ) (mx : ℤ), (∀ i2 ∈ l, i2 < H.length) →
      j < H.length → mx ≤ B → diamLoop H l j mx ≤ B := by
  intro l
  induction l with
  | nil => intro j mx _ _ h; exact h
  | cons i rest ih =>
      intro j mx hl hj h
      have hstep : diamLoop H (i :: rest) j mx
          = diamLoop H rest (diamAdvance H i H.length j)
            (max mx (max (distSq (H.getD i origin)
                (H.getD (diamAdvance H i H.length j) origin))
              (distSq (H.getD ((i + 1) % H.length) origin)
                (H.getD (diamAdvance H i H.length j) origin)))) := rfl
      rw [hstep]
      have hjlt : diamAdvance H i H.length j < H.length :=
        diamAdvance_lt H i h0 H.length j hj
      apply ih
      · intro i2 hi2
        exact hl i2 (by simp [hi2])
      · exact hjlt
      · have hi : i < H.length := hl i (by simp)
        have hd1 : distSq (H.getD i origin)
            (H.getD (diamAdvance H i H.length j) origin) ≤ B :=
          hB _ (getD_mem hi) _ (getD_mem hjlt)
        have hd2 : distSq (H.getD ((i + 1) % H.length) origin)
            (H.getD (diamAdvance H i H.length j) origin) ≤ B :=
          hB _ (getD_mem (Nat.mod_lt _ h0)) _ (getD_mem hjlt)
        exact max_le h (max_le hd1 hd2)

/-- The sweep visits every edge `i0` with its exact first stop, so the final
maximum dominates both distances recorded there. -/
theorem diamLoop_attains {H : List Point} {nL : ℕ}
    (hEC : EdgeCycle H.length nL (edgeVec H)) :
    ∀ (cnt i j : ℕ) (mx : ℤ),
      i + cnt = H.length →
      ((i = 0 ∧ j = 1) ∨ (1 ≤ i ∧ ∃ t, IsFirstStop H (i - 1) t ∧
        j = (i - 1 + t) % H.length)) →
      ∀ i0 t0, i ≤ i0 → i0 < H.length → IsFirstStop H i0 t0 →
        max (distSq (H.getD i0 origin) (H.getD ((i0 + t0) % H.length) origin))
          (distSq (H.getD ((i0 + 1) % H.length) origin)
            (H.getD ((i0 + t0) % H.length) origin))
        ≤ diamLoop H (List.range' i cnt) j mx := by
  intro cnt
  induction cnt with
  | zero =>
      intro i j mx hin hinv i0 t0 hi0 hi0n hfs
      exact absurd hi0n (by omega)
  | succ c ih =>
      intro i j mx hin hinv i0 t0 hi0 hi0n hfs
      obtain ⟨ti, hti⟩ := firstStop_exists hEC (show i < H.length by omega)
      have hadv : ∃ u0, j = u0 % H.length ∧ i < u0 ∧ u0 ≤ i + ti ∧
          i + ti - u0 < H.length := by
        rcases hinv with ⟨hi0', hj1⟩ | ⟨hi1, t, hfst, hjt⟩
        · refine ⟨1, ?_, by omega, ?_, ?_⟩
          · rw [hj1, Nat.mod_eq_of_lt (by have := hEC.three; omega)]
          · obtain ⟨a, _, _, _⟩ := hti
            omega
          · obtain ⟨_, b, _, _⟩ := hti
            omega
        · have h2t : 2 ≤ t := firstStop_two_le hEC (by omega) hfst
          have hmono : t ≤ ti + 1 :=
            firstStop_mono hEC (show i - 1 + 1 < H.length by omega) hfst
              (by rw [show i - 1 + 1 = i by omega]; exact hti)
          refine ⟨i - 1 + t, hjt, by omega, by omega, ?_⟩
          obtain ⟨_, hb, _, _⟩ := hti
          omega
      obtain ⟨u0, hju, hu1, hu2, hu3⟩ := hadv
      have hj' : diamAdvance H i H.length j = (i + ti) % H.length := by
        rw [hju]
        exact diamAdvance_eq_firstStop hEC (by omega) hti H.length u0 hu1 hu2 hu3
      have hr : List.range' i (c + 1) = i :: List.range' (i + 1) c := rfl
      have hstep : diamLoop H (List.range' i (c + 1)) j mx
          = diamLoop H (List.range' (i + 1) c) ((i + ti) % H.length)
            (max mx (max (distSq (H.getD i origin)
                (H.getD ((i + ti) % H.length) origin))
              (distSq (H.getD ((i + 1) % H.length) origin)
                (H.getD ((i + ti) % H.length) origin)))) := by
        rw [hr]
        have hu : diamLoop H (i :: List.range' (i + 1) c) j mx
            = diamLoop H (List.range' (i + 1) c) (diamAdvance H i H.length j)
              (max mx (max (distSq (H.getD i origin)
                  (H.getD (diamAdvance H i H.length j) origin))
                (distSq (H.getD ((i + 1) % H.length) origin)
                  (H.getD (diamAdvance H i H.length j) origin)))) := rfl
        rw [hu, hj']
      rcases Nat.lt_or_ge i i0 with hgt | hle
      · rw [hstep]
        have hnext : ((i + 1 = 0 ∧ (i + ti) % H.length = 1) ∨
            (1 ≤ i + 1 ∧ ∃ t, IsFirstStop H (i + 1 - 1) t ∧
              (i + ti) % H.length = (i + 1 - 1 + t) % H.length)) := by
          right
          refine ⟨by omega, ti, ?_, ?_⟩
          · rw [show i + 1 - 1 = i by omega]
            exact hti
          · rw [show i + 1 - 1 = i by omega]
        exact ih (i + 1) ((i + ti) % H.length) _ (by omega) hnext i0 t0 hgt
          hi0n hfs
      · have hi0e : i0 = i := by omega
        have hfs' : IsFirstStop H i t0 := by
          rw [hi0e] at hfs
          exact hfs
        have hte : t0 = ti := firstStop_uniq hfs' hti
        rw [hstep, hi0e, hte]
        exact le_trans (le_max_right mx _) (diamLoop_mono H _ _ _)

/-! ### The support-function argument: interior points never extend the
diameter -/

theorem dotv_comm (u v : Point) : dotv u v = dotv v u := by
  simp only [dotv]; ring

theorem dotv_pointNeg_left (u v : Point) :
    dotv (pointNeg u) v = -dotv u v := by
  simp only [dotv, pointNeg]; ring

theorem distSq_self (p : Point) : distSq p p = 0 := by
  simp only [distSq]; ring

theorem support_identity (e1 e2 qp dv : Point) :
    crossv e1 e2 * dotv qp dv
      = dotv e2 dv * crossv e1 qp - dotv e1 dv * crossv e2 qp := by
  simp only [crossv, dotv]; ring

theorem crossv_vsub_shift (b c q : Point) :
    crossv (vsub b c) (vsub q c) = crossv (vsub b c) (vsub q b) := by
  simp only [crossv, vsub]; ring

theorem parallel_parallel {a b w : Point} (h1 : crossv a w = 0)
    (h2 : crossv b w = 0) (hw : ¬ (w.x = 0 ∧ w.y = 0)) : crossv a b = 0 := by
  simp only [crossv] at *
  have hx : (a.x * b.y - a.y * b.x) * w.x = 0 := by
    linear_combination b.x * h1 - a.x * h2
  have hy : (a.x * b.y - a.y * b.x) * w.y = 0 := by
    linear_combination b.y * h1 - a.y * h2
  rcases mul_eq_zero.1 hx with h | h
  · exact h
  · rcases mul_eq_zero.1 hy with h' | h'
    · exact h'
    · exact absurd ⟨h, h'⟩ hw

theorem EdgeCycle.edge_ne_zero {n nL : ℕ} {E : ℕ → Point} (h : EdgeCycle n nL E)
    {k : ℕ} (hk : k < n) : ¬ ((E k).x = 0 ∧ (E k).y = 0) := by
  intro hc
  obtain ⟨hx, hy⟩ := hc
  rcases Nat.lt_or_ge k nL with hl | hl
  · have hp := h.posL k hl
    simp only [lexpos] at hp
    rcases hp with h1 | ⟨h1, h2⟩ <;> omega
  · have hp := h.negU k hl hk
    simp only [lexneg] at hp
    rcases hp with h1 | ⟨h1, h2⟩ <;> omega

theorem argmax_fin (f : ℕ → ℤ) :
    ∀ n, 1 ≤ n → ∃ k, k < n ∧ ∀ l, l < n → f l ≤ f k := by
  intro n
  induction n with
  | zero => intro h; exact absurd h (by omega)
  | succ m ih =>
      intro _
      rcases Nat.eq_zero_or_pos m with hm | hm
      · refine ⟨0, by omega, ?_⟩
        intro l hl
        have hl0 : l = 0 := by omega
        rw [hl0]
      · obtain ⟨k, hk, hmax⟩ := ih hm
        rcases le_or_lt (f m) (f k) with hle | hlt
        · refine ⟨k, by omega, ?_⟩
          intro l hl
          rcases Nat.lt_or_ge l m with h | h
          · exact hmax l h
          · have hle2 : l = m := by omega
            rw [hle2]
            exact hle
        · refine ⟨m, by omega, ?_⟩
          intro l hl
          rcases Nat.lt_or_ge l m with h | h
          · exact le_trans (hmax l h) hlt.le
          · have hle2 : l = m := by omega
            rw [hle2]

theorem add_mod_norm (x c n : ℕ) : (x % n + c) % n = (x + c) % n := by
  conv_rhs => rw [Nat.add_mod]
  conv_lhs => rw [Nat.add_mod]
  rw [Nat.mod_mod_of_dvd x dvd_rfl]

theorem containsAll_getD {H P : List Point} (hc : ContainsAll H P)
    (h1 : 1 ≤ H.length) {q : Point} (hq : q ∈ P) :
    ∀ k, k < H.length →
      0 ≤ cross (H.getD k origin) (H.getD ((k + 1) % H.length) origin) q := by
  intro k hk
  have hch := hc q hq
  have hlen : (H ++ H.take 1).length = H.length + 1 := by
    simp only [List.length_append, List.length_take]
    omega
  have hg := chain'_getD hch (show k + 1 < (H ++ H.take 1).length by omega)
  have e0 : (H ++ H.take 1).getD k origin = H.getD k origin :=
    List.getD_append H (H.take 1) origin k hk
  have e1 : (H ++ H.take 1).getD (k + 1) origin
      = H.getD ((k + 1) % H.length) origin := by
    rcases Nat.lt_or_ge (k + 1) H.length with hlt | hge
    · rw [List.getD_append H (H.take 1) origin (k + 1) hlt, Nat.mod_eq_of_lt hlt]
    · have hke : k + 1 = H.length := by omega
      rw [List.getD_append_right H (H.take 1) origin (k + 1) hge]
      rw [show k + 1 - H.length = 0 by omega]
      rw [show (k + 1) % H.length = 0 by rw [hke]; exact Nat.mod_self _]
      rw [List.getD_eq_getElem (H.take 1) origin
        (by simp only [List.length_take]; omega),
        List.getD_eq_getElem H origin (by omega)]
      rw [List.getElem_take]
  rw [e0, e1] at hg
  exact hg

/-- A point weakly left of every edge of the hull is never farther from any
fixed point `a` than the farthest hull vertex: the support-function argument
at the vertex maximizing the dot product with `q − a`. -/
theorem inside_maxDist {H : List Point} (h3 : 3 ≤ H.length)
    (hccw : CyclicCCW H) {P : List Point} (hc : ContainsAll H P)
    {q : Point} (hq : q ∈ P) (a : Point) :
    distSq a q ≤ maxDistTo a H := by
  obtain ⟨k, hk, hmaxk⟩ := argmax_fin (fun l => dotv (H.getD l origin) (vsub q a))
    H.length (by omega)
  have hnext : dotv (H.getD ((k + 1) % H.length) origin) (vsub q a)
      ≤ dotv (H.getD k origin) (vsub q a) :=
    hmaxk _ (Nat.mod_lt _ (by omega))
  have hprev : dotv (H.getD ((k + H.length - 1) % H.length) origin) (vsub q a)
      ≤ dotv (H.getD k origin) (vsub q a) :=
    hmaxk _ (Nat.mod_lt _ (by omega))
  have hsucc1 : ((k + H.length - 1) % H.length + 1) % H.length = k := by
    rw [add_one_mod, show k + H.length - 1 + 1 = k + H.length by omega,
      Nat.add_mod_right, Nat.mod_eq_of_lt hk]
  have hsucc2 : ((k + H.length - 1) % H.length + 2) % H.length
      = (k + 1) % H.length := by
    rw [add_mod_norm, show k + H.length - 1 + 2 = (k + 1) + H.length by omega,
      Nat.add_mod_right]
  have hturn := cyclicCCW_getD hccw h3 ((k + H.length - 1) % H.length)
    (Nat.mod_lt _ (by omega))
  rw [hsucc1, hsucc2, cross_eq_crossv_mid] at hturn
  have hleft2 := containsAll_getD hc (by omega) hq k hk
  rw [cross_eq_crossv] at hleft2
  have hleft1 := containsAll_getD hc (by omega) hq
    ((k + H.length - 1) % H.length) (Nat.mod_lt _ (by omega))
  rw [hsucc1, cross_eq_crossv, crossv_vsub_shift] at hleft1
  have hE2d : dotv (vsub (H.getD ((k + 1) % H.length) origin)
      (H.getD k origin)) (vsub q a) ≤ 0 := by
    simp only [dotv, vsub] at hnext ⊢
    linarith
  have hE1d : 0 ≤ dotv (vsub (H.getD k origin)
      (H.getD ((k + H.length - 1) % H.length) origin)) (vsub q a) := by
    simp only [dotv, vsub] at hprev ⊢
    linarith
  have hsupp : dotv (vsub q (H.getD k origin)) (vsub q a) ≤ 0 := by
    have hid := support_identity
      (vsub (H.getD k origin) (H.getD ((k + H.length - 1) % H.length) origin))
      (vsub (H.getD ((k + 1) % H.length) origin) (H.getD k origin))
      (vsub q (H.getD k origin)) (vsub q a)
    have ht1 : dotv (vsub (H.getD ((k + 1) % H.length) origin)
        (H.getD k origin)) (vsub q a)
        * crossv (vsub (H.getD k origin)
            (H.getD ((k + H.length - 1) % H.length) origin))
          (vsub q (H.getD k origin)) ≤ 0 :=
      mul_nonpos_iff.mpr (Or.inr ⟨hE2d, hleft1⟩)
    have ht2 : 0 ≤ dotv (vsub (H.getD k origin)
        (H.getD ((k + H.length - 1) % H.length) origin)) (vsub q a)
        * crossv (vsub (H.getD ((k + 1) % H.length) origin)
            (H.getD k origin)) (vsub q (H.getD k origin)) :=
      mul_nonneg hE1d hleft2
    by_contra hcon
    push_neg at hcon
    nlinarith [mul_pos hturn hcon, hid, ht1, ht2]
  have hVkH : H.getD k origin ∈ H := getD_mem hk
  have hfar : distSq a q ≤ distSq a (H.getD k origin) := by
    have hsplit : dotv (vsub q (H.getD k origin)) (vsub q a)
        = dotv (vsub q a) (vsub q a)
          - dotv (vsub (H.getD k origin) a) (vsub q a) := by
      simp only [dotv, vsub]
      ring
    have hS : dotv (vsub q a) (vsub q a)
        ≤ dotv (vsub (H.getD k origin) a) (vsub q a) := by linarith
    have hlag := lagrange_identity (vsub (H.getD k origin) a) (vsub q a)
    have hdq : 0 ≤ dotv (vsub q a) (vsub q a) := by
      rw [← distSq_eq_dotv]
      exact distSq_nonneg a q
    have hu0 : 0 ≤ dotv (vsub (H.getD k origin) a) (vsub (H.getD k origin) a) := by
      rw [← distSq_eq_dotv]
      exact distSq_nonneg a (H.getD k origin)
    rw [distSq_eq_dotv a q, distSq_eq_dotv a (H.getD k origin)]
    have h1 := mul_le_mul_of_nonneg_right hS hdq
    have h2 := mul_le_mul_of_nonneg_left hS (le_trans hdq hS)
    nlinarith [h1, h2, hlag, hdq, hu0,
      sq_nonneg (crossv (vsub (H.getD k origin) a) (vsub q a))]
  exact le_trans hfar (le_maxDistTo hVkH)

/-! ### The antipodal covering argument: every maximal pair is recorded -/

theorem cyc_offset {n a c : ℕ} (ha : a < n) (hc : c < n) (hne : a ≠ c) :
    1 ≤ (c + n - a) % n ∧ (c + n - a) % n < n ∧
      (a + (c + n - a) % n) % n = c := by
  rcases le_or_lt a c with h | h
  · have h1 : (c + n - a) % n = c - a := by
      rw [show c + n - a = (c - a) + n by omega, Nat.add_mod_right,
        Nat.mod_eq_of_lt (by omega)]
    rw [h1]
    refine ⟨by omega, by omega, ?_⟩
    rw [show a + (c - a) = c by omega, Nat.mod_eq_of_lt hc]
  · have h1 : (c + n - a) % n = c + n - a := Nat.mod_eq_of_lt (by omega)
    rw [h1]
    refine ⟨by omega, by omega, ?_⟩
    rw [show a + (c + n - a) = c + n by omega, Nat.add_mod_right,
      Nat.mod_eq_of_lt hc]

theorem pred_mod {n b t c : ℕ} (hn : 1 ≤ n) (ht : 1 ≤ t)
    (he : (b + t) % n = c) : (b + (t - 1)) % n = (c + n - 1) % n := by
  have h1 : (b + (t - 1)) % n = (b + t - 1 + n) % n := by
    rw [show b + t - 1 + n = b + (t - 1) + n by omega, Nat.add_mod_right]
  rw [h1, show b + t - 1 + n = (b + t) + (n - 1) by omega]
  rw [← add_mod_norm (b + t) (n - 1) n, he]
  rw [show c + n - 1 = c + (n - 1) by omega]

theorem leaf_firstStop {H : List Point} {nL : ℕ}
    (hEC : EdgeCycle H.length nL (edgeVec H)) {b t : ℕ} (hb : b < H.length)
    (ht1 : 1 ≤ t) (ht2 : t < H.length)
    (hstop : crossv (edgeVec H b) (edgeVec H (b + t)) ≤ 0)
    (hpred : t = 1 ∨ 0 < crossv (edgeVec H b) (edgeVec H (b + (t - 1)))) :
    IsFirstStop H b t := by
  refine ⟨ht1, ht2, ?_, ?_⟩
  · rw [diamCross_bridge hEC hb]
    exact hstop
  · intro s hs1 hs2
    rw [diamCross_bridge hEC hb]
    rcases hpred with he | hpos
    · exact absurd hs2 (by omega)
    · rcases Nat.lt_or_ge s (t - 1) with hlt | hge
      · by_contra hcon
        push_neg at hcon
        have := hEC.suffix hb hs1 (show s < t - 1 by omega) (by omega) hcon
        linarith
      · have hse : s = t - 1 := by omega
        rw [hse]
        exact hpos

theorem leaf_build {H : List Point} {nL : ℕ}
    (hEC : EdgeCycle H.length nL (edgeVec H)) {b c : ℕ} (hb : b < H.length)
    (hc : c < H.length) (hbc : b ≠ c)
    (hstop : crossv (edgeVec H b) (edgeVec H c) ≤ 0)
    (hpred : 0 < crossv (edgeVec H b)
      (edgeVec H ((c + H.length - 1) % H.length))) :
    ∃ t, IsFirstStop H b t ∧ (b + t) % H.length = c := by
  have h3n := hEC.three
  obtain ⟨h1, h2, h3⟩ := cyc_offset hb hc hbc
  refine ⟨(c + H.length - b) % H.length, ?_, h3⟩
  rcases Nat.eq_or_lt_of_le h1 with he1 | h2t
  · exfalso
    have hec : edgeVec H c = edgeVec H (b + 1) := by
      rw [← h3, ← he1, hEC.norm]
    rw [hec] at hstop
    have := hEC.turn b
    linarith
  · apply leaf_firstStop hEC hb h1 h2
    · have he : edgeVec H (b + (c + H.length - b) % H.length) = edgeVec H c := by
        rw [← hEC.norm (b + (c + H.length - b) % H.length), h3]
      rw [he]
      exact hstop
    · right
      have he : edgeVec H (b + ((c + H.length - b) % H.length - 1))
          = edgeVec H ((c + H.length - 1) % H.length) := by
        rw [← hEC.norm (b + ((c + H.length - b) % H.length - 1)),
          pred_mod (show 1 ≤ H.length by omega) h1 h3]
      rw [he]
      exact hpred

/-- The covering theorem: for a maximal-distance pair of hull vertices, one
of the four caliper configurations around the pair is realised as an exact
first stop of the sweep, and the recorded pair there attains the maximum. -/
theorem covering {H : List Point} {nL : ℕ}
    (hEC : EdgeCycle H.length nL (edgeVec H))
    {u v : ℕ} (hu : u < H.length) (hv : v < H.length)
    (huv : H.getD u origin ≠ H.getD v origin)
    (hmax : ∀ p ∈ H, ∀ w ∈ H,
      distSq p w ≤ distSq (H.getD u origin) (H.getD v origin)) :
    ∃ i0 t0, i0 < H.length ∧ IsFirstStop H i0 t0 ∧
      distSq (H.getD u origin) (H.getD v origin)
        ≤ max (distSq (H.getD i0 origin)
            (H.getD ((i0 + t0) % H.length) origin))
          (distSq (H.getD ((i0 + 1) % H.length) origin)
            (H.getD ((i0 + t0) % H.length) origin)) := by
  have h3n := hEC.three
  have hune : u ≠ v := by
    intro he
    exact huv (by rw [he])
  have hmaxside : ∀ w ∈ H, dotv (vsub w (H.getD v origin))
      (vsub (H.getD v origin) (H.getD u origin)) ≤ 0 := by
    intro w hw
    exact antipodal_dot (hmax _ (getD_mem hu) _ hw) (hmax _ (getD_mem hv) _ hw)
  have hminside : ∀ w ∈ H, 0 ≤ dotv (vsub w (H.getD u origin))
      (vsub (H.getD v origin) (H.getD u origin)) := by
    intro w hw
    have h1 : distSq (H.getD v origin) w
        ≤ distSq (H.getD v origin) (H.getD u origin) := by
      rw [distSq_comm (H.getD v origin) (H.getD u origin)]
      exact hmax _ (getD_mem hv) _ hw
    have h2 : distSq (H.getD u origin) w
        ≤ distSq (H.getD v origin) (H.getD u origin) := by
      rw [distSq_comm (H.getD v origin) (H.getD u origin)]
      exact hmax _ (getD_mem hu) _ hw
    have h := antipodal_dot h1 h2
    rw [show vsub (H.getD u origin) (H.getD v origin)
        = pointNeg (vsub (H.getD v origin) (H.getD u origin)) from
      (pointNeg_vsub _ _).symm, dotv_pointNeg_right] at h
    linarith
  have hEu : 0 ≤ dotv (edgeVec H u)
      (vsub (H.getD v origin) (H.getD u origin)) := by
    unfold edgeVec
    rw [Nat.mod_eq_of_lt hu]
    exact hminside _ (getD_mem (Nat.mod_lt _ (by omega)))
  have hEv : dotv (edgeVec H v)
      (vsub (H.getD v origin) (H.getD u origin)) ≤ 0 := by
    unfold edgeVec
    rw [Nat.mod_eq_of_lt hv]
    exact hmaxside _ (getD_mem (Nat.mod_lt _ (by omega)))
  have hEu1 : dotv (edgeVec H (u + H.length - 1))
      (vsub (H.getD v origin) (H.getD u origin)) ≤ 0 := by
    unfold edgeVec
    rw [show u + H.length - 1 + 1 = u + H.length by omega,
      Nat.add_mod_right, Nat.mod_eq_of_lt hu]
    rw [show vsub (H.getD u origin)
        (H.getD ((u + H.length - 1) % H.length) origin)
        = pointNeg (vsub (H.getD ((u + H.length - 1) % H.length) origin)
            (H.getD u origin)) from (pointNeg_vsub _ _).symm,
      dotv_pointNeg_left]
    have := hminside _ (getD_mem (Nat.mod_lt (u + H.length - 1)
      (show 0 < H.length by omega)))
    linarith
  have hEv1 : 0 ≤ dotv (edgeVec H (v + H.length - 1))
      (vsub (H.getD v origin) (H.getD u origin)) := by
    unfold edgeVec
    rw [show v + H.length - 1 + 1 = v + H.length by omega,
      Nat.add_mod_right, Nat.mod_eq_of_lt hv]
    rw [show vsub (H.getD v origin)
        (H.getD ((v + H.length - 1) % H.length) origin)
        = pointNeg (vsub (H.getD ((v + H.length - 1) % H.length) origin)
            (H.getD v origin)) from (pointNeg_vsub _ _).symm,
      dotv_pointNeg_left]
    have := hmaxside _ (getD_mem (Nat.mod_lt (v + H.length - 1)
      (show 0 < H.length by omega)))
    linarith
  have hdd : 0 < dotv (vsub (H.getD v origin) (H.getD u origin))
      (vsub (H.getD v origin) (H.getD u origin)) := by
    rw [← distSq_eq_dotv]
    exact distSq_pos_of_ne huv
  have htu : 0 < crossv (edgeVec H (u + H.length - 1)) (edgeVec H u) := by
    have h := hEC.turn (u + H.length - 1)
    rw [show u + H.length - 1 + 1 = u + H.length by omega, hEC.per] at h
    exact h
  have htv : 0 < crossv (edgeVec H (v + H.length - 1)) (edgeVec H v) := by
    have h := hEC.turn (v + H.length - 1)
    rw [show v + H.length - 1 + 1 = v + H.length by omega, hEC.per] at h
    exact h
  have leaf1 : crossv (edgeVec H (u + H.length - 1)) (edgeVec H v) ≤ 0 →
      0 < crossv (edgeVec H (u + H.length - 1))
        (edgeVec H (v + H.length - 1)) →
      (∃ i0 t0, i0 < H.length ∧ IsFirstStop H i0 t0 ∧
        distSq (H.getD u origin) (H.getD v origin)
          ≤ max (distSq (H.getD i0 origin)
              (H.getD ((i0 + t0) % H.length) origin))
            (distSq (H.getD ((i0 + 1) % H.length) origin)
              (H.getD ((i0 + t0) % H.length) origin))) := by
    intro hstop hpred
    have hblt : (u + H.length - 1) % H.length < H.length :=
      Nat.mod_lt _ (by omega)
    have hbne : (u + H.length - 1) % H.length ≠ v := by
      intro hbe
      have heq : edgeVec H v = edgeVec H (u + H.length - 1) := by
        rw [← hEC.norm (u + H.length - 1), hbe]
      rw [← heq] at hpred
      linarith [crossv_anticomm (edgeVec H (v + H.length - 1)) (edgeVec H v)]
    have hstop' : crossv (edgeVec H ((u + H.length - 1) % H.length))
        (edgeVec H v) ≤ 0 := by
      rw [hEC.norm]
      exact hstop
    have hpred' : 0 < crossv (edgeVec H ((u + H.length - 1) % H.length))
        (edgeVec H ((v + H.length - 1) % H.length)) := by
      rw [hEC.norm, hEC.norm]
      exact hpred
    obtain ⟨t, hfs, hbt⟩ := leaf_build hEC hblt hv hbne hstop' hpred'
    have hb1 : ((u + H.length - 1) % H.length + 1) % H.length = u := by
      rw [add_one_mod, show u + H.length - 1 + 1 = u + H.length by omega,
        Nat.add_mod_right, Nat.mod_eq_of_lt hu]
    refine ⟨(u + H.length - 1) % H.length, t, hblt, hfs, ?_⟩
    rw [hbt, hb1]
    exact le_max_right _ _
  have leaf2 : crossv (edgeVec H (v + H.length - 1)) (edgeVec H u) ≤ 0 →
      0 < crossv (edgeVec H (v + H.length - 1))
        (edgeVec H (u + H.length - 1)) →
      (∃ i0 t0, i0 < H.length ∧ IsFirstStop H i0 t0 ∧
        distSq (H.getD u origin) (H.getD v origin)
          ≤ max (distSq (H.getD i0 origin)
              (H.getD ((i0 + t0) % H.length) origin))
            (distSq (H.getD ((i0 + 1) % H.length) origin)
              (H.getD ((i0 + t0) % H.length) origin))) := by
    intro hstop hpred
    have hblt : (v + H.length - 1) % H.length < H.length :=
      Nat.mod_lt _ (by omega)
    have hbne : (v + H.length - 1) % H.length ≠ u := by
      intro hbe
      have heq : edgeVec H u = edgeVec H (v + H.length - 1) := by
        rw [← hEC.norm (v + H.length - 1), hbe]
      rw [← heq] at hpred
      linarith [crossv_anticomm (edgeVec H (u + H.length - 1)) (edgeVec H u)]
    have hstop' : crossv (edgeVec H ((v + H.length - 1) % H.length))
        (edgeVec H u) ≤ 0 := by
      rw [hEC.norm]
      exact hstop
    have hpred' : 0 < crossv (edgeVec H ((v + H.length - 1) % H.length))
        (edgeVec H ((u + H.length - 1) % H.length)) := by
      rw [hEC.norm, hEC.norm]
      exact hpred
    obtain ⟨t, hfs, hbt⟩ := leaf_build hEC hblt hu hbne hstop' hpred'
    have hb1 : ((v + H.length - 1) % H.length + 1) % H.length = v := by
      rw [add_one_mod, show v + H.length - 1 + 1 = v + H.length by omega,
        Nat.add_mod_right, Nat.mod_eq_of_lt hv]
    refine ⟨(v + H.length - 1) % H.length, t, hblt, hfs, ?_⟩
    rw [hbt, hb1]
    rw [distSq_comm (H.getD u origin) (H.getD v origin)]
    exact le_max_right _ _
  have leaf3 : crossv (edgeVec H u) (edgeVec H v) ≤ 0 →
      0 < crossv (edgeVec H u) (edgeVec H ((v + H.length - 1) % H.length)) →
      (∃ i0 t0, i0 < H.length ∧ IsFirstStop H i0 t0 ∧
        distSq (H.getD u origin) (H.getD v origin)
          ≤ max (distSq (H.getD i0 origin)
              (H.getD ((i0 + t0) % H.length) origin))
            (distSq (H.getD ((i0 + 1) % H.length) origin)
              (H.getD ((i0 + t0) % H.length) origin))) := by
    intro hstop hpred
    obtain ⟨t, hfs, hbt⟩ := leaf_build hEC hu hv hune hstop hpred
    refine ⟨u, t, hu, hfs, ?_⟩
    rw [hbt]
    exact le_max_left _ _
  have leaf4 : crossv (edgeVec H v) (edgeVec H u) ≤ 0 →
      0 < crossv (edgeVec H v) (edgeVec H ((u + H.length - 1) % H.length)) →
      (∃ i0 t0, i0 < H.length ∧ IsFirstStop H i0 t0 ∧
        distSq (H.getD u origin) (H.getD v origin)
          ≤ max (distSq (H.getD i0 origin)
              (H.getD ((i0 + t0) % H.length) origin))
            (distSq (H.getD ((i0 + 1) % H.length) origin)
              (H.getD ((i0 + t0) % H.length) origin))) := by
    intro hstop hpred
    obtain ⟨t, hfs, hbt⟩ := leaf_build hEC hv hu (Ne.symm hune) hstop hpred
    refine ⟨v, t, hv, hfs, ?_⟩
    rw [hbt]
    rw [distSq_comm (H.getD u origin) (H.getD v origin)]
    exact le_max_left _ _
  have htie : crossv (edgeVec H (u + H.length - 1))
      (edgeVec H (v + H.length - 1)) = 0 →
      (∃ i0 t0, i0 < H.length ∧ IsFirstStop H i0 t0 ∧
        distSq (H.getD u origin) (H.getD v origin)
          ≤ max (distSq (H.getD i0 origin)
              (H.getD ((i0 + t0) % H.length) origin))
            (distSq (H.getD ((i0 + 1) % H.length) origin)
              (H.getD ((i0 + t0) % H.length) origin))) := by
    intro hc1
    have hep2 := endpoint_cases (mirrorv (edgeVec H u))
      (mirrorv (edgeVec H (u + H.length - 1)))
      (mirrorv (edgeVec H v)) (mirrorv (edgeVec H (v + H.length - 1)))
      (pointNeg (mirrorv (vsub (H.getD v origin) (H.getD u origin))))
      (by rw [crossv_mirrorv]
          linarith [crossv_anticomm (edgeVec H u)
            (edgeVec H (u + H.length - 1))])
      (by rw [crossv_mirrorv]
          linarith [crossv_anticomm (edgeVec H v)
            (edgeVec H (v + H.length - 1))])
      (by rw [dotv_pointNeg_left, dotv_mirrorv, dotv_comm]
          linarith)
      (by rw [dotv_pointNeg_left, dotv_mirrorv, dotv_comm]
          linarith)
      (by rw [dotv_pointNeg_left, dotv_mirrorv, dotv_comm]
          linarith)
      (by rw [dotv_pointNeg_left, dotv_mirrorv, dotv_comm]
          linarith)
      (by rw [dotv_pointNeg_left, dotv_pointNeg_right, neg_neg, dotv_mirrorv]
          exact hdd)
    rcases hep2 with ⟨hx1, hx2⟩ | ⟨hy1, hy2⟩
    · have hstop3 : crossv (edgeVec H u) (edgeVec H v) ≤ 0 := by
        rw [crossv_mirrorv] at hx1
        linarith
      have hpredw : 0 ≤ crossv (edgeVec H u)
          (edgeVec H (v + H.length - 1)) := by
        rw [crossv_mirrorv] at hx2
        linarith
      have hstrict : 0 < crossv (edgeVec H u)
          (edgeVec H (v + H.length - 1)) := by
        rcases lt_or_eq_of_le hpredw with h | h
        · exact h
        · exfalso
          have hnz : ¬ ((edgeVec H (v + H.length - 1)).x = 0 ∧
              (edgeVec H (v + H.length - 1)).y = 0) := by
            rw [← hEC.norm (v + H.length - 1)]
            exact hEC.edge_ne_zero (Nat.mod_lt _ (by omega))
          have h0 := parallel_parallel hc1 h.symm hnz
          linarith
      apply leaf3 hstop3
      rw [hEC.norm]
      exact hstrict
    · have hstop4 : crossv (edgeVec H v) (edgeVec H u) ≤ 0 := by
        rw [crossv_mirrorv] at hy1
        linarith
      have hpredw : 0 ≤ crossv (edgeVec H v)
          (edgeVec H (u + H.length - 1)) := by
        rw [crossv_mirrorv] at hy2
        linarith
      have hstrict : 0 < crossv (edgeVec H v)
          (edgeVec H (u + H.length - 1)) := by
        rcases lt_or_eq_of_le hpredw with h | h
        · exact h
        · exfalso
          have hnz : ¬ ((edgeVec H (u + H.length - 1)).x = 0 ∧
              (edgeVec H (u + H.length - 1)).y = 0) := by
            rw [← hEC.norm (u + H.length - 1)]
            exact hEC.edge_ne_zero (Nat.mod_lt _ (by omega))
          have hc1' : crossv (edgeVec H (v + H.length - 1))
              (edgeVec H (u + H.length - 1)) = 0 := by
            linarith [crossv_anticomm (edgeVec H (u + H.length - 1))
              (edgeVec H (v + H.length - 1))]
          have h0 := parallel_parallel hc1' h.symm hnz
          linarith [crossv_anticomm (edgeVec H (v + H.length - 1))
            (edgeVec H v)]
      apply leaf4 hstop4
      rw [hEC.norm]
      exact hstrict
  have hep1 := endpoint_cases (edgeVec H (u + H.length - 1)) (edgeVec H u)
    (edgeVec H (v + H.length - 1)) (edgeVec H v)
    (vsub (H.getD v origin) (H.getD u origin))
    htu htv (by rw [dotv_comm]; exact hEu) (by rw [dotv_comm]; exact hEu1)
    (by rw [dotv_comm]; exact hEv) (by rw [dotv_comm]; exact hEv1) hdd
  rcases hep1 with ⟨hx1, hx2⟩ | ⟨hy1, hy2⟩
  · rcases lt_or_eq_of_le hx1 with hstrict | htie0
    · exact leaf1 hx2 hstrict
    · exact htie htie0.symm
  · rcases lt_or_eq_of_le hy1 with hstrict | htie0
    · exact leaf2 hy2 hstrict
    · apply htie
      linarith [crossv_anticomm (edgeVec H (u + H.length - 1))
        (edgeVec H (v + H.length - 1))]

/-! ### Assembly: the sweep equals the maximum pairwise distance -/

theorem diam_hull {H : List Point} {nL : ℕ}
    (hEC : EdgeCycle H.length nL (edgeVec H)) :
    diamLoop H (List.range H.length) 1 0 = maxPairDistSq H := by
  have h3n := hEC.three
  apply le_antisymm
  · exact diamLoop_le H (maxPairDistSq H)
      (fun p hp q hq => le_maxPairDistSq hp hq) (by omega)
      (List.range H.length) 1 0
      (fun i2 hi2 => List.mem_range.1 hi2) (by omega)
      (maxPairDistSq_nonneg H)
  · have h01 : H.getD 1 origin ≠ H.getD 0 origin := by
      intro heq
      apply hEC.edge_ne_zero (show 0 < H.length by omega)
      unfold edgeVec
      rw [show (0 + 1) % H.length = 1 from Nat.mod_eq_of_lt (by omega),
        Nat.zero_mod, heq]
      simp [vsub]
    obtain ⟨p, hp, q, hq, hpq⟩ := maxPairDistSq_attained
      (show H ≠ [] by intro he; rw [he] at h3n; simp at h3n)
    have hne : p ≠ q := by
      intro he
      have hmax0 : maxPairDistSq H = 0 := by rw [hpq, he, distSq_self]
      have hle := le_maxPairDistSq (getD_mem (show 1 < H.length by omega))
        (getD_mem (show 0 < H.length by omega))
      have hpos := distSq_pos_of_ne h01
      linarith
    obtain ⟨u, hu, hup⟩ := List.getElem_of_mem hp
    obtain ⟨v, hv, hvq⟩ := List.getElem_of_mem hq
    have hup' : H.getD u origin = p := by
      rw [List.getD_eq_getElem H origin hu]
      exact hup
    have hvq' : H.getD v origin = q := by
      rw [List.getD_eq_getElem H origin hv]
      exact hvq
    have huv : H.getD u origin ≠ H.getD v origin := by
      rw [hup', hvq']
      exact hne
    have hmax : ∀ p2 ∈ H, ∀ w ∈ H,
        distSq p2 w ≤ distSq (H.getD u origin) (H.getD v origin) := by
      rw [hup', hvq']
      intro p2 hp2 w hw
      rw [← hpq]
      exact le_maxPairDistSq hp2 hw
    obtain ⟨i0, t0, hi0, hfs, hcov⟩ := covering hEC hu hv huv hmax
    have hatt := diamLoop_attains hEC H.length 0 1 0 (by omega)
      (Or.inl ⟨rfl, rfl⟩) i0 t0 (Nat.zero_le _) hi0 hfs
    rw [hpq, List.range_eq_range']
    calc distSq p q = distSq (H.getD u origin) (H.getD v origin) := by
          rw [hup', hvq']
      _ ≤ _ := le_trans hcov hatt

/-! ### The degenerate collinear case of polygonDiameter -/

theorem dotv_nonneg_of_parallel_lexpos {x w : Point}
    (hpar : crossv x w = 0) (hx : lexpos x ∨ x = origin) (hw : lexpos w) :
    0 ≤ dotv x w := by
  rcases hx with hx | hx
  · simp only [crossv] at hpar
    simp only [dotv]
    rcases hw with hwx | ⟨hw0, hwy⟩
    · rcases hx with hxx | ⟨hx0, hxy⟩
      · have hkey : (x.x * w.x + x.y * w.y) * w.x
            = x.x * (w.x * w.x + w.y * w.y) := by
          linear_combination (-w.y) * hpar
        nlinarith [hkey, sq_nonneg w.y, mul_pos hxx (mul_pos hwx hwx)]
      · exfalso
        have h0 : x.x * w.y = 0 := mul_eq_zero_of_left hx0 w.y
        linarith [hpar, h0, mul_pos hxy hwx]
    · rcases hx with hxx | ⟨hx0, hxy⟩
      · exfalso
        have h0 : x.y * w.x = 0 := mul_eq_zero_of_right x.y hw0
        linarith [hpar, h0, mul_pos hxx hwy]
      · rw [hx0, hw0]
        nlinarith [mul_pos hxy hwy]
  · rw [hx]
    simp [dotv, origin]

theorem collinear_between_bound {a b p q : Point} (hab : a ≠ b)
    (hp : cross a b p = 0) (hq : cross a b q = 0)
    (hap : lexLe a p) (hpb : lexLe p b) (haq : lexLe a q) (hqb : lexLe q b) :
    distSq p q ≤ distSq a b := by
  have hle := lexLe_trans hap hpb
  rcases lexLe_iff.1 hle with hlt | he
  swap
  · exact absurd he hab
  have hw : lexpos (vsub b a) := lexLt_iff_lexpos.1 hlt
  have hSp : 0 ≤ dotv (vsub p a) (vsub b a) := by
    refine dotv_nonneg_of_parallel_lexpos ?_ ?_ hw
    · simp only [cross] at hp
      simp only [crossv, vsub]
      linear_combination -hp
    · rcases lexLe_iff.1 hap with h | h
      · exact Or.inl (lexLt_iff_lexpos.1 h)
      · right
        rw [← h]
        simp [vsub, origin]
  have hSpb : 0 ≤ dotv (vsub b p) (vsub b a) := by
    refine dotv_nonneg_of_parallel_lexpos ?_ ?_ hw
    · simp only [cross] at hp
      simp only [crossv, vsub]
      linear_combination hp
    · rcases lexLe_iff.1 hpb with h | h
      · exact Or.inl (lexLt_iff_lexpos.1 h)
      · right
        rw [h]
        simp [vsub, origin]
  have hSq : 0 ≤ dotv (vsub q a) (vsub b a) := by
    refine dotv_nonneg_of_parallel_lexpos ?_ ?_ hw
    · simp only [cross] at hq
      simp only [crossv, vsub]
      linear_combination -hq
    · rcases lexLe_iff.1 haq with h | h
      · exact Or.inl (lexLt_iff_lexpos.1 h)
      · right
        rw [← h]
        simp [vsub, origin]
  have hSqb : 0 ≤ dotv (vsub b q) (vsub b a) := by
    refine dotv_nonneg_of_parallel_lexpos ?_ ?_ hw
    · simp only [cross] at hq
      simp only [crossv, vsub]
      linear_combination hq
    · rcases lexLe_iff.1 hqb with h | h
      · exact Or.inl (lexLt_iff_lexpos.1 h)
      · right
        rw [h]
        simp [vsub, origin]
  have hparpq : crossv (vsub q p) (vsub b a) = 0 := by
    simp only [cross] at hp hq
    simp only [crossv, vsub]
    linear_combination hp - hq
  have hS : dotv (vsub q p) (vsub b a)
      = dotv (vsub q a) (vsub b a) - dotv (vsub p a) (vsub b a) := by
    simp only [dotv, vsub]
    ring
  have hWq : dotv (vsub q a) (vsub b a) ≤ dotv (vsub b a) (vsub b a) := by
    have h := hSqb
    have hdecomp : dotv (vsub b a) (vsub b a) - dotv (vsub q a) (vsub b a)
        = dotv (vsub b q) (vsub b a) := by
      simp only [dotv, vsub]
      ring
    linarith
  have hWp : dotv (vsub p a) (vsub b a) ≤ dotv (vsub b a) (vsub b a) := by
    have h := hSpb
    have hdecomp : dotv (vsub b a) (vsub b a) - dotv (vsub p a) (vsub b a)
        = dotv (vsub b p) (vsub b a) := by
      simp only [dotv, vsub]
      ring
    linarith
  have hW : 0 < dotv (vsub b a) (vsub b a) := by
    rw [← distSq_eq_dotv]
    exact distSq_pos_of_ne hab
  rw [distSq_eq_dotv p q, distSq_eq_dotv a b]
  have h1 : dotv (vsub q p) (vsub b a) ≤ dotv (vsub b a) (vsub b a) := by
    linarith
  have h2 : -dotv (vsub b a) (vsub b a) ≤ dotv (vsub q p) (vsub b a) := by
    linarith
  have hsq : dotv (vsub q p) (vsub b a) ^ 2
      ≤ dotv (vsub b a) (vsub b a) ^ 2 := by
    nlinarith [h1, h2]
  have hlag := lagrange_identity (vsub q p) (vsub b a)
  rw [hparpq] at hlag
  nlinarith [hsq, hlag, hW]

theorem collinear_pair_bound {points : List Point} {a b : Point}
    (hcol : collinearAll points) (ha : a ∈ points) (hb : b ∈ points)
    (hbounds : ∀ q ∈ points, lexLe a q ∧ lexLe q b) :
    ∀ p ∈ points, ∀ q ∈ points, distSq p q ≤ distSq a b := by
  intro p hp q hq
  by_cases hab : a = b
  · have hpa : a = p := by
      apply lexLe_antisymm (hbounds p hp).1
      rw [hab]
      exact (hbounds p hp).2
    have hqa : a = q := by
      apply lexLe_antisymm (hbounds q hq).1
      rw [hab]
      exact (hbounds q hq).2
    rw [← hpa, ← hqa, distSq_self]
    exact distSq_nonneg a b
  · exact collinear_between_bound hab (hcol a ha b hb p hp) (hcol a ha b hb q hq)
      (hbounds p hp).1 (hbounds p hp).2 (hbounds q hq).1 (hbounds q hq).2

theorem maxPairDistSq_pair (a b : Point) :
    maxPairDistSq [a, b] = distSq a b := by
  apply le_antisymm
  · apply maxPairDistSq_le (distSq_nonneg a b)
    intro p hp q hq
    rcases List.mem_pair.1 hp with rfl | rfl
    · rcases List.mem_pair.1 hq with rfl | rfl
      · rw [distSq_self]
        exact distSq_nonneg _ _
      · exact le_refl _
    · rcases List.mem_pair.1 hq with rfl | rfl
      · rw [distSq_comm]
      · rw [distSq_self]
        exact distSq_nonneg _ _
  · exact le_maxPairDistSq (by simp) (by simp)

/-- C4: for every input of at least 2 points, the squared-distance core of
`polygonDiameter` returns the maximum pairwise squared distance among the
vertices of the input's convex hull, which equals the maximum pairwise
squared distance of the whole input set; and when the hull degenerates to 2
points the returned value is their squared distance directly.  (Like C2 this
is stated on squared distances, the source returning the square root of this
value.) -/
theorem c4_polygonDiameter_max_pairwise (points : List Point)
    (h2 : 2 ≤ points.length) :
    polygonDiameterSq points = maxPairDistSq (convexHull points) ∧
    maxPairDistSq (convexHull points) = maxPairDistSq points ∧
    ((convexHull points).length = 2 →
      polygonDiameterSq points
        = distSq ((convexHull points).getD 0 origin)
            ((convexHull points).getD 1 origin)) := by
  by_cases hcol : collinearAll points
  · by_cases hlen : points.length ≤ 2
    · have hlen2 : points.length = 2 := by omega
      have hhull : convexHull points = points := by
        unfold convexHull
        rw [if_pos hlen]
      obtain ⟨p0, p1, rfl⟩ := List.length_eq_two.1 hlen2
      have heval : polygonDiameterSq [p0, p1] = distSq p0 p1 := by
        simp [polygonDiameterSq, hhull]
      refine ⟨?_, ?_, ?_⟩
      · rw [heval, hhull, maxPairDistSq_pair]
      · rw [hhull]
      · intro _
        rw [heval, hhull]
        simp
    · push_neg at hlen
      obtain ⟨a, b, hhull, ha, hb, hbounds⟩ :=
        hull_collinear points (by omega) hcol
      have heval : polygonDiameterSq points = distSq a b := by
        simp only [polygonDiameterSq]
        rw [if_neg (by omega), hhull]
        simp
      have hmp : maxPairDistSq points = distSq a b := by
        apply le_antisymm
        · exact maxPairDistSq_le (distSq_nonneg a b)
            (collinear_pair_bound hcol ha hb hbounds)
        · exact le_maxPairDistSq ha hb
      refine ⟨?_, ?_, ?_⟩
      · rw [heval, hhull, maxPairDistSq_pair]
      · rw [hhull, maxPairDistSq_pair, hmp]
      · intro _
        rw [heval, hhull]
        simp
  · obtain ⟨h3, hsub, hCCW, hcont, hnodup⟩ := hull_main points hcol
    obtain ⟨nL, hEC⟩ := hull_edgeCycle points hcol
    have hdl := diam_hull hEC
    have heval : polygonDiameterSq points
        = diamLoop (convexHull points)
            (List.range (convexHull points).length) 1 0 := by
      simp only [polygonDiameterSq]
      rw [if_neg (by omega), if_neg (by omega), if_neg (by omega)]
    have hmaxeq : maxPairDistSq (convexHull points) = maxPairDistSq points := by
      apply le_antisymm
      · apply maxPairDistSq_le (maxPairDistSq_nonneg points)
        intro p hp q hq
        exact le_maxPairDistSq (hsub p hp) (hsub q hq)
      · apply maxPairDistSq_le (maxPairDistSq_nonneg (convexHull points))
        intro p hp q hq
        have h1 : distSq p q ≤ maxDistTo p (convexHull points) :=
          inside_maxDist h3 hCCW hcont hq p
        have h2 : maxDistTo p (convexHull points)
            ≤ maxPairDistSq (convexHull points) := by
          apply maxDistTo_le (maxPairDistSq_nonneg _)
          intro w hw
          have hwp : distSq w p ≤ maxDistTo w (convexHull points) :=
            inside_maxDist h3 hCCW hcont hp w
          have hwm : maxDistTo w (convexHull points)
              ≤ maxPairDistSq (convexHull points) :=
            foldl_max_mem (fun z => maxDistTo z (convexHull points)) _ 0 w hw
          rw [distSq_comm]
          linarith
        linarith
    refine ⟨?_, hmaxeq, ?_⟩
    · rw [heval]
      exact hdl
    · intro hc2
      exact absurd hc2 (by omega)

/-- C4 witness: the square with an interior point. -/
theorem c4_polygonDiameter_max_pairwise_witness :
    2 ≤ ([⟨0, 0⟩, ⟨4, 0⟩, ⟨4, 4⟩, ⟨0, 4⟩, ⟨2, 2⟩] : List Point).length ∧
    (polygonDiameterSq [⟨0, 0⟩, ⟨4, 0⟩, ⟨4, 4⟩, ⟨0, 4⟩, ⟨2, 2⟩]
        = maxPairDistSq (convexHull [⟨0, 0⟩, ⟨4, 0⟩, ⟨4, 4⟩, ⟨0, 4⟩, ⟨2, 2⟩]) ∧
      maxPairDistSq (convexHull [⟨0, 0⟩, ⟨4, 0⟩, ⟨4, 4⟩, ⟨0, 4⟩, ⟨2, 2⟩])
        = maxPairDistSq [⟨0, 0⟩, ⟨4, 0⟩, ⟨4, 4⟩, ⟨0, 4⟩, ⟨2, 2⟩] ∧
      ((convexHull [⟨0, 0⟩, ⟨4, 0⟩, ⟨4, 4⟩, ⟨0, 4⟩, ⟨2, 2⟩]).length = 2 →
        polygonDiameterSq [⟨0, 0⟩, ⟨4, 0⟩, ⟨4, 4⟩, ⟨0, 4⟩, ⟨2, 2⟩]
          = distSq
              ((convexHull [⟨0, 0⟩, ⟨4, 0⟩, ⟨4, 4⟩, ⟨0, 4⟩, ⟨2, 2⟩]).getD 0
                origin)
              ((convexHull [⟨0, 0⟩, ⟨4, 0⟩, ⟨4, 4⟩, ⟨0, 4⟩, ⟨2, 2⟩]).getD 1
                origin))) :=
  ⟨by decide, c4_polygonDiameter_max_pairwise _ (by decide)⟩

end CompGeom

